import Mathlib

/-!
# PhantomSDR-Plus: the AGC of `src/utils/audioprocessing.cpp`

A shallow embedding of the automatic gain control processor.

* `float` values are exact rationals (`ℚ`) in the functions that carry the names of the code
  (`new`, `push`, `pop`, `max`, `updateNoiseEstimate`, `calculateNoiseReduction`, `updateGain`,
  `process`, `reset`): rounding, infinities and NaN are outside these.
* NaN samples are in `Tracker`, `npush`, `npop`, `nmax` and `nupdateNoiseEstimate`: a sample is
  an `Option ℚ`, `none` is NaN, and every comparison with NaN is false, as in IEEE 754.
* Rounding is in the functions whose name ends in `F` (`newF`, `updateGainF`, `processF`, ...):
  every `float` operation of the code is rounded with `fl` and every `double` operation with
  `fd`, one operation at a time. `f32` and `f64` are the roundings of binary32 and binary64, to
  nearest, ties to even, with subnormals; overflow to infinity is left out.
* `std::deque<float>` is a `List ℚ`, front first. `front()` of an empty deque is undefined in
  C++; it is `none` here, and every function that may reach it returns an `Option`.
* `exp` and `pow` come from `<cmath>`; they are a parameter, `CMath`.
* The `printf` diagnostic of `process` writes to the console only and is left out.
-/

namespace AGC

/-- The two `<cmath>` functions the processor calls. -/
structure CMath where
  exp : ℚ → ℚ
  pow : ℚ → ℚ → ℚ

/-- The members of `class AGC`. -/
structure State where
  desired_level : ℚ
  gain : ℚ
  sample_rate : ℚ
  noise_estimate : ℚ
  noise_adapt_speed : ℚ
  noise_reduction_smoothing : ℚ
  last_noise_reduction : ℚ
  look_ahead_samples : ℕ
  attack_coeff : ℚ
  release_coeff : ℚ
  lookahead_buffer : List ℚ
  lookahead_max : List ℚ
deriving DecidableEq

/-- The conversion `static_cast<size_t>(x)` of a non-negative `float`: truncation toward zero.
C++ leaves the conversion undefined for values outside the range of `size_t`; they are outside
the model. -/
def static_cast_size_t (x : ℚ) : ℕ := Int.toNat ⌊x⌋

/-- The constructor `AGC::AGC`. -/
def new (m : CMath) (desiredLevel attackTimeMs releaseTimeMs lookAheadTimeMs sr : ℚ) : State :=
  { desired_level := desiredLevel
    gain := 1
    sample_rate := sr
    noise_estimate := 0
    noise_adapt_speed := 1 / 1000
    noise_reduction_smoothing := 9 / 10
    last_noise_reduction := 1
    look_ahead_samples := static_cast_size_t (lookAheadTimeMs * sr / 1000)
    attack_coeff := 1 - m.exp (-1 / (attackTimeMs * (1 / 1000) * sr))
    release_coeff := 1 - m.exp (-1 / (releaseTimeMs * (1 / 1000) * sr))
    lookahead_buffer := []
    lookahead_max := [] }

/-- The loop of `push`: `pop_back` while the deque is non-empty and its back is smaller in
absolute value than the sample. -/
def popBackSmaller (sample : ℚ) (d : List ℚ) : List ℚ :=
  d.rdropWhile (fun b => decide (|b| < |sample|))

/-- The method `AGC::pop`. -/
def pop (s : State) : Option State :=
  match s.lookahead_buffer with
  | [] => none
  | sample :: rest =>
    match s.lookahead_max with
    | [] => none
    | f :: more =>
      if sample = f then
        some { s with lookahead_buffer := rest, lookahead_max := more }
      else
        some { s with lookahead_buffer := rest }

/-- The method `AGC::push`. -/
def push (s : State) (sample : ℚ) : Option State :=
  let s1 : State :=
    { s with
      lookahead_buffer := s.lookahead_buffer ++ [sample]
      lookahead_max := popBackSmaller sample s.lookahead_max ++ [sample] }
  if s1.lookahead_buffer.length > s1.look_ahead_samples then pop s1 else some s1

/-- The method `AGC::max`. -/
def max (s : State) : Option ℚ :=
  match s.lookahead_max with
  | [] => none
  | f :: _ => some |f|

/-- The method `AGC::updateNoiseEstimate`. -/
def updateNoiseEstimate (s : State) (sample : ℚ) : State :=
  let abs_sample := |sample|
  if abs_sample < s.noise_estimate then
    { s with
      noise_estimate :=
        s.noise_estimate * (1 - s.noise_adapt_speed) + abs_sample * s.noise_adapt_speed }
  else
    { s with
      noise_estimate :=
        s.noise_estimate * (1 - s.noise_adapt_speed * (1 / 10))
          + abs_sample * s.noise_adapt_speed * (1 / 10) }

/-- The method `AGC::calculateNoiseReduction`: the returned value and the state after it. -/
def calculateNoiseReduction (m : CMath) (s : State) (sample : ℚ) : ℚ × State :=
  let abs_sample := |sample|
  let snr := abs_sample / (s.noise_estimate + 1 / 10000000000)
  let raw_reduction := min 1 (Max.max 0 ((snr - 1) / (snr + 1)))
  let gentle_reduction := m.pow raw_reduction (1 / 2)
  let smoothed_reduction :=
    s.last_noise_reduction * s.noise_reduction_smoothing
      + gentle_reduction * (1 - s.noise_reduction_smoothing)
  (smoothed_reduction, { s with last_noise_reduction := smoothed_reduction })

/-- The gain update of `process` against the peak `peak_sample`. -/
def updateGain (s : State) (peak_sample : ℚ) : State :=
  let desired_gain := s.desired_level / (peak_sample + 1 / 10000000000)
  if desired_gain < s.gain then
    { s with gain := s.gain - s.attack_coeff * (s.gain - desired_gain) }
  else
    { s with gain := s.gain + s.release_coeff * (desired_gain - s.gain) }

/-- One iteration of the loop of `process` on the sample `x = arr[i]`: the state after it and
the value written to `arr[i]`. -/
def processSample (m : CMath) (s : State) (x : ℚ) : Option (State × ℚ) :=
  match push s x with
  | none => none
  | some s1 =>
    let s2 := updateNoiseEstimate s1 x
    if s2.lookahead_buffer.length = s2.look_ahead_samples then
      match s2.lookahead_buffer.head? with
      | none => none
      | some current_sample =>
        match max s2 with
        | none => none
        | some peak_sample =>
          let s3 := updateGain s2 peak_sample
          let r := calculateNoiseReduction m s3 current_sample
          let noise_reduction := r.1
          let reduced_sample := current_sample * (noise_reduction * (7 / 10) + 3 / 10)
          some (r.2, reduced_sample * (r.2.gain * (1 / 100)))
    else
      some (s2, 0)

/-- The loop of `process` from index `i`, with `n` iterations left; the array is updated in
place. -/
def processLoop (m : CMath) : ℕ → ℕ → State → List ℚ → Option (State × List ℚ)
  | 0, _, s, arr => some (s, arr)
  | n + 1, i, s, arr =>
    match arr[i]? with
    | none => none
    | some x =>
      match processSample m s x with
      | none => none
      | some (s1, y) => processLoop m n (i + 1) s1 (arr.set i y)

/-- The method `AGC::process` on the buffer `arr` with `len = arr.length`. -/
def process (m : CMath) (s : State) (arr : List ℚ) : Option (State × List ℚ) :=
  processLoop m arr.length 0 s arr

/-- The method `AGC::reset`. -/
def reset (s : State) : State :=
  { s with
    gain := 1
    lookahead_buffer := []
    lookahead_max := []
    noise_estimate := 0
    last_noise_reduction := 1 }

/-- The samples of `l` that no later sample of `l` exceeds in absolute value. -/
def sufMax : List ℚ → List ℚ
  | [] => []
  | a :: l => if ∀ y ∈ l, |y| ≤ |a| then a :: sufMax l else sufMax l

/-- The window kept by `push`: the oldest sample leaves when there are more than `N`. -/
def window (N : ℕ) (l : List ℚ) : List ℚ := if l.length > N then l.tail else l

/-- A sequence of `push` calls, oldest sample first. -/
def pushAll (s : State) : List ℚ → Option State
  | [] => some s
  | x :: xs =>
    match push s x with
    | none => none
    | some s1 => pushAll s1 xs

/-- The last `n` elements of `l`. -/
def lastN (n : ℕ) (l : List ℚ) : List ℚ := l.drop (l.length - n)

/-- The loop of `process` as a fold over the samples: the state after the last sample and the
list of the values written, in order. -/
def processList (m : CMath) (s : State) : List ℚ → Option (State × List ℚ)
  | [] => some (s, [])
  | x :: xs =>
    match processSample m s x with
    | none => none
    | some (s1, y) =>
      match processList m s1 xs with
      | none => none
      | some (s2, ys) => some (s2, y :: ys)

/-- A call of a public method on a processor. -/
inductive Call where
  | process (arr : List ℚ)
  | reset

/-- A sequence of public method calls; the buffers handed back by `process` are dropped. -/
def run (m : CMath) (s : State) : List Call → Option State
  | [] => some s
  | Call.process arr :: cs =>
    match process m s arr with
    | none => none
    | some (s1, _) => run m s1 cs
  | Call.reset :: cs => run m (reset s) cs

/-- A rational stand-in for `<cmath>` on which examples are evaluated: `exp x` as `1 / (1 - x)`
and `pow x y` as the first Newton step `(x + 1) / 2` toward the square root. -/
def refMath : CMath :=
  { exp := fun x => 1 / (1 - x)
    pow := fun x _ => (x + 1) / 2 }

/-- The window length as the specification words it: the product rounded to the nearest
integer. -/
def specLookAheadSamples (lookAheadTimeMs sampleRate : ℚ) : ℕ :=
  Int.toNat (round (lookAheadTimeMs * sampleRate / 1000))

/-- A sequence of `updateNoiseEstimate` calls, oldest sample first. -/
def updateNoiseEstimateAll (s : State) (xs : List ℚ) : State :=
  xs.foldl updateNoiseEstimate s

/-- The invariant of `process` on a signal of constant magnitude `A`: the deque of maxima holds
the suffix maxima of the buffer, the buffer holds at most `N ≥ 1` samples, all of magnitude
`A`, and the configuration is `L`, `a`, `r`, `N`. -/
def DCInv (L a r : ℚ) (N : ℕ) (A : ℚ) (s : State) : Prop :=
  s.lookahead_max = sufMax s.lookahead_buffer ∧ s.look_ahead_samples = N ∧ 1 ≤ N ∧
    s.lookahead_buffer.length ≤ N ∧ (∀ y ∈ s.lookahead_buffer, |y| = A) ∧
    s.desired_level = L ∧ s.attack_coeff = a ∧ s.release_coeff = r

/-- The largest `|x|` over the samples `xs`, and `0` when there is none. -/
def maxAbs (xs : List ℚ) : ℚ := (xs.map (fun x => |x|)).foldr Max.max 0

/-- The two deques with every entry tagged by the input position of the sample that created
it. -/
structure Tagged where
  buffer : List (ℕ × ℚ)
  maxq : List (ℕ × ℚ)
deriving DecidableEq

/-- The method `AGC::pop` on tagged deques. The comparison is on the values, as in the code;
the flag tells that an entry was removed from `lookahead_max` whose position differs from the
position of the sample that left `lookahead_buffer`. -/
def tpop (t : Tagged) : Option (Tagged × Bool) :=
  match t.buffer with
  | [] => none
  | sample :: rest =>
    match t.maxq with
    | [] => none
    | f :: more =>
      if sample.2 = f.2 then
        some ({ buffer := rest, maxq := more }, decide (sample.1 ≠ f.1))
      else
        some ({ buffer := rest, maxq := f :: more }, false)

/-- The method `AGC::push` on tagged deques for the sample at input position `i`, with the
flag of the `pop` it runs. -/
def tpush (N : ℕ) (t : Tagged) (i : ℕ) (sample : ℚ) : Option (Tagged × Bool) :=
  let t1 : Tagged :=
    { buffer := t.buffer ++ [(i, sample)]
      maxq := t.maxq.rdropWhile (fun b => decide (|b.2| < |sample|)) ++ [(i, sample)] }
  if t1.buffer.length > N then tpop t1 else some (t1, false)

/-- The `push` calls of the samples `xs`, at the input positions `i, i + 1, ...`; the flag
tells that some `pop` removed an entry of another position than the evicted sample. -/
def tpushAll (N : ℕ) (t : Tagged) (i : ℕ) : List ℚ → Option (Tagged × Bool)
  | [] => some (t, false)
  | x :: xs =>
    match tpush N t i x with
    | none => none
    | some (t1, b) =>
      match tpushAll N t1 (i + 1) xs with
      | none => none
      | some (t2, c) => some (t2, b || c)

/-- The tagged samples of `l` that no later sample of `l` exceeds in absolute value. -/
def tsufMax : List (ℕ × ℚ) → List (ℕ × ℚ)
  | [] => []
  | a :: l => if ∀ y ∈ l, |y.2| ≤ |a.2| then a :: tsufMax l else tsufMax l

/-- `std::abs` on a `float` sample that may be NaN (`none`): NaN stays NaN. -/
def nabs (x : Option ℚ) : Option ℚ := x.map (fun v => |v|)

/-- The comparison `a < b` of two `float`s that may be NaN: false when a side is NaN. -/
def nlt (a b : Option ℚ) : Bool :=
  match a, b with
  | some x, some y => decide (x < y)
  | _, _ => false

/-- The comparison `a == b` of two `float`s that may be NaN: false when a side is NaN. -/
def neq (a b : Option ℚ) : Bool :=
  match a, b with
  | some x, some y => decide (x = y)
  | _, _ => false

/-- The comparison `a >= b` of two `float`s that may be NaN: false when a side is NaN. -/
def nge (a b : Option ℚ) : Bool :=
  match a, b with
  | some x, some y => decide (y ≤ x)
  | _, _ => false

/-- The members of `class AGC` that `push`, `pop` and `max` use, with samples that may be NaN
(`none`). -/
structure Tracker where
  look_ahead_samples : ℕ
  lookahead_buffer : List (Option ℚ)
  lookahead_max : List (Option ℚ)
deriving DecidableEq

/-- The method `AGC::pop` on samples that may be NaN. -/
def npop (t : Tracker) : Option Tracker :=
  match t.lookahead_buffer with
  | [] => none
  | sample :: rest =>
    match t.lookahead_max with
    | [] => none
    | f :: more =>
      if neq sample f then
        some { t with lookahead_buffer := rest, lookahead_max := more }
      else
        some { t with lookahead_buffer := rest }

/-- The method `AGC::push` on samples that may be NaN. -/
def npush (t : Tracker) (sample : Option ℚ) : Option Tracker :=
  let t1 : Tracker :=
    { t with
      lookahead_buffer := t.lookahead_buffer ++ [sample]
      lookahead_max :=
        t.lookahead_max.rdropWhile (fun b => nlt (nabs b) (nabs sample)) ++ [sample] }
  if t1.lookahead_buffer.length > t1.look_ahead_samples then npop t1 else some t1

/-- The method `AGC::max` on samples that may be NaN: `none` when the deque is empty, and
`some none` when the value returned is NaN. -/
def nmax (t : Tracker) : Option (Option ℚ) :=
  match t.lookahead_max with
  | [] => none
  | f :: _ => some (nabs f)

/-- A sequence of `push` calls with samples that may be NaN, oldest sample first. -/
def npushAll (t : Tracker) : List (Option ℚ) → Option Tracker
  | [] => some t
  | x :: xs =>
    match npush t x with
    | none => none
    | some t1 => npushAll t1 xs

/-- The deque part of one iteration of `process` on samples that may be NaN: `push(arr[i])`
and, in a steady-state step, the reads of `current_sample` and of the peak `max()`. -/
def nsteady (t : Tracker) (x : Option ℚ) :
    Option (Tracker × Option (Option ℚ × Option ℚ)) :=
  match npush t x with
  | none => none
  | some t1 =>
    if t1.lookahead_buffer.length = t1.look_ahead_samples then
      match t1.lookahead_buffer.head? with
      | none => none
      | some current_sample =>
        match nmax t1 with
        | none => none
        | some peak_sample => some (t1, some (current_sample, peak_sample))
    else
      some (t1, none)

/-- The deques of a processor state as deques of samples that may be NaN. -/
def toTracker (s : State) : Tracker :=
  { look_ahead_samples := s.look_ahead_samples
    lookahead_buffer := s.lookahead_buffer.map some
    lookahead_max := s.lookahead_max.map some }

/-- A processor state with empty deques and the window length `N`; the other members are set
as by `AGC(1, 10, 100, 5, 48000)` on `refMath`. -/
def emptyState (N : ℕ) : State := { new refMath 1 10 100 5 48000 with look_ahead_samples := N }

/-- The sum of two `float`s that may be NaN; rounding is left out. -/
def nadd (a b : Option ℚ) : Option ℚ :=
  match a, b with
  | some x, some y => some (x + y)
  | _, _ => none

/-- The product of two `float`s that may be NaN; rounding is left out. -/
def nmul (a b : Option ℚ) : Option ℚ :=
  match a, b with
  | some x, some y => some (x * y)
  | _, _ => none

/-- The method `AGC::updateNoiseEstimate` on the members it uses, with an estimate and a sample
that may be NaN: the new `noise_estimate`. -/
def nupdateNoiseEstimate (noise_adapt_speed : ℚ) (noise_estimate sample : Option ℚ) :
    Option ℚ :=
  let abs_sample := nabs sample
  if nlt abs_sample noise_estimate then
    nadd (nmul noise_estimate (some (1 - noise_adapt_speed)))
      (nmul abs_sample (some noise_adapt_speed))
  else
    nadd (nmul noise_estimate (some (1 - noise_adapt_speed * (1 / 10))))
      (nmul (nmul abs_sample (some noise_adapt_speed)) (some (1 / 10)))

/-- A sequence of `updateNoiseEstimate` calls with samples that may be NaN. -/
def nupdateNoiseEstimateAll (noise_adapt_speed : ℚ) (noise_estimate : Option ℚ)
    (xs : List (Option ℚ)) : Option ℚ :=
  xs.foldl (nupdateNoiseEstimate noise_adapt_speed) noise_estimate

/-- Round to the nearest integer, ties to the even one. -/
def roundEven (y : ℚ) : ℤ :=
  if y - ⌊y⌋ < 1 / 2 then ⌊y⌋
  else if 1 / 2 < y - ⌊y⌋ then ⌊y⌋ + 1
  else if ⌊y⌋ % 2 = 0 then ⌊y⌋ else ⌊y⌋ + 1

/-- The power `2 ^ k` for an integer `k`. -/
def pow2 (k : ℤ) : ℚ :=
  if 0 ≤ k then ((2 ^ k.toNat : ℕ) : ℚ) else 1 / ((2 ^ (-k).toNat : ℕ) : ℚ)

/-- The number of times `n` can be halved before it is below `2`, with `fuel` halvings at
most. -/
def log2Fuel : ℕ → ℕ → ℕ
  | 0, _ => 0
  | fuel + 1, n => if 2 ≤ n then log2Fuel fuel (n / 2) + 1 else 0

/-- The binary exponent of `x ≠ 0`: the integer `e` with `2 ^ e ≤ |x| < 2 ^ (e + 1)`. -/
def ilog2 (x : ℚ) : ℤ :=
  if pow2 ((log2Fuel x.num.natAbs x.num.natAbs : ℤ) - (log2Fuel x.den x.den : ℤ)) ≤ |x| then
    (log2Fuel x.num.natAbs x.num.natAbs : ℤ) - (log2Fuel x.den x.den : ℤ)
  else
    (log2Fuel x.num.natAbs x.num.natAbs : ℤ) - (log2Fuel x.den x.den : ℤ) - 1

/-- The exponent of a binary format with least exponent `emin` for `x`: the binary exponent,
and `emin` in the subnormal range. -/
def fexp (emin : ℤ) (x : ℚ) : ℤ := Max.max (ilog2 x) emin

/-- The unit in the last place of `x` in the binary format with `p` significant bits and least
exponent `emin`. -/
def ulp (p : ℕ) (emin : ℤ) (x : ℚ) : ℚ := pow2 (fexp emin x - ((p : ℤ) - 1))

/-- The value nearest to `x` in the binary format with `p` significant bits and least exponent
`emin`, ties to even, subnormals included. The exponent range has no upper end: overflow to
infinity is left out. -/
def rnd (p : ℕ) (emin : ℤ) (x : ℚ) : ℚ := roundEven (x / ulp p emin x) * ulp p emin x

/-- The binary32 (`float`) value nearest to `x`. -/
def f32 (x : ℚ) : ℚ := rnd 24 (-126) x

/-- The binary64 (`double`) value nearest to `x`. -/
def f64 (x : ℚ) : ℚ := rnd 53 (-1022) x

/-- What the gain and constructor theorems use of a rounding `fl` to a floating-point format: it
is monotone, leaves its own values unchanged, and leaves `0` and `1` unchanged. -/
structure Rounding (fl : ℚ → ℚ) : Prop where
  mono : ∀ x y, x ≤ y → fl x ≤ fl y
  idem : ∀ x, fl (fl x) = fl x
  zero : fl 0 = 0
  one : fl 1 = 1

/-- The conversion `static_cast<size_t>(x)` of a `float` to a 64-bit `size_t`: truncation
toward zero, and `none` outside the range of `size_t`, where C++ leaves it undefined. -/
def castSizeT (x : ℚ) : Option ℕ :=
  if -1 < x ∧ x < 2 ^ 64 then some (Int.toNat ⌊x⌋) else none

/-- The value of `lookAheadTimeMs * sample_rate / 1000.0f` in `float` arithmetic with the
rounding `fl`: the product is rounded, then the quotient. -/
def lookAheadValue (fl : ℚ → ℚ) (lookAheadTimeMs sr : ℚ) : ℚ :=
  fl (fl (lookAheadTimeMs * sr) / 1000)

/-- The coefficient `1 - exp(-1.0f / (timeMs * 0.001f * sample_rate))` as stored in a `float`
member. The argument of `exp` is computed in `float` arithmetic with the rounding `fl`, `m.exp`
is the value the library returns, and the difference is rounded to `double` with `fd` and then
to `float`: this is the code when `exp` is the `double` function of the C library, and it gives
the same value as the `float` subtraction when `exp` is the `float` overload. When the product
underflows to zero the quotient is minus infinity, `exp` returns `0`, and the coefficient
is `1`. -/
def coeffF (fl fd : ℚ → ℚ) (m : CMath) (timeMs sr : ℚ) : ℚ :=
  if fl (fl (timeMs * fl (1 / 1000)) * sr) = 0 then 1
  else fl (fd (1 - m.exp (fl (-1 / fl (fl (timeMs * fl (1 / 1000)) * sr)))))

/-- The constructor `AGC::AGC` in `float` arithmetic with the rounding `fl` (and `fd` for
`double`); the arguments are `float` values, and the result is `none` when the conversion to
`size_t` is undefined. -/
def newF (fl fd : ℚ → ℚ) (m : CMath)
    (desiredLevel attackTimeMs releaseTimeMs lookAheadTimeMs sr : ℚ) : Option State :=
  match castSizeT (lookAheadValue fl lookAheadTimeMs sr) with
  | none => none
  | some n =>
    some
      { desired_level := desiredLevel
        gain := 1
        sample_rate := sr
        noise_estimate := 0
        noise_adapt_speed := fl (1 / 1000)
        noise_reduction_smoothing := fl (9 / 10)
        last_noise_reduction := 1
        look_ahead_samples := n
        attack_coeff := coeffF fl fd m attackTimeMs sr
        release_coeff := coeffF fl fd m releaseTimeMs sr
        lookahead_buffer := []
        lookahead_max := [] }

/-- The method `AGC::updateNoiseEstimate` in `float` arithmetic with the rounding `fl`. -/
def updateNoiseEstimateF (fl : ℚ → ℚ) (s : State) (sample : ℚ) : State :=
  let abs_sample := |sample|
  if abs_sample < s.noise_estimate then
    { s with
      noise_estimate :=
        fl (fl (s.noise_estimate * fl (1 - s.noise_adapt_speed))
          + fl (abs_sample * s.noise_adapt_speed)) }
  else
    { s with
      noise_estimate :=
        fl (fl (s.noise_estimate * fl (1 - fl (s.noise_adapt_speed * fl (1 / 10))))
          + fl (fl (abs_sample * s.noise_adapt_speed) * fl (1 / 10))) }

/-- The method `AGC::calculateNoiseReduction` in `float` arithmetic with the rounding `fl`;
`m.pow` is the value the library returns. -/
def calculateNoiseReductionF (fl : ℚ → ℚ) (m : CMath) (s : State) (sample : ℚ) : ℚ × State :=
  let abs_sample := |sample|
  let snr := fl (abs_sample / fl (s.noise_estimate + fl (1 / 10000000000)))
  let raw_reduction := min 1 (Max.max 0 (fl (fl (snr - 1) / fl (snr + 1))))
  let gentle_reduction := m.pow raw_reduction (1 / 2)
  let smoothed_reduction :=
    fl (fl (s.last_noise_reduction * s.noise_reduction_smoothing)
      + fl (gentle_reduction * fl (1 - s.noise_reduction_smoothing)))
  (smoothed_reduction, { s with last_noise_reduction := smoothed_reduction })

/-- The gain update of `process` against the peak `peak_sample` in `float` arithmetic with the
rounding `fl`: every operation of lines 71 to 77 is rounded. -/
def updateGainF (fl : ℚ → ℚ) (s : State) (peak_sample : ℚ) : State :=
  let desired_gain := fl (s.desired_level / fl (peak_sample + fl (1 / 10000000000)))
  if desired_gain < s.gain then
    { s with gain := fl (s.gain - fl (s.attack_coeff * fl (s.gain - desired_gain))) }
  else
    { s with gain := fl (s.gain + fl (s.release_coeff * fl (desired_gain - s.gain))) }

/-- One iteration of the loop of `process` in `float` arithmetic with the rounding `fl`. The
product of line 84 has the `double` constant `0.01` in it: it is computed in `double` with the
rounding `fd` and rounded to `float` when it is stored in `arr[i]`. -/
def processSampleF (fl fd : ℚ → ℚ) (m : CMath) (s : State) (x : ℚ) : Option (State × ℚ) :=
  match push s x with
  | none => none
  | some s1 =>
    let s2 := updateNoiseEstimateF fl s1 x
    if s2.lookahead_buffer.length = s2.look_ahead_samples then
      match s2.lookahead_buffer.head? with
      | none => none
      | some current_sample =>
        match max s2 with
        | none => none
        | some peak_sample =>
          let s3 := updateGainF fl s2 peak_sample
          let r := calculateNoiseReductionF fl m s3 current_sample
          let noise_reduction := r.1
          let reduced_sample :=
            fl (current_sample * fl (fl (noise_reduction * fl (7 / 10)) + fl (3 / 10)))
          some (r.2, fl (fd (reduced_sample * fd (r.2.gain * fd (1 / 100)))))
    else
      some (s2, 0)

/-- The loop of `process` in `float` arithmetic, from index `i` with `n` iterations left. -/
def processLoopF (fl fd : ℚ → ℚ) (m : CMath) :
    ℕ → ℕ → State → List ℚ → Option (State × List ℚ)
  | 0, _, s, arr => some (s, arr)
  | n + 1, i, s, arr =>
    match arr[i]? with
    | none => none
    | some x =>
      match processSampleF fl fd m s x with
      | none => none
      | some (s1, y) => processLoopF fl fd m n (i + 1) s1 (arr.set i y)

/-- The method `AGC::process` in `float` arithmetic on the buffer `arr` with
`len = arr.length`. -/
def processF (fl fd : ℚ → ℚ) (m : CMath) (s : State) (arr : List ℚ) : Option (State × List ℚ) :=
  processLoopF fl fd m arr.length 0 s arr

/-- The loop of `process` in `float` arithmetic as a fold over the samples. -/
def processListF (fl fd : ℚ → ℚ) (m : CMath) (s : State) :
    List ℚ → Option (State × List ℚ)
  | [] => some (s, [])
  | x :: xs =>
    match processSampleF fl fd m s x with
    | none => none
    | some (s1, y) =>
      match processListF fl fd m s1 xs with
      | none => none
      | some (s2, ys) => some (s2, y :: ys)

/-- A sequence of public method calls in `float` arithmetic. -/
def runF (fl fd : ℚ → ℚ) (m : CMath) (s : State) : List Call → Option State
  | [] => some s
  | Call.process arr :: cs =>
    match processF fl fd m s arr with
    | none => none
    | some (s1, _) => runF fl fd m s1 cs
  | Call.reset :: cs => runF fl fd m (reset s) cs

/-- A sharper rational stand-in for `exp`, `1 / (1 - x / 32) ^ 32`, with the `pow` of
`refMath`. -/
def sharpMath : CMath :=
  { exp := fun x => 1 / (1 - x / 32) ^ 32
    pow := refMath.pow }

/-- The invariant of the gain in `float` arithmetic with the rounding `fl`: the desired level is
not negative, both coefficients are in `[0, 1]`, and `gain` is a non-negative `float`. -/
def GainInv (fl : ℚ → ℚ) (s : State) : Prop :=
  0 ≤ s.desired_level ∧ (0 ≤ s.attack_coeff ∧ s.attack_coeff ≤ 1) ∧
    (0 ≤ s.release_coeff ∧ s.release_coeff ≤ 1) ∧ 0 ≤ s.gain ∧ fl s.gain = s.gain

/-- The invariant of the noise estimate in `float` arithmetic: the estimate is not negative and
`noise_adapt_speed` is in `[0, 1]`. -/
def NoiseInv (s : State) : Prop :=
  0 ≤ s.noise_estimate ∧ 0 ≤ s.noise_adapt_speed ∧ s.noise_adapt_speed ≤ 1

theorem rdropWhile_cons_neg (p : ℚ → Bool) (a : ℚ) (L : List ℚ) (h : ¬ p a) :
    (a :: L).rdropWhile p = a :: L.rdropWhile p := by
  induction L using List.reverseRecOn with
  | nil => simp [List.rdropWhile_singleton, h]
  | append_singleton L b ih =>
    rw [← List.cons_append, List.rdropWhile_concat, List.rdropWhile_concat]
    split
    · exact ih
    · rfl

theorem mem_sufMax {l : List ℚ} {y : ℚ} (h : y ∈ sufMax l) : y ∈ l := by
  induction l with
  | nil => simp [sufMax] at h
  | cons a l ih =>
    unfold sufMax at h
    split at h
    · rcases List.mem_cons.1 h with h | h
      · simp [h]
      · exact List.mem_cons_of_mem _ (ih h)
    · exact List.mem_cons_of_mem _ (ih h)

theorem sufMax_concat (l : List ℚ) (x : ℚ) :
    sufMax (l ++ [x]) = popBackSmaller x (sufMax l) ++ [x] := by
  induction l with
  | nil => simp [sufMax, popBackSmaller]
  | cons a l ih =>
    rw [List.cons_append, sufMax, ih]
    by_cases hl : ∀ y ∈ l, |y| ≤ |a|
    · by_cases hx : |x| ≤ |a|
      · have h1 : ∀ y ∈ l ++ [x], |y| ≤ |a| := by
          intro y hy
          rcases List.mem_append.1 hy with hy | hy
          · exact hl y hy
          · simpa [List.mem_singleton.1 hy] using hx
        rw [if_pos h1, sufMax, if_pos hl]
        unfold popBackSmaller
        rw [rdropWhile_cons_neg _ _ _ (by simpa using hx)]
        rfl
      · have h1 : ¬ ∀ y ∈ l ++ [x], |y| ≤ |a| := fun h => hx (h x (by simp))
        rw [if_neg h1, sufMax, if_pos hl]
        unfold popBackSmaller
        have e1 : (sufMax l).rdropWhile (fun b => decide (|b| < |x|)) = [] := by
          rw [List.rdropWhile_eq_nil_iff]
          intro y hy
          have := hl y (mem_sufMax hy)
          simp only [decide_eq_true_eq]
          exact lt_of_le_of_lt this (not_le.1 hx)
        have e2 : (a :: sufMax l).rdropWhile (fun b => decide (|b| < |x|)) = [] := by
          rw [List.rdropWhile_eq_nil_iff]
          intro y hy
          simp only [decide_eq_true_eq]
          rcases List.mem_cons.1 hy with hy | hy
          · rw [hy]; exact not_le.1 hx
          · exact lt_of_le_of_lt (hl y (mem_sufMax hy)) (not_le.1 hx)
        rw [e1, e2]
    · have h1 : ¬ ∀ y ∈ l ++ [x], |y| ≤ |a| :=
        fun h => hl (fun y hy => h y (List.mem_append_left _ hy))
      rw [if_neg h1, sufMax, if_neg hl]

theorem sufMax_head (l : List ℚ) (hl : l ≠ []) :
    ∃ f rest, sufMax l = f :: rest ∧ f ∈ l ∧ ∀ y ∈ l, |y| ≤ |f| := by
  induction l with
  | nil => exact absurd rfl hl
  | cons a l ih =>
    by_cases h : ∀ y ∈ l, |y| ≤ |a|
    · refine ⟨a, sufMax l, by rw [sufMax, if_pos h], by simp, ?_⟩
      intro y hy
      rcases List.mem_cons.1 hy with hy | hy
      · rw [hy]
      · exact h y hy
    · have hne : l ≠ [] := by
        rintro rfl
        exact h (by simp)
      obtain ⟨f, rest, e, hf, hmax⟩ := ih hne
      refine ⟨f, rest, by rw [sufMax, if_neg h, e], List.mem_cons_of_mem _ hf, ?_⟩
      intro y hy
      rcases List.mem_cons.1 hy with hy | hy
      · push_neg at h
        obtain ⟨z, hz, hlt⟩ := h
        rw [hy]
        exact le_trans (le_of_lt hlt) (hmax z hz)
      · exact hmax y hy

theorem pop_sufMax (s : State) (a : ℚ) (l : List ℚ)
    (hb : s.lookahead_buffer = a :: l) (hm : s.lookahead_max = sufMax (a :: l)) :
    pop s = some { s with lookahead_buffer := l, lookahead_max := sufMax l } := by
  unfold pop
  rw [hb]
  by_cases h : ∀ y ∈ l, |y| ≤ |a|
  · rw [hm, sufMax, if_pos h]
    simp
  · have hne : l ≠ [] := by
      rintro rfl
      exact h (by simp)
    obtain ⟨f, rest, e, hf, hmax⟩ := sufMax_head l hne
    have hfa : a ≠ f := by
      rintro rfl
      exact h hmax
    rw [hm, sufMax, if_neg h, e]
    simp only [if_neg hfa]

theorem push_sufMax (s : State) (x : ℚ) (hm : s.lookahead_max = sufMax s.lookahead_buffer) :
    push s x = some { s with
      lookahead_buffer := window s.look_ahead_samples (s.lookahead_buffer ++ [x])
      lookahead_max := sufMax (window s.look_ahead_samples (s.lookahead_buffer ++ [x])) } := by
  unfold push window
  simp only [hm, ← sufMax_concat]
  split
  · cases hb : s.lookahead_buffer ++ [x] with
    | nil => simp at hb
    | cons a l =>
      rw [pop_sufMax _ a l (by simp [hb]) (by simp [hb])]
      simp
  · rfl

theorem window_lastN (N : ℕ) (xs : List ℚ) (x : ℚ) :
    window N (lastN (min xs.length N) xs ++ [x])
      = lastN (min (xs ++ [x]).length N) (xs ++ [x]) := by
  unfold window lastN
  have hlen : (List.drop (xs.length - min xs.length N) xs ++ [x]).length
      = min xs.length N + 1 := by
    simp only [List.length_append, List.length_drop, List.length_singleton]
    omega
  rw [hlen]
  have e : List.drop (xs.length - min xs.length N) xs ++ [x]
      = List.drop (xs.length - min xs.length N) (xs ++ [x]) := by
    rw [List.drop_append_of_le_length (by omega)]
  rw [e]
  simp only [List.length_append, List.length_singleton]
  split
  · rw [List.tail_drop]
    congr 1
    omega
  · congr 1
    omega

theorem pushAll_sufMax (xs : List ℚ) (s : State)
    (hm : s.lookahead_max = sufMax s.lookahead_buffer) :
    pushAll s xs = some { s with
      lookahead_buffer :=
        xs.foldl (fun b x => window s.look_ahead_samples (b ++ [x])) s.lookahead_buffer
      lookahead_max := sufMax
        (xs.foldl (fun b x => window s.look_ahead_samples (b ++ [x])) s.lookahead_buffer) } := by
  induction xs generalizing s with
  | nil =>
    cases s
    simp only at hm
    simp [pushAll, hm]
  | cons x xs ih =>
    rw [pushAll, push_sufMax s x hm]
    simp only
    rw [ih _ rfl]
    rfl

theorem foldl_window (N : ℕ) (xs : List ℚ) :
    xs.foldl (fun b x => window N (b ++ [x])) [] = lastN (min xs.length N) xs := by
  induction xs using List.reverseRecOn with
  | nil => simp [lastN]
  | append_singleton xs x ih =>
    rw [List.foldl_append, ih]
    simp only [List.foldl_cons, List.foldl_nil]
    exact window_lastN N xs x

/-- After a non-empty sequence of `push` calls with numbers on a processor with empty deques
and a window of at least one sample, `max()` is defined and is the maximum of `|x|` over the
last `min(k, N)` pushed samples. -/
theorem pushAll_peak (s0 : State) (xs : List ℚ)
    (hb : s0.lookahead_buffer = []) (hm : s0.lookahead_max = [])
    (hN : 1 ≤ s0.look_ahead_samples) (hk : xs ≠ []) :
    ∃ s M, pushAll s0 xs = some s ∧ max s = some M ∧
      (∃ y ∈ lastN (min xs.length s0.look_ahead_samples) xs, |y| = M) ∧
      ∀ y ∈ lastN (min xs.length s0.look_ahead_samples) xs, |y| ≤ M := by
  have h0 : s0.lookahead_max = sufMax s0.lookahead_buffer := by rw [hb, hm]; rfl
  have hrun := pushAll_sufMax xs s0 h0
  rw [hb, foldl_window] at hrun
  have hne : lastN (min xs.length s0.look_ahead_samples) xs ≠ [] := by
    have hlen : 0 < xs.length := List.length_pos.2 hk
    intro h
    have := congrArg List.length h
    simp only [lastN, List.length_drop, List.length_nil] at this
    omega
  obtain ⟨f, rest, e, hf, hmax⟩ := sufMax_head _ hne
  refine ⟨_, |f|, hrun, ?_, ⟨f, hf, rfl⟩, hmax⟩
  simp only [max, e]

theorem processLoop_append (m : CMath) (xs : List ℚ) (pre : List ℚ) (s : State) :
    processLoop m xs.length pre.length s (pre ++ xs)
      = (processList m s xs).map (fun r => (r.1, pre ++ r.2)) := by
  induction xs generalizing pre s with
  | nil => simp [processLoop, processList]
  | cons x xs ih =>
    simp only [List.length_cons, processLoop, processList]
    rw [List.getElem?_append_right (le_refl _)]
    simp only [Nat.sub_self, List.getElem?_cons_zero]
    cases h : processSample m s x with
    | none => simp
    | some r =>
      obtain ⟨s1, y⟩ := r
      simp only
      have e : (pre ++ x :: xs).set pre.length y = (pre ++ [y]) ++ xs := by
        rw [List.set_append_right _ _ (le_refl _)]
        simp
      have e2 : pre.length + 1 = (pre ++ [y]).length := by simp
      rw [e, e2, ih]
      cases processList m s1 xs with
      | none => simp
      | some r2 => simp

theorem process_eq_processList (m : CMath) (s : State) (arr : List ℚ) :
    process m s arr = processList m s arr := by
  have h := processLoop_append m arr [] s
  simp only [List.length_nil, List.nil_append] at h
  unfold process
  rw [h]
  cases processList m s arr with
  | none => rfl
  | some r => rfl

theorem processSample_iff (m : CMath) (s : State) (x : ℚ) (s1 : State) (y : ℚ) :
    processSample m s x = some (s1, y) ↔
      ∃ p, push s x = some p ∧
        (((updateNoiseEstimate p x).lookahead_buffer.length
              ≠ (updateNoiseEstimate p x).look_ahead_samples
            ∧ s1 = updateNoiseEstimate p x ∧ y = 0) ∨
          ((updateNoiseEstimate p x).lookahead_buffer.length
              = (updateNoiseEstimate p x).look_ahead_samples ∧
            ∃ cur peak, (updateNoiseEstimate p x).lookahead_buffer.head? = some cur ∧
              max (updateNoiseEstimate p x) = some peak ∧
              s1 = (calculateNoiseReduction m
                      (updateGain (updateNoiseEstimate p x) peak) cur).2 ∧
              y = cur * ((calculateNoiseReduction m
                      (updateGain (updateNoiseEstimate p x) peak) cur).1 * (7 / 10) + 3 / 10)
                    * ((calculateNoiseReduction m
                      (updateGain (updateNoiseEstimate p x) peak) cur).2.gain * (1 / 100)))) := by
  unfold processSample
  cases hp : push s x with
  | none => simp
  | some p =>
    simp only [Option.some.injEq, exists_eq_left']
    split
    · rename_i hfull
      cases hc : (updateNoiseEstimate p x).lookahead_buffer.head? with
      | none => simp [hfull]
      | some cur =>
        cases hk : max (updateNoiseEstimate p x) with
        | none => simp [hfull]
        | some peak =>
          simp only [Option.some.injEq, Prod.mk.injEq, hfull, ne_eq, not_true_eq_false,
            false_and, true_and, false_or, exists_eq_left']
          constructor
          · rintro ⟨rfl, rfl⟩
            exact ⟨cur, peak, rfl, rfl, rfl, rfl⟩
          · rintro ⟨c, k, rfl, rfl, rfl, rfl⟩
            exact ⟨rfl, rfl⟩
    · rename_i hfull
      simp only [Option.some.injEq, Prod.mk.injEq, ne_eq, hfull, not_false_eq_true, true_and,
        false_and, or_false]
      constructor
      · rintro ⟨rfl, rfl⟩
        exact ⟨rfl, rfl⟩
      · rintro ⟨rfl, rfl⟩
        exact ⟨rfl, rfl⟩

@[simp] theorem updateNoiseEstimate_desired_level (s : State) (x : ℚ) :
    (updateNoiseEstimate s x).desired_level = s.desired_level := by
  simp only [updateNoiseEstimate]; split <;> rfl

@[simp] theorem updateNoiseEstimate_gain (s : State) (x : ℚ) :
    (updateNoiseEstimate s x).gain = s.gain := by
  simp only [updateNoiseEstimate]; split <;> rfl

@[simp] theorem updateNoiseEstimate_sample_rate (s : State) (x : ℚ) :
    (updateNoiseEstimate s x).sample_rate = s.sample_rate := by
  simp only [updateNoiseEstimate]; split <;> rfl

@[simp] theorem updateNoiseEstimate_noise_adapt_speed (s : State) (x : ℚ) :
    (updateNoiseEstimate s x).noise_adapt_speed = s.noise_adapt_speed := by
  simp only [updateNoiseEstimate]; split <;> rfl

@[simp] theorem updateNoiseEstimate_noise_reduction_smoothing (s : State) (x : ℚ) :
    (updateNoiseEstimate s x).noise_reduction_smoothing = s.noise_reduction_smoothing := by
  simp only [updateNoiseEstimate]; split <;> rfl

@[simp] theorem updateNoiseEstimate_last_noise_reduction (s : State) (x : ℚ) :
    (updateNoiseEstimate s x).last_noise_reduction = s.last_noise_reduction := by
  simp only [updateNoiseEstimate]; split <;> rfl

@[simp] theorem updateNoiseEstimate_look_ahead_samples (s : State) (x : ℚ) :
    (updateNoiseEstimate s x).look_ahead_samples = s.look_ahead_samples := by
  simp only [updateNoiseEstimate]; split <;> rfl

@[simp] theorem updateNoiseEstimate_attack_coeff (s : State) (x : ℚ) :
    (updateNoiseEstimate s x).attack_coeff = s.attack_coeff := by
  simp only [updateNoiseEstimate]; split <;> rfl

@[simp] theorem updateNoiseEstimate_release_coeff (s : State) (x : ℚ) :
    (updateNoiseEstimate s x).release_coeff = s.release_coeff := by
  simp only [updateNoiseEstimate]; split <;> rfl

@[simp] theorem updateNoiseEstimate_lookahead_buffer (s : State) (x : ℚ) :
    (updateNoiseEstimate s x).lookahead_buffer = s.lookahead_buffer := by
  simp only [updateNoiseEstimate]; split <;> rfl

@[simp] theorem updateNoiseEstimate_lookahead_max (s : State) (x : ℚ) :
    (updateNoiseEstimate s x).lookahead_max = s.lookahead_max := by
  simp only [updateNoiseEstimate]; split <;> rfl

@[simp] theorem updateGain_desired_level (s : State) (k : ℚ) :
    (updateGain s k).desired_level = s.desired_level := by
  simp only [updateGain]; split <;> rfl

@[simp] theorem updateGain_sample_rate (s : State) (k : ℚ) :
    (updateGain s k).sample_rate = s.sample_rate := by
  simp only [updateGain]; split <;> rfl

@[simp] theorem updateGain_noise_estimate (s : State) (k : ℚ) :
    (updateGain s k).noise_estimate = s.noise_estimate := by
  simp only [updateGain]; split <;> rfl

@[simp] theorem updateGain_noise_adapt_speed (s : State) (k : ℚ) :
    (updateGain s k).noise_adapt_speed = s.noise_adapt_speed := by
  simp only [updateGain]; split <;> rfl

@[simp] theorem updateGain_noise_reduction_smoothing (s : State) (k : ℚ) :
    (updateGain s k).noise_reduction_smoothing = s.noise_reduction_smoothing := by
  simp only [updateGain]; split <;> rfl

@[simp] theorem updateGain_last_noise_reduction (s : State) (k : ℚ) :
    (updateGain s k).last_noise_reduction = s.last_noise_reduction := by
  simp only [updateGain]; split <;> rfl

@[simp] theorem updateGain_look_ahead_samples (s : State) (k : ℚ) :
    (updateGain s k).look_ahead_samples = s.look_ahead_samples := by
  simp only [updateGain]; split <;> rfl

@[simp] theorem updateGain_attack_coeff (s : State) (k : ℚ) :
    (updateGain s k).attack_coeff = s.attack_coeff := by
  simp only [updateGain]; split <;> rfl

@[simp] theorem updateGain_release_coeff (s : State) (k : ℚ) :
    (updateGain s k).release_coeff = s.release_coeff := by
  simp only [updateGain]; split <;> rfl

@[simp] theorem updateGain_lookahead_buffer (s : State) (k : ℚ) :
    (updateGain s k).lookahead_buffer = s.lookahead_buffer := by
  simp only [updateGain]; split <;> rfl

@[simp] theorem updateGain_lookahead_max (s : State) (k : ℚ) :
    (updateGain s k).lookahead_max = s.lookahead_max := by
  simp only [updateGain]; split <;> rfl

@[simp] theorem calculateNoiseReduction_desired_level (m : CMath) (s : State) (c : ℚ) :
    ((calculateNoiseReduction m s c).2).desired_level = s.desired_level := by
  rfl

@[simp] theorem calculateNoiseReduction_gain (m : CMath) (s : State) (c : ℚ) :
    ((calculateNoiseReduction m s c).2).gain = s.gain := by
  rfl

@[simp] theorem calculateNoiseReduction_sample_rate (m : CMath) (s : State) (c : ℚ) :
    ((calculateNoiseReduction m s c).2).sample_rate = s.sample_rate := by
  rfl

@[simp] theorem calculateNoiseReduction_noise_estimate (m : CMath) (s : State) (c : ℚ) :
    ((calculateNoiseReduction m s c).2).noise_estimate = s.noise_estimate := by
  rfl

@[simp] theorem calculateNoiseReduction_noise_adapt_speed (m : CMath) (s : State) (c : ℚ) :
    ((calculateNoiseReduction m s c).2).noise_adapt_speed = s.noise_adapt_speed := by
  rfl

@[simp] theorem calculateNoiseReduction_noise_reduction_smoothing (m : CMath) (s : State) (c : ℚ) :
    ((calculateNoiseReduction m s c).2).noise_reduction_smoothing = s.noise_reduction_smoothing := by
  rfl

@[simp] theorem calculateNoiseReduction_look_ahead_samples (m : CMath) (s : State) (c : ℚ) :
    ((calculateNoiseReduction m s c).2).look_ahead_samples = s.look_ahead_samples := by
  rfl

@[simp] theorem calculateNoiseReduction_attack_coeff (m : CMath) (s : State) (c : ℚ) :
    ((calculateNoiseReduction m s c).2).attack_coeff = s.attack_coeff := by
  rfl

@[simp] theorem calculateNoiseReduction_release_coeff (m : CMath) (s : State) (c : ℚ) :
    ((calculateNoiseReduction m s c).2).release_coeff = s.release_coeff := by
  rfl

@[simp] theorem calculateNoiseReduction_lookahead_buffer (m : CMath) (s : State) (c : ℚ) :
    ((calculateNoiseReduction m s c).2).lookahead_buffer = s.lookahead_buffer := by
  rfl

@[simp] theorem calculateNoiseReduction_lookahead_max (m : CMath) (s : State) (c : ℚ) :
    ((calculateNoiseReduction m s c).2).lookahead_max = s.lookahead_max := by
  rfl

@[simp] theorem reset_desired_level (s : State) :
    (reset s).desired_level = s.desired_level := by
  rfl

@[simp] theorem reset_sample_rate (s : State) :
    (reset s).sample_rate = s.sample_rate := by
  rfl

@[simp] theorem reset_noise_adapt_speed (s : State) :
    (reset s).noise_adapt_speed = s.noise_adapt_speed := by
  rfl

@[simp] theorem reset_noise_reduction_smoothing (s : State) :
    (reset s).noise_reduction_smoothing = s.noise_reduction_smoothing := by
  rfl

@[simp] theorem reset_look_ahead_samples (s : State) :
    (reset s).look_ahead_samples = s.look_ahead_samples := by
  rfl

@[simp] theorem reset_attack_coeff (s : State) :
    (reset s).attack_coeff = s.attack_coeff := by
  rfl

@[simp] theorem reset_release_coeff (s : State) :
    (reset s).release_coeff = s.release_coeff := by
  rfl

@[simp] theorem calculateNoiseReduction_snd_last (m : CMath) (s : State) (c : ℚ) :
    (calculateNoiseReduction m s c).2.last_noise_reduction = (calculateNoiseReduction m s c).1 := by
  rfl

theorem pop_frame (s p : State) (h : pop s = some p) :
    p.desired_level = s.desired_level ∧ p.gain = s.gain ∧ p.sample_rate = s.sample_rate ∧
      p.noise_estimate = s.noise_estimate ∧ p.noise_adapt_speed = s.noise_adapt_speed ∧
      p.noise_reduction_smoothing = s.noise_reduction_smoothing ∧
      p.last_noise_reduction = s.last_noise_reduction ∧
      p.look_ahead_samples = s.look_ahead_samples ∧ p.attack_coeff = s.attack_coeff ∧
      p.release_coeff = s.release_coeff := by
  unfold pop at h
  split at h
  · exact absurd h (by simp)
  · split at h
    · exact absurd h (by simp)
    · split at h <;>
      · simp only [Option.some.injEq] at h
        subst h
        simp

theorem push_frame (s p : State) (x : ℚ) (h : push s x = some p) :
    p.desired_level = s.desired_level ∧ p.gain = s.gain ∧ p.sample_rate = s.sample_rate ∧
      p.noise_estimate = s.noise_estimate ∧ p.noise_adapt_speed = s.noise_adapt_speed ∧
      p.noise_reduction_smoothing = s.noise_reduction_smoothing ∧
      p.last_noise_reduction = s.last_noise_reduction ∧
      p.look_ahead_samples = s.look_ahead_samples ∧ p.attack_coeff = s.attack_coeff ∧
      p.release_coeff = s.release_coeff := by
  unfold push at h
  simp only at h
  split at h
  · simpa using pop_frame _ _ h
  · simp only [Option.some.injEq] at h
    subst h
    simp

/-- No iteration of `process` assigns a configuration member. -/
theorem processSample_config (m : CMath) (s s1 : State) (x y : ℚ)
    (h : processSample m s x = some (s1, y)) :
    s1.desired_level = s.desired_level ∧ s1.sample_rate = s.sample_rate ∧
      s1.noise_adapt_speed = s.noise_adapt_speed ∧
      s1.noise_reduction_smoothing = s.noise_reduction_smoothing ∧
      s1.look_ahead_samples = s.look_ahead_samples ∧ s1.attack_coeff = s.attack_coeff ∧
      s1.release_coeff = s.release_coeff := by
  obtain ⟨p, hp, hcase⟩ := (processSample_iff m s x s1 y).1 h
  obtain ⟨h1, h2, h3, h4, h5, h6, h7, h8, h9, h10⟩ := push_frame s p x hp
  rcases hcase with ⟨_, rfl, _⟩ | ⟨_, cur, peak, _, _, rfl, _⟩
  · simp [*]
  · simp [*]

theorem processList_induction (m : CMath) (P : State → Prop)
    (hstep : ∀ s x s1 y, P s → processSample m s x = some (s1, y) → P s1)
    (xs : List ℚ) (s s1 : State) (ys : List ℚ) (hs : P s)
    (h : processList m s xs = some (s1, ys)) : P s1 := by
  induction xs generalizing s s1 ys with
  | nil =>
    simp only [processList, Option.some.injEq, Prod.mk.injEq] at h
    rw [← h.1]
    exact hs
  | cons x xs ih =>
    unfold processList at h
    cases hx : processSample m s x with
    | none => simp [hx] at h
    | some r =>
      obtain ⟨s2, y⟩ := r
      rw [hx] at h
      simp only at h
      cases hr : processList m s2 xs with
      | none => simp [hr] at h
      | some r2 =>
        obtain ⟨s3, zs⟩ := r2
        rw [hr] at h
        simp only [Option.some.injEq, Prod.mk.injEq] at h
        rw [← h.1]
        exact ih s2 s3 zs (hstep s x s2 y hs hx) hr

theorem run_induction (m : CMath) (P : State → Prop)
    (hstep : ∀ s x s1 y, P s → processSample m s x = some (s1, y) → P s1)
    (hreset : ∀ s, P s → P (reset s))
    (cs : List Call) (s s1 : State) (hs : P s) (h : run m s cs = some s1) : P s1 := by
  induction cs generalizing s with
  | nil =>
    simp only [run, Option.some.injEq] at h
    rw [← h]
    exact hs
  | cons c cs ih =>
    cases c with
    | process arr =>
      unfold run at h
      cases hp : process m s arr with
      | none => simp [hp] at h
      | some r =>
        obtain ⟨s2, out⟩ := r
        rw [hp] at h
        simp only at h
        rw [process_eq_processList] at hp
        exact ih s2 (processList_induction m P hstep arr s s2 out hs hp) h
    | reset =>
      unfold run at h
      exact ih (reset s) (hreset s hs) h

theorem processSample_total (m : CMath) (s : State) (x : ℚ)
    (hinv : s.lookahead_max = sufMax s.lookahead_buffer) (hN : 1 ≤ s.look_ahead_samples) :
    ∃ s1 y, processSample m s x = some (s1, y) ∧
      s1.lookahead_buffer = window s.look_ahead_samples (s.lookahead_buffer ++ [x]) ∧
      s1.lookahead_max = sufMax s1.lookahead_buffer ∧
      s1.look_ahead_samples = s.look_ahead_samples ∧
      (s1.lookahead_buffer.length ≠ s.look_ahead_samples → y = 0) := by
  have hp := push_sufMax s x hinv
  by_cases hfull : (window s.look_ahead_samples (s.lookahead_buffer ++ [x])).length
      = s.look_ahead_samples
  · have hne : window s.look_ahead_samples (s.lookahead_buffer ++ [x]) ≠ [] := by
      intro h
      rw [h] at hfull
      simp only [List.length_nil] at hfull
      omega
    obtain ⟨f, rest, e, -, -⟩ := sufMax_head _ hne
    obtain ⟨c, t, hc⟩ := List.exists_cons_of_ne_nil hne
    refine ⟨_, _, (processSample_iff m s x _ _).2 ⟨_, hp, Or.inr ⟨?_, c, |f|, ?_, ?_, rfl, rfl⟩⟩,
      ?_, ?_, ?_, ?_⟩
    · simpa using hfull
    · simp [hc]
    · simp [max, e]
    · simp
    · simp
    · simp
    · intro h
      exact absurd hfull (by simpa using h)
  · refine ⟨_, 0, (processSample_iff m s x _ _).2 ⟨_, hp, Or.inl ⟨?_, rfl, rfl⟩⟩, ?_, ?_, ?_, ?_⟩
    · simpa using hfull
    · simp
    · simp
    · simp
    · intro _
      rfl

theorem processList_append (m : CMath) (xs zs : List ℚ) (s : State) :
    processList m s (xs ++ zs) =
      match processList m s xs with
      | none => none
      | some (s1, ys) =>
        match processList m s1 zs with
        | none => none
        | some (s2, ws) => some (s2, ys ++ ws) := by
  induction xs generalizing s with
  | nil =>
    simp only [List.nil_append, processList]
    cases processList m s zs with
    | none => rfl
    | some r => rfl
  | cons x xs ih =>
    rw [List.cons_append]
    simp only [processList]
    cases hx : processSample m s x with
    | none => rfl
    | some r =>
      obtain ⟨s1, y⟩ := r
      simp only
      rw [ih]
      cases h1 : processList m s1 xs with
      | none => rfl
      | some r1 =>
        obtain ⟨s2, ys⟩ := r1
        simp only
        cases h2 : processList m s2 zs with
        | none => rfl
        | some r2 => rfl

theorem processList_total (m : CMath) (xs : List ℚ) (s : State)
    (hinv : s.lookahead_max = sufMax s.lookahead_buffer) (hN : 1 ≤ s.look_ahead_samples) :
    ∃ s1 ys, processList m s xs = some (s1, ys) ∧ ys.length = xs.length ∧
      s1.lookahead_buffer
        = xs.foldl (fun b x => window s.look_ahead_samples (b ++ [x])) s.lookahead_buffer ∧
      s1.lookahead_max = sufMax s1.lookahead_buffer ∧
      s1.look_ahead_samples = s.look_ahead_samples := by
  induction xs generalizing s with
  | nil => exact ⟨s, [], rfl, rfl, rfl, hinv, rfl⟩
  | cons x xs ih =>
    obtain ⟨s1, y, h1, hb1, hm1, hn1, -⟩ := processSample_total m s x hinv hN
    obtain ⟨s2, ys, h2, hl2, hb2, hm2, hn2⟩ := ih s1 hm1 (by rw [hn1]; exact hN)
    refine ⟨s2, y :: ys, ?_, by simp [hl2], ?_, hm2, by rw [hn2, hn1]⟩
    · simp only [processList, h1, h2]
    · rw [hb2, hb1, hn1]
      rfl

theorem length_window (N : ℕ) (l : List ℚ) (h : l.length ≤ N + 1) :
    (window N l).length = min l.length N := by
  unfold window
  split
  · simp only [List.length_tail]
    omega
  · omega

theorem length_lastN (n : ℕ) (l : List ℚ) : (lastN n l).length = min n l.length := by
  simp only [lastN, List.length_drop]
  omega

/-- C2, amended. Initial silence: on a processor with empty deques, `process` returns, keeps
the length of the buffer, and writes `0` at every index `i` with `i + 1 < look_ahead_samples`
(the first `look_ahead_samples - 1` samples), whatever the input values are. -/
theorem C2_initial_silence (m : CMath) (s0 : State) (arr : List ℚ) (i : ℕ)
    (hb : s0.lookahead_buffer = []) (hm : s0.lookahead_max = [])
    (hi : i + 1 < s0.look_ahead_samples) (hlen : i < arr.length) :
    ∃ s out, process m s0 arr = some (s, out) ∧ out.length = arr.length ∧ out[i]? = some 0 := by
  have h0 : s0.lookahead_max = sufMax s0.lookahead_buffer := by rw [hb, hm]; rfl
  have hN : 1 ≤ s0.look_ahead_samples := by omega
  have hsplit : arr = arr.take i ++ (arr[i] :: arr.drop (i + 1)) := by
    rw [← List.drop_eq_getElem_cons hlen, List.take_append_drop]
  obtain ⟨s1, ys, h1, hl1, hb1, hm1, hn1⟩ := processList_total m (arr.take i) s0 h0 hN
  obtain ⟨s2, y, h2, hb2, hm2, hn2, hy⟩ := processSample_total m s1 arr[i] hm1 (by omega)
  obtain ⟨s3, ws, h3, hl3, -, -, -⟩ :=
    processList_total m (arr.drop (i + 1)) s2 hm2 (by omega)
  have hlen1 : s1.lookahead_buffer.length = i := by
    rw [hb1, hb, foldl_window, length_lastN]
    simp only [List.length_take]
    omega
  have hy0 : y = 0 := by
    apply hy
    rw [hb2, length_window _ _ (by simp only [List.length_append, List.length_singleton]; omega)]
    simp only [List.length_append, List.length_singleton]
    omega
  have hrun : processList m s0 arr = some (s3, ys ++ (y :: ws)) := by
    conv_lhs => rw [hsplit]
    rw [processList_append, h1]
    simp only [processList, h2, h3]
  refine ⟨s3, ys ++ (y :: ws), by rw [process_eq_processList, hrun], ?_, ?_⟩
  · simp only [List.length_append, List.length_cons, hl1, hl3, List.length_take,
      List.length_drop]
    omega
  · have hyl : ys.length = i := by
      rw [hl1, List.length_take]
      omega
    rw [List.getElem?_append_right (by omega), hyl, Nat.sub_self, hy0]
    simp

/-- C2 as stated fails: with a window of one sample the first output is not `0`. -/
theorem C2_counterexample :
    0 < min (new refMath 1 10 100 1 1000).look_ahead_samples [(1 : ℚ)].length ∧
      (process refMath (new refMath 1 10 100 1 1000) [1]).map Prod.snd
        = some [333364333394639181821 / 33336666673333666667000] ∧
      (333364333394639181821 / 33336666673333666667000 : ℚ) ≠ 0 := by
  decide!

/-- C2, an instance: a window of three, four samples, index one. -/
theorem C2_initial_silence_witness :
    (1 + 1 < (new refMath 1 10 100 3 1000).look_ahead_samples ∧ 1 < [(1 : ℚ), 2, 3, 4].length) ∧
    ∃ s out, process refMath (new refMath 1 10 100 3 1000) [1, 2, 3, 4] = some (s, out) ∧
      out.length = [(1 : ℚ), 2, 3, 4].length ∧ out[1]? = some 0 :=
  ⟨⟨by decide!, by decide⟩,
    C2_initial_silence refMath (new refMath 1 10 100 3 1000) [1, 2, 3, 4] 1 rfl rfl
      (by decide!) (by decide)⟩

/-- With the product evaluated exactly, the constructor sets `look_ahead_samples` to the
natural number `N` with `N ≤ lookAheadTimeMs * sampleRate / 1000 < N + 1`. -/
theorem new_look_ahead_samples_floor (m : CMath)
    (desiredLevel attackTimeMs releaseTimeMs lookAheadTimeMs sr : ℚ)
    (ht : 0 < lookAheadTimeMs) (hsr : 0 < sr) :
    (((new m desiredLevel attackTimeMs releaseTimeMs lookAheadTimeMs sr).look_ahead_samples : ℚ)
        ≤ lookAheadTimeMs * sr / 1000 ∧
      lookAheadTimeMs * sr / 1000
        < (new m desiredLevel attackTimeMs releaseTimeMs lookAheadTimeMs sr).look_ahead_samples
          + 1) ∧
      (new m desiredLevel attackTimeMs releaseTimeMs 5 48000).look_ahead_samples = 240 := by
  have hx : 0 ≤ lookAheadTimeMs * sr / 1000 := by positivity
  have hfl : 0 ≤ ⌊lookAheadTimeMs * sr / 1000⌋ := Int.floor_nonneg.2 hx
  have hcast : ((Int.toNat ⌊lookAheadTimeMs * sr / 1000⌋ : ℕ) : ℚ)
      = ((⌊lookAheadTimeMs * sr / 1000⌋ : ℤ) : ℚ) := by
    rw [← Int.cast_natCast, Int.toNat_of_nonneg hfl]
  refine ⟨⟨?_, ?_⟩, ?_⟩
  · show ((Int.toNat ⌊lookAheadTimeMs * sr / 1000⌋ : ℕ) : ℚ) ≤ _
    rw [hcast]
    exact Int.floor_le _
  · show _ < ((Int.toNat ⌊lookAheadTimeMs * sr / 1000⌋ : ℕ) : ℚ) + 1
    rw [hcast]
    exact Int.lt_floor_add_one _
  · show Int.toNat ⌊(5 : ℚ) * 48000 / 1000⌋ = 240
    decide!

theorem run_config (m : CMath) (s0 : State) (cs : List Call) (s : State)
    (h : run m s0 cs = some s) :
    s.desired_level = s0.desired_level ∧ s.sample_rate = s0.sample_rate ∧
      s.noise_adapt_speed = s0.noise_adapt_speed ∧
      s.noise_reduction_smoothing = s0.noise_reduction_smoothing ∧
      s.look_ahead_samples = s0.look_ahead_samples ∧ s.attack_coeff = s0.attack_coeff ∧
      s.release_coeff = s0.release_coeff := by
  refine run_induction m
    (fun t => t.desired_level = s0.desired_level ∧ t.sample_rate = s0.sample_rate ∧
      t.noise_adapt_speed = s0.noise_adapt_speed ∧
      t.noise_reduction_smoothing = s0.noise_reduction_smoothing ∧
      t.look_ahead_samples = s0.look_ahead_samples ∧ t.attack_coeff = s0.attack_coeff ∧
      t.release_coeff = s0.release_coeff) ?_ ?_ cs s0 s ⟨rfl, rfl, rfl, rfl, rfl, rfl, rfl⟩ h
  · intro t x t1 y ht hstep
    obtain ⟨h1, h2, h3, h4, h5, h6, h7⟩ := processSample_config m t t1 x y hstep
    obtain ⟨g1, g2, g3, g4, g5, g6, g7⟩ := ht
    exact ⟨h1.trans g1, h2.trans g2, h3.trans g3, h4.trans g4, h5.trans g5, h6.trans g6,
      h7.trans g7⟩
  · intro t ht
    simpa using ht

/-- C4. `reset()` restores the initial state and keeps the configuration: in every state `s`
reached from a constructed processor by `process` and `reset` calls, `reset s` is the state the
constructor gave; it has `gain = 1`, `last_noise_reduction = 1`, `noise_estimate = 0`, empty
deques and the configuration members of `s`; and `process` after it gives what it gives on the
constructed processor. -/
theorem C4_reset_restores_initial (m : CMath)
    (desiredLevel attackTimeMs releaseTimeMs lookAheadTimeMs sr : ℚ) (cs : List Call)
    (s : State)
    (h : run m (new m desiredLevel attackTimeMs releaseTimeMs lookAheadTimeMs sr) cs = some s) :
    reset s = new m desiredLevel attackTimeMs releaseTimeMs lookAheadTimeMs sr ∧
      ((reset s).gain = 1 ∧ (reset s).last_noise_reduction = 1 ∧ (reset s).noise_estimate = 0 ∧
        (reset s).lookahead_buffer = [] ∧ (reset s).lookahead_max = []) ∧
      ((reset s).desired_level = s.desired_level ∧ (reset s).sample_rate = s.sample_rate ∧
        (reset s).look_ahead_samples = s.look_ahead_samples ∧
        (reset s).attack_coeff = s.attack_coeff ∧ (reset s).release_coeff = s.release_coeff) ∧
      ∀ arr, process m (reset s) arr
        = process m (new m desiredLevel attackTimeMs releaseTimeMs lookAheadTimeMs sr) arr := by
  have hc := run_config m _ cs s h
  have e : reset s = new m desiredLevel attackTimeMs releaseTimeMs lookAheadTimeMs sr := by
    obtain ⟨h1, h2, h3, h4, h5, h6, h7⟩ := hc
    cases s
    simp only [new] at h1 h2 h3 h4 h5 h6 h7
    simp only [reset, new, State.mk.injEq]
    exact ⟨h1, trivial, h2, trivial, h3, h4, trivial, h5, h6, h7, trivial, trivial⟩
  refine ⟨e, ⟨rfl, rfl, rfl, rfl, rfl⟩, ⟨rfl, rfl, rfl, rfl, rfl⟩, ?_⟩
  intro arr
  rw [e]

/-- C4, an instance: a window of two samples, two `process` calls with a `reset` between. -/
theorem C4_reset_restores_initial_witness :
    ∃ s, run refMath (new refMath 1 10 100 2 1000)
        [Call.process [1, -2, 3], Call.reset, Call.process [4, 5]] = some s ∧
      (reset s = new refMath 1 10 100 2 1000 ∧
        ((reset s).gain = 1 ∧ (reset s).last_noise_reduction = 1 ∧
          (reset s).noise_estimate = 0 ∧
          (reset s).lookahead_buffer = [] ∧ (reset s).lookahead_max = []) ∧
        ((reset s).desired_level = s.desired_level ∧ (reset s).sample_rate = s.sample_rate ∧
          (reset s).look_ahead_samples = s.look_ahead_samples ∧
          (reset s).attack_coeff = s.attack_coeff ∧
          (reset s).release_coeff = s.release_coeff) ∧
        ∀ arr, process refMath (reset s) arr
          = process refMath (new refMath 1 10 100 2 1000) arr) :=
  (Option.isSome_iff_exists.1
    (by decide! : (run refMath (new refMath 1 10 100 2 1000)
        [Call.process [1, -2, 3], Call.reset, Call.process [4, 5]]).isSome = true)).elim
    fun s hs => ⟨s, hs, C4_reset_restores_initial refMath 1 10 100 2 1000 _ s hs⟩

theorem calculateNoiseReduction_bounds (m : CMath) (s : State) (c : ℚ)
    (hpow : ∀ x : ℚ, 0 ≤ x → x ≤ 1 → 0 ≤ m.pow x (1 / 2) ∧ m.pow x (1 / 2) ≤ 1)
    (hsm : s.noise_reduction_smoothing = 9 / 10)
    (h0 : 0 ≤ s.last_noise_reduction) (h1 : s.last_noise_reduction ≤ 1) :
    0 ≤ (calculateNoiseReduction m s c).1 ∧ (calculateNoiseReduction m s c).1 ≤ 1 := by
  simp only [calculateNoiseReduction, hsm]
  obtain ⟨g0, g1⟩ := hpow
    (min 1 (Max.max 0 ((|c| / (s.noise_estimate + 1 / 10000000000) - 1)
      / (|c| / (s.noise_estimate + 1 / 10000000000) + 1))))
    (le_min zero_le_one (le_max_left _ _)) (min_le_left _ _)
  constructor
  · nlinarith
  · nlinarith

theorem processSample_reduction_inv (m : CMath)
    (hpow : ∀ x : ℚ, 0 ≤ x → x ≤ 1 → 0 ≤ m.pow x (1 / 2) ∧ m.pow x (1 / 2) ≤ 1)
    (s : State) (x : ℚ) (s1 : State) (y : ℚ)
    (hs : s.noise_reduction_smoothing = 9 / 10 ∧ 0 ≤ s.last_noise_reduction ∧
      s.last_noise_reduction ≤ 1)
    (h : processSample m s x = some (s1, y)) :
    s1.noise_reduction_smoothing = 9 / 10 ∧ 0 ≤ s1.last_noise_reduction ∧
      s1.last_noise_reduction ≤ 1 := by
  obtain ⟨p, hp, hcase⟩ := (processSample_iff m s x s1 y).1 h
  obtain ⟨-, -, -, -, -, f6, f7, -, -, -⟩ := push_frame s p x hp
  obtain ⟨hsm, h0, h1⟩ := hs
  rcases hcase with ⟨_, rfl, _⟩ | ⟨_, cur, peak, _, _, rfl, _⟩
  · simp only [updateNoiseEstimate_noise_reduction_smoothing,
      updateNoiseEstimate_last_noise_reduction, f6, f7]
    exact ⟨hsm, h0, h1⟩
  · have hb := calculateNoiseReduction_bounds m (updateGain (updateNoiseEstimate p x) peak) cur
      hpow (by simp [f6, hsm]) (by simp [f7, h0]) (by simp [f7, h1])
    simp only [calculateNoiseReduction_noise_reduction_smoothing,
      updateGain_noise_reduction_smoothing, updateNoiseEstimate_noise_reduction_smoothing,
      calculateNoiseReduction_snd_last, f6]
    exact ⟨hsm, hb.1, hb.2⟩

/-- C5. Bounded attenuation, for a `pow` that maps `[0, 1]` into `[0, 1]` at exponent one half:
`calculateNoiseReduction` on a state with `last_noise_reduction` in `[0, 1]` returns a value
`r` in `[0, 1]` and stores it in `last_noise_reduction`; and in every state reached from a
constructed processor by `process` and `reset` calls `last_noise_reduction` is in `[0, 1]`,
and a steady-state iteration of `process` writes
`current_sample * (r * 0.7 + 0.3) * (gain * 0.01)` with `r * 0.7 + 0.3` in `[0.3, 1]`. -/
theorem C5_bounded_attenuation (m : CMath)
    (hpow : ∀ x : ℚ, 0 ≤ x → x ≤ 1 → 0 ≤ m.pow x (1 / 2) ∧ m.pow x (1 / 2) ≤ 1) :
    (∀ (s : State) (sample : ℚ), s.noise_reduction_smoothing = 9 / 10 →
      0 ≤ s.noise_estimate → 0 ≤ s.last_noise_reduction → s.last_noise_reduction ≤ 1 →
      0 ≤ (calculateNoiseReduction m s sample).1 ∧ (calculateNoiseReduction m s sample).1 ≤ 1 ∧
        (calculateNoiseReduction m s sample).2.last_noise_reduction
          = (calculateNoiseReduction m s sample).1) ∧
    ∀ (desiredLevel attackTimeMs releaseTimeMs lookAheadTimeMs sr : ℚ) (cs : List Call)
      (s : State),
      run m (new m desiredLevel attackTimeMs releaseTimeMs lookAheadTimeMs sr) cs = some s →
      (0 ≤ s.last_noise_reduction ∧ s.last_noise_reduction ≤ 1) ∧
      ∀ (x : ℚ) (s1 : State) (y : ℚ), processSample m s x = some (s1, y) →
        s1.lookahead_buffer.length = s1.look_ahead_samples →
        ∃ cur, s1.lookahead_buffer.head? = some cur ∧
          y = cur * (s1.last_noise_reduction * (7 / 10) + 3 / 10) * (s1.gain * (1 / 100)) ∧
          3 / 10 ≤ s1.last_noise_reduction * (7 / 10) + 3 / 10 ∧
          s1.last_noise_reduction * (7 / 10) + 3 / 10 ≤ 1 := by
  constructor
  · intro s sample hsm _ h0 h1
    obtain ⟨hb0, hb1⟩ := calculateNoiseReduction_bounds m s sample hpow hsm h0 h1
    exact ⟨hb0, hb1, rfl⟩
  · intro desiredLevel attackTimeMs releaseTimeMs lookAheadTimeMs sr cs s hrun
    have hinv : s.noise_reduction_smoothing = 9 / 10 ∧ 0 ≤ s.last_noise_reduction ∧
        s.last_noise_reduction ≤ 1 := by
      refine run_induction m
        (fun t => t.noise_reduction_smoothing = 9 / 10 ∧ 0 ≤ t.last_noise_reduction ∧
          t.last_noise_reduction ≤ 1) ?_ ?_ cs _ s ?_ hrun
      · intro t x t1 y ht hstep
        exact processSample_reduction_inv m hpow t x t1 y ht hstep
      · intro t ht
        refine ⟨by simpa using ht.1, ?_, ?_⟩ <;> simp [reset]
      · simp [new]
    refine ⟨⟨hinv.2.1, hinv.2.2⟩, ?_⟩
    intro x s1 y hstep hfull
    obtain ⟨-, g0, g1⟩ := processSample_reduction_inv m hpow s x s1 y hinv hstep
    obtain ⟨p, hp, hcase⟩ := (processSample_iff m s x s1 y).1 hstep
    rcases hcase with ⟨hnot, rfl, _⟩ | ⟨_, cur, peak, hcur, _, rfl, rfl⟩
    · exact absurd hfull hnot
    · refine ⟨cur, by simpa using hcur, ?_, by linarith, by linarith⟩
      simp only [calculateNoiseReduction_snd_last]

theorem refMath_pow_bounds (x : ℚ) (h0 : 0 ≤ x) (h1 : x ≤ 1) :
    0 ≤ refMath.pow x (1 / 2) ∧ refMath.pow x (1 / 2) ≤ 1 := by
  simp only [refMath]
  constructor <;> linarith

theorem refMath_exp_bounds (x : ℚ) (hx : x < 0) : 0 < refMath.exp x ∧ refMath.exp x < 1 := by
  simp only [refMath]
  have h1 : 0 < 1 - x := by linarith
  constructor
  · positivity
  · rw [div_lt_one h1]
    linarith

/-- C5, an instance on the stand-in `refMath`: the reduction computed for the sample `5` on a
constructed processor, and the second iteration of `process` on `3, -4` with a window of two
samples (its state before and after is written out). -/
theorem C5_bounded_attenuation_witness :
    (∀ x : ℚ, 0 ≤ x → x ≤ 1 → 0 ≤ refMath.pow x (1 / 2) ∧ refMath.pow x (1 / 2) ≤ 1) ∧
    (0 ≤ (calculateNoiseReduction refMath (new refMath 1 10 100 2 1000) 5).1 ∧
      (calculateNoiseReduction refMath (new refMath 1 10 100 2 1000) 5).1 ≤ 1 ∧
      (calculateNoiseReduction refMath (new refMath 1 10 100 2 1000) 5).2.last_noise_reduction
        = (calculateNoiseReduction refMath (new refMath 1 10 100 2 1000) 5).1) ∧
    (run refMath (new refMath 1 10 100 2 1000) [Call.process [3]]
        = some ⟨1, 1, 1000, 3 / 10000, 1 / 1000, 9 / 10, 1, 2, 1 / 11, 1 / 101, [3], [3]⟩ ∧
      processSample refMath
          ⟨1, 1, 1000, 3 / 10000, 1 / 1000, 9 / 10, 1, 2, 1 / 11, 1 / 101, [3], [3]⟩ (-4)
        = some (⟨1, 410000000010 / 440000000011, 1000, 69997 / 100000000, 1 / 1000, 9 / 10,
            300062997309 / 300069997010, 2, 1 / 11, 1 / 101, [3, -4], [-4]⟩,
          52725724226962993273797 / 1886154266967153856673000) ∧
      ∃ cur, [(3 : ℚ), -4].head? = some cur ∧
        (52725724226962993273797 / 1886154266967153856673000 : ℚ)
          = cur * (300062997309 / 300069997010 * (7 / 10) + 3 / 10)
            * (410000000010 / 440000000011 * (1 / 100)) ∧
        (3 / 10 : ℚ) ≤ 300062997309 / 300069997010 * (7 / 10) + 3 / 10 ∧
        (300062997309 / 300069997010 * (7 / 10) + 3 / 10 : ℚ) ≤ 1) :=
  ⟨refMath_pow_bounds,
    (C5_bounded_attenuation refMath refMath_pow_bounds).1 (new refMath 1 10 100 2 1000) 5
      (by decide!) (by decide!) (by decide!) (by decide!),
    by decide!, by decide!,
    ((C5_bounded_attenuation refMath refMath_pow_bounds).2 1 10 100 2 1000 [Call.process [3]]
      ⟨1, 1, 1000, 3 / 10000, 1 / 1000, 9 / 10, 1, 2, 1 / 11, 1 / 101, [3], [3]⟩
      (by decide!)).2 (-4)
      ⟨1, 410000000010 / 440000000011, 1000, 69997 / 100000000, 1 / 1000, 9 / 10,
        300062997309 / 300069997010, 2, 1 / 11, 1 / 101, [3, -4], [-4]⟩
      (52725724226962993273797 / 1886154266967153856673000) (by decide!) (by decide!)⟩

theorem mem_window {N : ℕ} {l : List ℚ} {y : ℚ} (h : y ∈ window N l) : y ∈ l := by
  unfold window at h
  split at h
  · exact List.mem_of_mem_tail h
  · exact h

theorem updateGain_gain (s : State) (k : ℚ) :
    (updateGain s k).gain
      = if s.desired_level / (k + 1 / 10000000000) < s.gain then
          s.gain - s.attack_coeff * (s.gain - s.desired_level / (k + 1 / 10000000000))
        else
          s.gain + s.release_coeff * (s.desired_level / (k + 1 / 10000000000) - s.gain) := by
  simp only [updateGain]
  split <;> rfl

theorem updateGain_contract (s : State) (k : ℚ)
    (ha : 0 < s.attack_coeff ∧ s.attack_coeff < 1)
    (hr : 0 < s.release_coeff ∧ s.release_coeff < 1) :
    |(updateGain s k).gain - s.desired_level / (k + 1 / 10000000000)|
      ≤ ((1 - s.attack_coeff) ⊔ (1 - s.release_coeff))
        * |s.gain - s.desired_level / (k + 1 / 10000000000)| := by
  have hq1 : 1 - s.attack_coeff ≤ (1 - s.attack_coeff) ⊔ (1 - s.release_coeff) := le_sup_left
  have hq2 : 1 - s.release_coeff ≤ (1 - s.attack_coeff) ⊔ (1 - s.release_coeff) := le_sup_right
  rw [updateGain_gain]
  generalize s.desired_level / (k + 1 / 10000000000) = d
  split
  · have e : s.gain - s.attack_coeff * (s.gain - d) - d
        = (1 - s.attack_coeff) * (s.gain - d) := by ring
    rw [e, abs_mul, abs_of_pos (sub_pos.2 ha.2)]
    exact mul_le_mul_of_nonneg_right hq1 (abs_nonneg _)
  · have e : s.gain + s.release_coeff * (d - s.gain) - d
        = (1 - s.release_coeff) * (s.gain - d) := by ring
    rw [e, abs_mul, abs_of_pos (sub_pos.2 hr.2)]
    exact mul_le_mul_of_nonneg_right hq2 (abs_nonneg _)

theorem dc_step (m : CMath) (L a r : ℚ) (N : ℕ) (A : ℚ) (s : State) (x : ℚ)
    (ha : 0 < a ∧ a < 1) (hr : 0 < r ∧ r < 1)
    (hJ : DCInv L a r N A s) (hx : |x| = A) :
    ∃ s1 y, processSample m s x = some (s1, y) ∧ DCInv L a r N A s1 ∧
      s1.lookahead_buffer.length = min (s.lookahead_buffer.length + 1) N ∧
      |s1.gain - L / (A + 1 / 10000000000)| ≤ |s.gain - L / (A + 1 / 10000000000)| ∧
      (N ≤ s.lookahead_buffer.length + 1 →
        |s1.gain - L / (A + 1 / 10000000000)|
          ≤ ((1 - a) ⊔ (1 - r)) * |s.gain - L / (A + 1 / 10000000000)|) := by
  obtain ⟨hinv, hn, hN, hlen, hall, hL, hac, hrc⟩ := hJ
  obtain ⟨s1, y, hstep, hb1, hm1, hn1, -⟩ := processSample_total m s x hinv (by omega)
  obtain ⟨c1, -, -, -, c5, c6, c7⟩ := processSample_config m s s1 x y hstep
  have hW : ∀ z ∈ s1.lookahead_buffer, |z| = A := by
    intro z hz
    rw [hb1] at hz
    rcases List.mem_append.1 (mem_window hz) with h | h
    · exact hall z h
    · rw [List.mem_singleton.1 h]
      exact hx
  have hlen1 : s1.lookahead_buffer.length = min (s.lookahead_buffer.length + 1) N := by
    have hle : (s.lookahead_buffer ++ [x]).length ≤ N + 1 := by
      simp only [List.length_append, List.length_singleton]
      omega
    rw [hb1, hn, length_window _ _ hle]
    simp
  have hq0 : 0 ≤ (1 - a) ⊔ (1 - r) := le_trans (by linarith [ha.2]) le_sup_left
  have hq1 : (1 - a) ⊔ (1 - r) ≤ 1 := sup_le (by linarith [ha.1]) (by linarith [hr.1])
  have hmain : (s1.lookahead_buffer.length ≠ N → s1.gain = s.gain) ∧
      (s1.lookahead_buffer.length = N →
        |s1.gain - L / (A + 1 / 10000000000)|
          ≤ ((1 - a) ⊔ (1 - r)) * |s.gain - L / (A + 1 / 10000000000)|) := by
    obtain ⟨p, hp, hcase⟩ := (processSample_iff m s x s1 y).1 hstep
    obtain ⟨f1, f2, -, -, -, -, -, f8, f9, f10⟩ := push_frame s p x hp
    have hp2 := hp
    rw [push_sufMax s x hinv, Option.some.injEq] at hp2
    rcases hcase with ⟨hnot, rfl, _⟩ | ⟨hfull, cur, peak, _, hpeak, rfl, _⟩
    · refine ⟨fun _ => by simp [f2], fun hfull => ?_⟩
      exact absurd (by simpa [f8, hn] using hfull) hnot
    · refine ⟨fun hnot => absurd (by simpa [f8, hn] using hfull) hnot, fun _ => ?_⟩
      have hne : (updateNoiseEstimate p x).lookahead_buffer ≠ [] := by
        intro h
        rw [h] at hfull
        simp only [List.length_nil, updateNoiseEstimate_look_ahead_samples, f8, hn] at hfull
        omega
      have hpm : (updateNoiseEstimate p x).lookahead_max
          = sufMax (updateNoiseEstimate p x).lookahead_buffer := by
        rw [← hp2]
        simp
      obtain ⟨f, rest, e, hf, -⟩ := sufMax_head _ hne
      have hpk : peak = A := by
        simp only [max, hpm, e, Option.some.injEq] at hpeak
        rw [← hpeak]
        exact hW f (by simpa using hf)
      have hc := updateGain_contract (updateNoiseEstimate p x) peak
        (by simpa [f9, hac] using ha) (by simpa [f10, hrc] using hr)
      simpa [f1, f2, f9, f10, hL, hac, hrc, hpk] using hc
  refine ⟨s1, y, hstep, ⟨hm1, by rw [c5, hn], hN, by rw [hlen1]; omega, hW, by rw [c1, hL],
    by rw [c6, hac], by rw [c7, hrc]⟩, hlen1, ?_, ?_⟩
  · by_cases hfull : s1.lookahead_buffer.length = N
    · exact le_trans (hmain.2 hfull) (mul_le_of_le_one_left (abs_nonneg _) hq1)
    · rw [hmain.1 hfull]
  · intro hge
    exact hmain.2 (by rw [hlen1]; omega)

theorem dc_list (m : CMath) (L a r : ℚ) (N : ℕ) (A : ℚ)
    (ha : 0 < a ∧ a < 1) (hr : 0 < r ∧ r < 1) (xs : List ℚ) (s : State)
    (hJ : DCInv L a r N A s) (hxs : ∀ x ∈ xs, |x| = A) :
    ∃ s1 ys, processList m s xs = some (s1, ys) ∧ DCInv L a r N A s1 ∧
      s1.lookahead_buffer.length = min (s.lookahead_buffer.length + xs.length) N ∧
      |s1.gain - L / (A + 1 / 10000000000)| ≤ |s.gain - L / (A + 1 / 10000000000)| ∧
      (N ≤ s.lookahead_buffer.length + 1 →
        |s1.gain - L / (A + 1 / 10000000000)|
          ≤ ((1 - a) ⊔ (1 - r)) ^ xs.length * |s.gain - L / (A + 1 / 10000000000)|) := by
  have hq0 : 0 ≤ (1 - a) ⊔ (1 - r) := le_trans (by linarith [ha.2]) le_sup_left
  induction xs generalizing s with
  | nil =>
    refine ⟨s, [], rfl, hJ, ?_, le_refl _, fun _ => by simp⟩
    obtain ⟨-, -, -, hlen, -⟩ := hJ
    simp only [List.length_nil, Nat.add_zero]
    omega
  | cons x xs ih =>
    obtain ⟨s1, y, h1, hJ1, hl1, hne1, hc1⟩ :=
      dc_step m L a r N A s x ha hr hJ (hxs x (by simp))
    obtain ⟨s2, ys, h2, hJ2, hl2, hne2, hc2⟩ :=
      ih s1 hJ1 (fun z hz => hxs z (List.mem_cons_of_mem _ hz))
    refine ⟨s2, y :: ys, by simp only [processList, h1, h2], hJ2, ?_, le_trans hne2 hne1, ?_⟩
    · rw [hl2, hl1, List.length_cons]
      omega
    · intro hge
      have hfull : N ≤ s1.lookahead_buffer.length + 1 := by
        rw [hl1]
        omega
      calc |s2.gain - L / (A + 1 / 10000000000)|
          ≤ ((1 - a) ⊔ (1 - r)) ^ xs.length * |s1.gain - L / (A + 1 / 10000000000)| :=
            hc2 hfull
        _ ≤ ((1 - a) ⊔ (1 - r)) ^ xs.length
              * (((1 - a) ⊔ (1 - r)) * |s.gain - L / (A + 1 / 10000000000)|) :=
            mul_le_mul_of_nonneg_left (hc1 hge) (pow_nonneg hq0 _)
        _ = ((1 - a) ⊔ (1 - r)) ^ (x :: xs).length
              * |s.gain - L / (A + 1 / 10000000000)| := by
            rw [List.length_cons, pow_succ]
            ring

/-- In exact arithmetic the gain converges on a constant-amplitude signal: for every tolerance
there is a sample count after which `gain` is within it of `desired_level / (A + 1e-10)`. -/
theorem gain_converges_exact (m : CMath)
    (desiredLevel attackTimeMs releaseTimeMs lookAheadTimeMs sr : ℚ)
    (hexp : ∀ x : ℚ, x < 0 → 0 < m.exp x ∧ m.exp x < 1)
    (_hL : 0 < desiredLevel) (hat : 0 < attackTimeMs) (hrt : 0 < releaseTimeMs) (hsr : 0 < sr)
    (hN : 1
      ≤ (new m desiredLevel attackTimeMs releaseTimeMs lookAheadTimeMs sr).look_ahead_samples)
    (A : ℚ) (_hA : 0 < A) (d : ℚ) (hd : 0 < d) :
    ∃ n0 : ℕ, ∀ xs : List ℚ, (∀ x ∈ xs, |x| = A) → n0 ≤ xs.length →
      ∃ s out,
        process m (new m desiredLevel attackTimeMs releaseTimeMs lookAheadTimeMs sr) xs
          = some (s, out) ∧
        |s.gain - desiredLevel / (A + 1 / 10000000000)| < d := by
  have hneg : ∀ t : ℚ, 0 < t → -1 / (t * (1 / 1000) * sr) < 0 := by
    intro t ht
    rw [neg_div]
    exact neg_neg_of_pos (by positivity)
  obtain ⟨a0, a1⟩ := hexp _ (hneg attackTimeMs hat)
  obtain ⟨r0, r1⟩ := hexp _ (hneg releaseTimeMs hrt)
  generalize hs0 : new m desiredLevel attackTimeMs releaseTimeMs lookAheadTimeMs sr = s0
    at hN ⊢
  have ha : 0 < s0.attack_coeff ∧ s0.attack_coeff < 1 := by
    rw [← hs0]
    exact ⟨by show 0 < 1 - m.exp _; linarith, by show 1 - m.exp _ < 1; linarith⟩
  have hr : 0 < s0.release_coeff ∧ s0.release_coeff < 1 := by
    rw [← hs0]
    exact ⟨by show 0 < 1 - m.exp _; linarith, by show 1 - m.exp _ < 1; linarith⟩
  have hJ0 :
      DCInv desiredLevel s0.attack_coeff s0.release_coeff s0.look_ahead_samples A s0 := by
    rw [← hs0]
    exact ⟨rfl, rfl, by rw [hs0]; exact hN, by simp [new], by simp [new], rfl, rfl, rfl⟩
  have hb0 : s0.lookahead_buffer.length = 0 := by
    rw [← hs0]
    rfl
  have hg0 : s0.gain = 1 := by
    rw [← hs0]
    rfl
  have hq0 : 0 ≤ (1 - s0.attack_coeff) ⊔ (1 - s0.release_coeff) :=
    le_trans (by linarith [ha.2]) le_sup_left
  have hq1 : (1 - s0.attack_coeff) ⊔ (1 - s0.release_coeff) < 1 :=
    sup_lt_iff.2 ⟨by linarith [ha.1], by linarith [hr.1]⟩
  -- the number of steady-state iterations that brings the distance below `d`
  have hD : 0 < |(1 : ℚ) - desiredLevel / (A + 1 / 10000000000)| + 1 := by positivity
  obtain ⟨k0, hk0⟩ := exists_pow_lt_of_lt_one (div_pos hd hD) hq1
  refine ⟨(s0.look_ahead_samples - 1) + k0, ?_⟩
  intro xs hxs hlen
  have hsplit : xs
      = xs.take (s0.look_ahead_samples - 1) ++ xs.drop (s0.look_ahead_samples - 1) :=
    (List.take_append_drop _ _).symm
  obtain ⟨s1, ys, h1, hJ1, hl1, hne1, -⟩ := dc_list m desiredLevel s0.attack_coeff
    s0.release_coeff s0.look_ahead_samples A ha hr (xs.take (s0.look_ahead_samples - 1)) s0 hJ0
    (fun z hz => hxs z (List.mem_of_mem_take hz))
  obtain ⟨s2, zs, h2, -, -, -, hc2⟩ := dc_list m desiredLevel s0.attack_coeff
    s0.release_coeff s0.look_ahead_samples A ha hr (xs.drop (s0.look_ahead_samples - 1)) s1 hJ1
    (fun z hz => hxs z (List.mem_of_mem_drop hz))
  have hfull : s0.look_ahead_samples ≤ s1.lookahead_buffer.length + 1 := by
    rw [hl1, hb0, List.length_take]
    omega
  have hrun : processList m s0 xs = some (s2, ys ++ zs) := by
    conv_lhs => rw [hsplit]
    rw [processList_append, h1]
    simp only [h2]
  refine ⟨s2, ys ++ zs, by rw [process_eq_processList, hrun], ?_⟩
  have hk : k0 ≤ (xs.drop (s0.look_ahead_samples - 1)).length := by
    rw [List.length_drop]
    omega
  rw [hg0] at hne1
  calc |s2.gain - desiredLevel / (A + 1 / 10000000000)|
      ≤ ((1 - s0.attack_coeff) ⊔ (1 - s0.release_coeff))
            ^ (xs.drop (s0.look_ahead_samples - 1)).length
          * |s1.gain - desiredLevel / (A + 1 / 10000000000)| := hc2 hfull
    _ ≤ ((1 - s0.attack_coeff) ⊔ (1 - s0.release_coeff)) ^ k0
          * |(1 : ℚ) - desiredLevel / (A + 1 / 10000000000)| :=
        mul_le_mul (pow_le_pow_of_le_one hq0 (le_of_lt hq1) hk) hne1 (abs_nonneg _)
          (pow_nonneg hq0 _)
    _ ≤ ((1 - s0.attack_coeff) ⊔ (1 - s0.release_coeff)) ^ k0
          * (|(1 : ℚ) - desiredLevel / (A + 1 / 10000000000)| + 1) :=
        mul_le_mul_of_nonneg_left (by linarith) (pow_nonneg hq0 _)
    _ < d := by
        rw [lt_div_iff₀ hD] at hk0
        exact hk0

@[simp] theorem updateNoiseEstimateAll_noise_adapt_speed (xs : List ℚ) (s : State) :
    (updateNoiseEstimateAll s xs).noise_adapt_speed = s.noise_adapt_speed := by
  induction xs generalizing s with
  | nil => rfl
  | cons x xs ih =>
    simp only [updateNoiseEstimateAll, List.foldl_cons] at ih ⊢
    rw [ih]
    simp

theorem noise_estimate_silence (n : ℕ) (s : State)
    (hsp : s.noise_adapt_speed = 1 / 1000) (he : 0 < s.noise_estimate) :
    (updateNoiseEstimateAll s (List.replicate n 0)).noise_estimate
      = s.noise_estimate * (999 / 1000) ^ n := by
  induction n generalizing s with
  | zero => simp [updateNoiseEstimateAll]
  | succ n ih =>
    have hstep : (updateNoiseEstimate s 0).noise_estimate = s.noise_estimate * (999 / 1000) := by
      simp only [updateNoiseEstimate, abs_zero, if_pos he, hsp]
      ring
    simp only [updateNoiseEstimateAll, List.replicate_succ, List.foldl_cons] at ih ⊢
    rw [ih _ (by simp [hsp]) (by rw [hstep]; positivity), hstep]
    ring

theorem noise_estimate_loud (A : ℚ) (xs : List ℚ) (s : State)
    (hsp : s.noise_adapt_speed = 1 / 1000) (he : s.noise_estimate ≤ A)
    (hxs : ∀ x ∈ xs, |x| = A) :
    (updateNoiseEstimateAll s xs).noise_estimate
      = A - (A - s.noise_estimate) * (9999 / 10000) ^ xs.length := by
  induction xs generalizing s with
  | nil => simp [updateNoiseEstimateAll]
  | cons x xs ih =>
    have hx : |x| = A := hxs x (by simp)
    have hstep : (updateNoiseEstimate s x).noise_estimate
        = A - (A - s.noise_estimate) * (9999 / 10000) := by
      simp only [updateNoiseEstimate, hx, if_neg (not_lt.2 he), hsp]
      ring
    simp only [updateNoiseEstimateAll, List.foldl_cons, List.length_cons] at ih ⊢
    rw [ih _ (by simp [hsp]) (by rw [hstep]; linarith)
      (fun y hy => hxs y (List.mem_cons_of_mem _ hy)), hstep]
    ring

/-- C7 as stated fails: after one sample, the estimate that started at `1` and saw silence is
at distance `0.999` from `0`, which is not larger than the distance `0.9999` from `1` of the
estimate that started at `0` and saw a sample of magnitude `1`. -/
theorem C7_counterexample :
    ¬ (|(updateNoiseEstimateAll { new refMath 1 10 100 5 48000 with noise_estimate := 1 }
          (List.replicate 1 0)).noise_estimate - 0|
        > |1 - (updateNoiseEstimateAll { new refMath 1 10 100 5 48000 with noise_estimate := 0 }
          [1]).noise_estimate|) := by
  decide!

/-- C7, amended. Asymmetric noise adaptation: for every amplitude `A > 0` and every `n ≥ 1`
samples, the estimate that starts at `A` and is fed `n` zero samples is left at a distance from
`0` that is smaller than the distance from `A` left when the estimate starts at `0` and is fed
`n` samples of magnitude `A`: the estimator falls faster than it rises. -/
theorem C7_noise_falls_faster (s : State) (A : ℚ) (xs : List ℚ)
    (hsp : s.noise_adapt_speed = 1 / 1000) (hA : 0 < A)
    (hxs : ∀ x ∈ xs, |x| = A) (hn : 1 ≤ xs.length) :
    |(updateNoiseEstimateAll { s with noise_estimate := A }
          (List.replicate xs.length 0)).noise_estimate - 0|
      < |A - (updateNoiseEstimateAll { s with noise_estimate := 0 } xs).noise_estimate| := by
  rw [noise_estimate_silence xs.length { s with noise_estimate := A } hsp hA,
    noise_estimate_loud A xs { s with noise_estimate := 0 } hsp (le_of_lt hA) hxs]
  simp only [sub_zero, sub_sub_cancel]
  have hpow : ((999 : ℚ) / 1000) ^ xs.length < (9999 / 10000) ^ xs.length :=
    pow_lt_pow_left₀ (by norm_num) (by norm_num) (by omega)
  rw [abs_of_pos (by positivity), abs_of_pos (by positivity)]
  exact mul_lt_mul_of_pos_left hpow hA

/-- C7, an instance: amplitude `2`, the three samples `2, -2, 2`. -/
theorem C7_noise_falls_faster_witness :
    ((new refMath 1 10 100 5 48000).noise_adapt_speed = 1 / 1000 ∧ (0 : ℚ) < 2 ∧
      (∀ x ∈ [(2 : ℚ), -2, 2], |x| = 2) ∧ 1 ≤ [(2 : ℚ), -2, 2].length) ∧
    |(updateNoiseEstimateAll { new refMath 1 10 100 5 48000 with noise_estimate := 2 }
          (List.replicate [(2 : ℚ), -2, 2].length 0)).noise_estimate - 0|
      < |2 - (updateNoiseEstimateAll { new refMath 1 10 100 5 48000 with noise_estimate := 0 }
          [2, -2, 2]).noise_estimate| :=
  ⟨⟨rfl, by norm_num, by decide!, by decide⟩,
    C7_noise_falls_faster (new refMath 1 10 100 5 48000) 2 [2, -2, 2] rfl (by norm_num)
      (by decide!) (by decide)⟩

theorem processSample_inv (m : CMath) (s : State) (x : ℚ) (s1 : State) (y : ℚ)
    (hinv : s.lookahead_max = sufMax s.lookahead_buffer)
    (h : processSample m s x = some (s1, y)) :
    s1.lookahead_buffer = window s.look_ahead_samples (s.lookahead_buffer ++ [x]) ∧
      s1.lookahead_max = sufMax s1.lookahead_buffer := by
  obtain ⟨p, hp, hcase⟩ := (processSample_iff m s x s1 y).1 h
  rw [push_sufMax s x hinv, Option.some.injEq] at hp
  subst hp
  rcases hcase with ⟨_, rfl, _⟩ | ⟨_, cur, peak, _, _, rfl, _⟩ <;> simp

theorem max_nonneg (s : State) (k : ℚ) (h : max s = some k) : 0 ≤ k := by
  unfold max at h
  split at h
  · exact absurd h (by simp)
  · simp only [Option.some.injEq] at h
    rw [← h]
    exact abs_nonneg _

theorem updateGain_pos (s : State) (k : ℚ) (hk : 0 ≤ k) (hg : 0 < s.gain)
    (hL : 0 < s.desired_level) (ha : 0 < s.attack_coeff ∧ s.attack_coeff < 1)
    (hr : 0 < s.release_coeff ∧ s.release_coeff < 1) : 0 < (updateGain s k).gain := by
  have hd : 0 < s.desired_level / (k + 1 / 10000000000) := by positivity
  simp only [updateGain]
  split
  · show 0 < s.gain - s.attack_coeff * (s.gain - s.desired_level / (k + 1 / 10000000000))
    nlinarith [mul_pos ha.1 hd, mul_pos (sub_pos.2 ha.2) hg]
  · show 0 < s.gain + s.release_coeff * (s.desired_level / (k + 1 / 10000000000) - s.gain)
    nlinarith [mul_pos hr.1 hd, mul_pos (sub_pos.2 hr.2) hg]

theorem run_total (m : CMath) (cs : List Call) (s : State)
    (hinv : s.lookahead_max = sufMax s.lookahead_buffer) (hN : 1 ≤ s.look_ahead_samples) :
    ∃ s1, run m s cs = some s1 := by
  induction cs generalizing s with
  | nil => exact ⟨s, rfl⟩
  | cons c cs ih =>
    cases c with
    | process arr =>
      obtain ⟨s1, ys, h1, -, -, hm1, hn1⟩ := processList_total m arr s hinv hN
      obtain ⟨s2, h2⟩ := ih s1 hm1 (by rw [hn1]; exact hN)
      refine ⟨s2, ?_⟩
      simp only [run, process_eq_processList, h1, h2]
    | reset =>
      obtain ⟨s2, h2⟩ := ih (reset s) rfl (by simpa using hN)
      exact ⟨s2, by simp only [run, h2]⟩

theorem processSample_gain_pos (m : CMath) (s : State) (x : ℚ) (s1 : State) (y : ℚ)
    (hs : 0 < s.gain ∧ 0 < s.desired_level ∧ (0 < s.attack_coeff ∧ s.attack_coeff < 1) ∧
      (0 < s.release_coeff ∧ s.release_coeff < 1))
    (h : processSample m s x = some (s1, y)) :
    0 < s1.gain ∧ 0 < s1.desired_level ∧ (0 < s1.attack_coeff ∧ s1.attack_coeff < 1) ∧
      (0 < s1.release_coeff ∧ s1.release_coeff < 1) := by
  obtain ⟨c1, -, -, -, -, c6, c7⟩ := processSample_config m s s1 x y h
  obtain ⟨hg, hL, ha, hr⟩ := hs
  refine ⟨?_, by rw [c1]; exact hL, by rw [c6]; exact ha, by rw [c7]; exact hr⟩
  obtain ⟨p, hp, hcase⟩ := (processSample_iff m s x s1 y).1 h
  obtain ⟨f1, f2, -, -, -, -, -, -, f9, f10⟩ := push_frame s p x hp
  rcases hcase with ⟨_, rfl, _⟩ | ⟨_, cur, peak, _, hpeak, rfl, _⟩
  · simpa [f2] using hg
  · simp only [calculateNoiseReduction_gain]
    exact updateGain_pos _ peak (max_nonneg _ _ hpeak) (by simpa [f2] using hg)
      (by simpa [f1] using hL) (by simpa [f9] using ha) (by simpa [f10] using hr)

/-- In exact arithmetic, with coefficients strictly between 0 and 1, `gain` is strictly
positive after every sequence of `process` and `reset` calls. -/
theorem gain_positive_exact (m : CMath)
    (desiredLevel attackTimeMs releaseTimeMs lookAheadTimeMs sr : ℚ)
    (hexp : ∀ x : ℚ, x < 0 → 0 < m.exp x ∧ m.exp x < 1)
    (hL : 0 < desiredLevel) (hat : 0 < attackTimeMs) (hrt : 0 < releaseTimeMs) (hsr : 0 < sr)
    (hN : 1
      ≤ (new m desiredLevel attackTimeMs releaseTimeMs lookAheadTimeMs sr).look_ahead_samples) :
    (new m desiredLevel attackTimeMs releaseTimeMs lookAheadTimeMs sr).gain = 1 ∧
      ∀ cs : List Call, ∃ s,
        run m (new m desiredLevel attackTimeMs releaseTimeMs lookAheadTimeMs sr) cs = some s ∧
        0 < s.gain ∧ (reset s).gain = 1 := by
  refine ⟨rfl, ?_⟩
  intro cs
  obtain ⟨s, hs⟩ := run_total m cs
    (new m desiredLevel attackTimeMs releaseTimeMs lookAheadTimeMs sr) rfl hN
  refine ⟨s, hs, ?_, rfl⟩
  have hneg : ∀ t : ℚ, 0 < t → -1 / (t * (1 / 1000) * sr) < 0 := by
    intro t ht
    have : 0 < t * (1 / 1000) * sr := by positivity
    rw [neg_div]
    exact neg_neg_of_pos (by positivity)
  have h0 := run_induction m
    (fun t => 0 < t.gain ∧ 0 < t.desired_level ∧ (0 < t.attack_coeff ∧ t.attack_coeff < 1) ∧
      (0 < t.release_coeff ∧ t.release_coeff < 1))
    (fun t x t1 y ht hstep => processSample_gain_pos m t x t1 y ht hstep)
    (fun t ht => by
      refine ⟨by simp [reset], ?_, ?_, ?_⟩
      · simpa using ht.2.1
      · simpa using ht.2.2.1
      · simpa using ht.2.2.2)
    cs _ s ?_ hs
  · exact h0.1
  · obtain ⟨a0, a1⟩ := hexp _ (hneg attackTimeMs hat)
    obtain ⟨r0, r1⟩ := hexp _ (hneg releaseTimeMs hrt)
    refine ⟨by simp [new], hL, ⟨?_, ?_⟩, ⟨?_, ?_⟩⟩
    · show 0 < 1 - m.exp _
      linarith
    · show 1 - m.exp _ < 1
      linarith
    · show 0 < 1 - m.exp _
      linarith
    · show 1 - m.exp _ < 1
      linarith

/-- C9 fails on the code: 0.01 ms at 48000 Hz gives a window of zero samples; the first
`push` leaves both deques empty, `process` takes the steady-state branch (size 0 equals
`look_ahead_samples`) and reads `front()` of the empty `lookahead_buffer`. -/
theorem C9_empty_window_access :
    (new refMath 1 10 100 (1 / 100) 48000).look_ahead_samples = 0 ∧
      (push (new refMath 1 10 100 (1 / 100) 48000) 1).map
          (fun p => (p.lookahead_buffer, p.lookahead_max)) = some ([], []) ∧
      processSample refMath (new refMath 1 10 100 (1 / 100) 48000) 1 = none ∧
      process refMath (new refMath 1 10 100 (1 / 100) 48000) [1] = none := by
  decide!

theorem processList_length (m : CMath) (xs : List ℚ) (s s1 : State) (ys : List ℚ)
    (h : processList m s xs = some (s1, ys)) : ys.length = xs.length := by
  induction xs generalizing s ys with
  | nil =>
    simp only [processList, Option.some.injEq, Prod.mk.injEq] at h
    rw [← h.2]
  | cons x xs ih =>
    unfold processList at h
    cases hx : processSample m s x with
    | none => simp [hx] at h
    | some r =>
      obtain ⟨s2, y⟩ := r
      rw [hx] at h
      simp only at h
      cases hr : processList m s2 xs with
      | none => simp [hr] at h
      | some r2 =>
        obtain ⟨s3, zs⟩ := r2
        rw [hr] at h
        simp only [Option.some.injEq, Prod.mk.injEq] at h
        rw [← h.2, List.length_cons, List.length_cons, ih s2 zs (h.1 ▸ hr)]

theorem run_inv (m : CMath) (s0 : State) (cs : List Call) (s : State)
    (h0 : s0.lookahead_max = sufMax s0.lookahead_buffer) (h : run m s0 cs = some s) :
    s.lookahead_max = sufMax s.lookahead_buffer :=
  run_induction m (fun t => t.lookahead_max = sufMax t.lookahead_buffer)
    (fun t x t1 y ht hstep => (processSample_inv m t x t1 y ht hstep).2)
    (fun _ _ => rfl) cs s0 s h0 h

/-- C10. Steady-state transfer function: let `s` be a state reached from a constructed
processor, `si` the state after `process` on the first `i` samples of `arr`, and `u` the state
after `push(arr[i])` and `updateNoiseEstimate(arr[i])`. If the window is full in `u` and
`current_sample` is the oldest sample of `lookahead_buffer`, then `max()` is defined, `process`
on `arr` returns, and it writes at index `i` the value
`current_sample * (r * 0.7 + 0.3) * gain * 0.01`, with `gain` the gain after the update of
this step against `peak = max()` and `r` the value of `calculateNoiseReduction(current_sample)`
in that state. -/
theorem C10_steady_state_transfer (m : CMath)
    (desiredLevel attackTimeMs releaseTimeMs lookAheadTimeMs sr : ℚ) (cs : List Call)
    (s : State) (arr : List ℚ) (i : ℕ) (x : ℚ) (si : State) (ys : List ℚ) (p : State)
    (cur : ℚ)
    (hs : run m (new m desiredLevel attackTimeMs releaseTimeMs lookAheadTimeMs sr) cs = some s)
    (hx : arr[i]? = some x)
    (hsi : process m s (arr.take i) = some (si, ys))
    (hp : push si x = some p)
    (hfull : (updateNoiseEstimate p x).lookahead_buffer.length
      = (updateNoiseEstimate p x).look_ahead_samples)
    (hcur : (updateNoiseEstimate p x).lookahead_buffer.head? = some cur) :
    ∃ peak sf out, max (updateNoiseEstimate p x) = some peak ∧
      process m s arr = some (sf, out) ∧
      out[i]? = some (cur
        * ((calculateNoiseReduction m (updateGain (updateNoiseEstimate p x) peak) cur).1
            * (7 / 10) + 3 / 10)
        * (updateGain (updateNoiseEstimate p x) peak).gain * (1 / 100)) := by
  have hinv : s.lookahead_max = sufMax s.lookahead_buffer := run_inv m _ cs s rfl hs
  rw [process_eq_processList] at hsi
  have hinvi : si.lookahead_max = sufMax si.lookahead_buffer :=
    processList_induction m (fun t => t.lookahead_max = sufMax t.lookahead_buffer)
      (fun t z t1 y ht hstep => (processSample_inv m t z t1 y ht hstep).2)
      (arr.take i) s si ys hinv hsi
  have hi : i < arr.length := by
    by_contra hcon
    rw [List.getElem?_eq_none (not_lt.1 hcon)] at hx
    exact absurd hx (by simp)
  have hxi : arr[i] = x := by
    rw [List.getElem?_eq_getElem hi, Option.some.injEq] at hx
    exact hx
  -- the state after the push holds the suffix maxima of a non-empty window
  have hp2 := hp
  rw [push_sufMax si x hinvi, Option.some.injEq] at hp2
  have hpb : (updateNoiseEstimate p x).lookahead_buffer ≠ [] := by
    intro h
    rw [h] at hcur
    exact absurd hcur (by simp)
  have hpm : (updateNoiseEstimate p x).lookahead_max
      = sufMax (updateNoiseEstimate p x).lookahead_buffer := by
    rw [← hp2]
    simp
  obtain ⟨f, rest, e, -, -⟩ := sufMax_head _ hpb
  have hmax : max (updateNoiseEstimate p x) = some |f| := by
    simp only [max, hpm, e]
  have hstep := (processSample_iff m si x _ _).2
    ⟨p, hp, Or.inr ⟨hfull, cur, |f|, hcur, hmax, rfl, rfl⟩⟩
  -- the window length is at least one, so the remaining iterations return
  have hN1 : 1 ≤ (updateNoiseEstimate p x).look_ahead_samples := by
    rw [← hfull]
    exact List.length_pos.2 hpb
  obtain ⟨hb2, hm2⟩ := processSample_inv m si x _ _ hinvi hstep
  obtain ⟨sf, ws, hrest, -, -, -, -⟩ := processList_total m (arr.drop (i + 1))
    (calculateNoiseReduction m (updateGain (updateNoiseEstimate p x) |f|) cur).2 hm2
    (by simpa using hN1)
  have hsplit : arr = arr.take i ++ (x :: arr.drop (i + 1)) := by
    rw [← hxi, ← List.drop_eq_getElem_cons hi, List.take_append_drop]
  have hrun : processList m s arr = some (sf, ys ++
      ((cur * ((calculateNoiseReduction m (updateGain (updateNoiseEstimate p x) |f|) cur).1
            * (7 / 10) + 3 / 10)
          * ((calculateNoiseReduction m (updateGain (updateNoiseEstimate p x) |f|) cur).2.gain
            * (1 / 100))) :: ws)) := by
    conv_lhs => rw [hsplit]
    rw [processList_append, hsi]
    simp only [processList, hstep, hrest]
  have hyl : ys.length = i := by
    rw [processList_length m (arr.take i) s si ys hsi, List.length_take]
    omega
  refine ⟨|f|, sf, _, hmax, by rw [process_eq_processList, hrun], ?_⟩
  rw [List.getElem?_append_right (by omega), hyl, Nat.sub_self]
  simp only [List.getElem?_cons_zero, calculateNoiseReduction_gain, Option.some.injEq]
  ring

/-- C10, an instance: a window of two samples, the buffer `3, -4, 5`, index one; the states
before and after the `push` of `-4` are written out. -/
theorem C10_steady_state_transfer_witness :
    (run refMath (new refMath 1 10 100 2 1000) [] = some (new refMath 1 10 100 2 1000) ∧
      [(3 : ℚ), -4, 5][1]? = some (-4 : ℚ) ∧
      process refMath (new refMath 1 10 100 2 1000) ([(3 : ℚ), -4, 5].take 1)
        = some (⟨1, 1, 1000, 3 / 10000, 1 / 1000, 9 / 10, 1, 2, 1 / 11, 1 / 101, [3], [3]⟩,
          [0]) ∧
      push ⟨1, 1, 1000, 3 / 10000, 1 / 1000, 9 / 10, 1, 2, 1 / 11, 1 / 101, [3], [3]⟩ (-4)
        = some ⟨1, 1, 1000, 3 / 10000, 1 / 1000, 9 / 10, 1, 2, 1 / 11, 1 / 101, [3, -4],
          [-4]⟩) ∧
    ∃ peak sf out,
      max (updateNoiseEstimate
        ⟨1, 1, 1000, 3 / 10000, 1 / 1000, 9 / 10, 1, 2, 1 / 11, 1 / 101, [3, -4], [-4]⟩ (-4))
        = some peak ∧
      process refMath (new refMath 1 10 100 2 1000) [3, -4, 5] = some (sf, out) ∧
      out[1]? = some (3
        * ((calculateNoiseReduction refMath (updateGain (updateNoiseEstimate
            ⟨1, 1, 1000, 3 / 10000, 1 / 1000, 9 / 10, 1, 2, 1 / 11, 1 / 101, [3, -4], [-4]⟩
            (-4)) peak) 3).1 * (7 / 10) + 3 / 10)
        * (updateGain (updateNoiseEstimate
            ⟨1, 1, 1000, 3 / 10000, 1 / 1000, 9 / 10, 1, 2, 1 / 11, 1 / 101, [3, -4], [-4]⟩
            (-4)) peak).gain * (1 / 100)) :=
  ⟨⟨rfl, by simp, by decide!, by decide!⟩,
    C10_steady_state_transfer refMath 1 10 100 2 1000 [] (new refMath 1 10 100 2 1000)
      [3, -4, 5] 1 (-4)
      ⟨1, 1, 1000, 3 / 10000, 1 / 1000, 9 / 10, 1, 2, 1 / 11, 1 / 101, [3], [3]⟩ [0]
      ⟨1, 1, 1000, 3 / 10000, 1 / 1000, 9 / 10, 1, 2, 1 / 11, 1 / 101, [3, -4], [-4]⟩ 3
      rfl (by simp) (by decide!) (by decide!) (by decide!) (by decide!)⟩

theorem maxAbs_nonneg (xs : List ℚ) : 0 ≤ maxAbs xs := by
  induction xs with
  | nil => simp [maxAbs]
  | cons x xs ih =>
    simp only [maxAbs, List.map_cons, List.foldr_cons] at ih ⊢
    exact le_trans ih (le_max_right _ _)

theorem le_maxAbs {xs : List ℚ} {x : ℚ} (h : x ∈ xs) : |x| ≤ maxAbs xs := by
  induction xs with
  | nil => simp at h
  | cons a xs ih =>
    simp only [maxAbs, List.map_cons, List.foldr_cons] at ih ⊢
    rcases List.mem_cons.1 h with h | h
    · rw [h]
      exact le_max_left _ _
    · exact le_trans (ih h) (le_max_right _ _)

theorem updateNoiseEstimate_bounds (s : State) (x B : ℚ)
    (hsp : s.noise_adapt_speed = 1 / 1000) (h0 : 0 ≤ s.noise_estimate)
    (h1 : s.noise_estimate ≤ B) (hx : |x| ≤ B) :
    0 ≤ (updateNoiseEstimate s x).noise_estimate ∧
      (updateNoiseEstimate s x).noise_estimate ≤ B := by
  have hx0 : 0 ≤ |x| := abs_nonneg x
  simp only [updateNoiseEstimate, hsp]
  split
  · constructor
    · show 0 ≤ s.noise_estimate * (1 - 1 / 1000) + |x| * (1 / 1000)
      nlinarith
    · show s.noise_estimate * (1 - 1 / 1000) + |x| * (1 / 1000) ≤ B
      nlinarith
  · constructor
    · show 0 ≤ s.noise_estimate * (1 - 1 / 1000 * (1 / 10)) + |x| * (1 / 1000) * (1 / 10)
      nlinarith
    · show s.noise_estimate * (1 - 1 / 1000 * (1 / 10)) + |x| * (1 / 1000) * (1 / 10) ≤ B
      nlinarith

theorem updateNoiseEstimateAll_bounds (xs : List ℚ) (s : State) (B : ℚ)
    (hsp : s.noise_adapt_speed = 1 / 1000) (h0 : 0 ≤ s.noise_estimate)
    (h1 : s.noise_estimate ≤ B) (hxs : ∀ x ∈ xs, |x| ≤ B) :
    0 ≤ (updateNoiseEstimateAll s xs).noise_estimate ∧
      (updateNoiseEstimateAll s xs).noise_estimate ≤ B := by
  induction xs generalizing s with
  | nil => exact ⟨h0, h1⟩
  | cons x xs ih =>
    obtain ⟨g0, g1⟩ := updateNoiseEstimate_bounds s x B hsp h0 h1 (hxs x (by simp))
    simp only [updateNoiseEstimateAll, List.foldl_cons] at ih ⊢
    exact ih (updateNoiseEstimate s x) (by simp [hsp]) g0 g1
      (fun z hz => hxs z (List.mem_cons_of_mem _ hz))

theorem updateNoiseEstimate_congr (s t : State) (x : ℚ)
    (he : s.noise_estimate = t.noise_estimate)
    (hsp : s.noise_adapt_speed = t.noise_adapt_speed) :
    (updateNoiseEstimate s x).noise_estimate = (updateNoiseEstimate t x).noise_estimate := by
  simp only [updateNoiseEstimate, he, hsp]
  split <;> rfl

theorem updateNoiseEstimateAll_congr (xs : List ℚ) (s t : State)
    (he : s.noise_estimate = t.noise_estimate)
    (hsp : s.noise_adapt_speed = t.noise_adapt_speed) :
    (updateNoiseEstimateAll s xs).noise_estimate
      = (updateNoiseEstimateAll t xs).noise_estimate := by
  induction xs generalizing s t with
  | nil => exact he
  | cons x xs ih =>
    simp only [updateNoiseEstimateAll, List.foldl_cons] at ih ⊢
    exact ih _ _ (updateNoiseEstimate_congr s t x he hsp) (by simp [hsp])

theorem processSample_noise_estimate (m : CMath) (s : State) (x : ℚ) (s1 : State) (y : ℚ)
    (h : processSample m s x = some (s1, y)) :
    s1.noise_estimate = (updateNoiseEstimate s x).noise_estimate := by
  obtain ⟨p, hp, hcase⟩ := (processSample_iff m s x s1 y).1 h
  obtain ⟨-, -, -, f4, f5, -⟩ := push_frame s p x hp
  rcases hcase with ⟨_, rfl, _⟩ | ⟨_, cur, peak, _, _, rfl, _⟩
  · exact updateNoiseEstimate_congr p s x f4 f5
  · simp only [calculateNoiseReduction_noise_estimate, updateGain_noise_estimate]
    exact updateNoiseEstimate_congr p s x f4 f5

theorem processList_noise_estimate (m : CMath) (xs : List ℚ) (s s1 : State) (ys : List ℚ)
    (h : processList m s xs = some (s1, ys)) :
    s1.noise_estimate = (updateNoiseEstimateAll s xs).noise_estimate := by
  induction xs generalizing s s1 ys with
  | nil =>
    simp only [processList, Option.some.injEq, Prod.mk.injEq] at h
    rw [← h.1]
    rfl
  | cons x xs ih =>
    unfold processList at h
    cases hx : processSample m s x with
    | none => simp [hx] at h
    | some r =>
      obtain ⟨s2, y⟩ := r
      rw [hx] at h
      simp only at h
      cases hr : processList m s2 xs with
      | none => simp [hr] at h
      | some r2 =>
        obtain ⟨s3, zs⟩ := r2
        rw [hr] at h
        simp only [Option.some.injEq, Prod.mk.injEq] at h
        rw [← h.1, ih s2 s3 zs hr]
        simp only [updateNoiseEstimateAll, List.foldl_cons]
        exact updateNoiseEstimateAll_congr xs s2 (updateNoiseEstimate s x)
          (processSample_noise_estimate m s x s2 y hx)
          (by rw [(processSample_config m s s2 x y hx).2.2.1]; simp)

/-- In exact arithmetic on numbers: from a state with `noise_estimate = 0` the estimate after
the `updateNoiseEstimate` calls on `xs` is non-negative and at most the largest `|x|` of `xs`,
and it is the `noise_estimate` that `process` on `xs` leaves. -/
theorem noise_estimate_bounds (m : CMath) (s0 : State) (xs : List ℚ)
    (h0 : s0.noise_estimate = 0) (hsp : s0.noise_adapt_speed = 1 / 1000) :
    ((∀ a b c d e : ℚ, (new m a b c d e).noise_estimate = 0) ∧
      ∀ t : State, (reset t).noise_estimate = 0) ∧
    (0 ≤ (updateNoiseEstimateAll s0 xs).noise_estimate ∧
      (updateNoiseEstimateAll s0 xs).noise_estimate ≤ maxAbs xs) ∧
    ∀ s out, process m s0 xs = some (s, out) →
      s.noise_estimate = (updateNoiseEstimateAll s0 xs).noise_estimate ∧
      0 ≤ s.noise_estimate ∧ s.noise_estimate ≤ maxAbs xs := by
  have hb := updateNoiseEstimateAll_bounds xs s0 (maxAbs xs) hsp (by rw [h0])
    (by rw [h0]; exact maxAbs_nonneg xs) (fun x hx => le_maxAbs hx)
  refine ⟨⟨fun _ _ _ _ _ => rfl, fun _ => rfl⟩, hb, ?_⟩
  intro s out hrun
  rw [process_eq_processList] at hrun
  have e := processList_noise_estimate m xs s0 s out hrun
  rw [e]
  exact ⟨rfl, hb⟩

/-- C12. FIFO window: after any sequence of `k` `push` calls on a processor with empty deques,
for every window length, `lookahead_buffer` holds the last `min(k, N)` pushed samples in
arrival order; its size is at most `look_ahead_samples` between pushes, and the buffer a next
`push` holds between its `push_back` and its `pop` has at most `look_ahead_samples + 1`. -/
theorem C12_fifo_window (s0 : State) (xs : List ℚ)
    (hb : s0.lookahead_buffer = []) (hm : s0.lookahead_max = []) :
    ∃ s, pushAll s0 xs = some s ∧
      s.lookahead_buffer = lastN (min xs.length s0.look_ahead_samples) xs ∧
      s.look_ahead_samples = s0.look_ahead_samples ∧
      s.lookahead_buffer.length ≤ s.look_ahead_samples ∧
      ∀ x : ℚ, (s.lookahead_buffer ++ [x]).length ≤ s.look_ahead_samples + 1 := by
  have h0 : s0.lookahead_max = sufMax s0.lookahead_buffer := by rw [hb, hm]; rfl
  have hrun := pushAll_sufMax xs s0 h0
  rw [hb, foldl_window] at hrun
  have hlen : (lastN (min xs.length s0.look_ahead_samples) xs).length
      ≤ s0.look_ahead_samples := by
    rw [length_lastN]
    omega
  refine ⟨_, hrun, rfl, rfl, hlen, ?_⟩
  intro x
  simp only [List.length_append, List.length_singleton]
  exact Nat.succ_le_succ hlen

/-- C12, an instance: a window of three over `1, -3, 2, 2, 1`. -/
theorem C12_fifo_window_witness :
    ∃ s, pushAll (new refMath 1 10 100 3 1000) [1, -3, 2, 2, 1] = some s ∧
      s.lookahead_buffer
        = lastN (min [(1 : ℚ), -3, 2, 2, 1].length
            (new refMath 1 10 100 3 1000).look_ahead_samples) [1, -3, 2, 2, 1] ∧
      s.look_ahead_samples = (new refMath 1 10 100 3 1000).look_ahead_samples ∧
      s.lookahead_buffer.length ≤ s.look_ahead_samples ∧
      ∀ x : ℚ, (s.lookahead_buffer ++ [x]).length ≤ s.look_ahead_samples + 1 :=
  C12_fifo_window (new refMath 1 10 100 3 1000) [1, -3, 2, 2, 1] rfl rfl

theorem sufMax_sublist (l : List ℚ) : (sufMax l).Sublist l := by
  induction l with
  | nil => exact List.Sublist.slnil
  | cons a l ih =>
    unfold sufMax
    split
    · exact List.Sublist.cons₂ a ih
    · exact List.Sublist.cons a ih

theorem sufMax_pairwise (l : List ℚ) : (sufMax l).Pairwise (fun a b => |b| ≤ |a|) := by
  induction l with
  | nil => exact List.Pairwise.nil
  | cons a l ih =>
    unfold sufMax
    split
    · rename_i h
      exact List.Pairwise.cons (fun b hb => h b (mem_sufMax hb)) ih
    · exact ih

/-- After any sequence of `push` calls with numbers on a processor with empty deques, the
absolute values of `lookahead_max` do not increase from front to back and `lookahead_max` is a
subsequence of `lookahead_buffer`. -/
theorem pushAll_monotonic (s0 : State) (xs : List ℚ)
    (hb : s0.lookahead_buffer = []) (hm : s0.lookahead_max = []) :
    ∃ s, pushAll s0 xs = some s ∧
      s.lookahead_max.Pairwise (fun a b => |b| ≤ |a|) ∧
      s.lookahead_max.Sublist s.lookahead_buffer := by
  have h0 : s0.lookahead_max = sufMax s0.lookahead_buffer := by rw [hb, hm]; rfl
  exact ⟨_, pushAll_sufMax xs s0 h0, sufMax_pairwise _, sufMax_sublist _⟩

theorem rdropWhile_cons_neg_tagged (p : ℕ × ℚ → Bool) (a : ℕ × ℚ) (L : List (ℕ × ℚ))
    (h : ¬ p a) : (a :: L).rdropWhile p = a :: L.rdropWhile p := by
  induction L using List.reverseRecOn with
  | nil => simp [List.rdropWhile_singleton, h]
  | append_singleton L b ih =>
    rw [← List.cons_append, List.rdropWhile_concat, List.rdropWhile_concat]
    split
    · exact ih
    · rfl

theorem mem_tsufMax {l : List (ℕ × ℚ)} {y : ℕ × ℚ} (h : y ∈ tsufMax l) : y ∈ l := by
  induction l with
  | nil => simp [tsufMax] at h
  | cons a l ih =>
    unfold tsufMax at h
    split at h
    · rcases List.mem_cons.1 h with h | h
      · simp [h]
      · exact List.mem_cons_of_mem _ (ih h)
    · exact List.mem_cons_of_mem _ (ih h)

theorem tsufMax_concat (l : List (ℕ × ℚ)) (x : ℕ × ℚ) :
    tsufMax (l ++ [x])
      = (tsufMax l).rdropWhile (fun b => decide (|b.2| < |x.2|)) ++ [x] := by
  induction l with
  | nil => simp [tsufMax]
  | cons a l ih =>
    rw [List.cons_append, tsufMax, ih]
    by_cases hl : ∀ y ∈ l, |y.2| ≤ |a.2|
    · by_cases hx : |x.2| ≤ |a.2|
      · have h1 : ∀ y ∈ l ++ [x], |y.2| ≤ |a.2| := by
          intro y hy
          rcases List.mem_append.1 hy with hy | hy
          · exact hl y hy
          · simpa [List.mem_singleton.1 hy] using hx
        rw [if_pos h1, tsufMax, if_pos hl,
          rdropWhile_cons_neg_tagged _ _ _ (by simpa using hx)]
        rfl
      · have h1 : ¬ ∀ y ∈ l ++ [x], |y.2| ≤ |a.2| := fun h => hx (h x (by simp))
        rw [if_neg h1, tsufMax, if_pos hl]
        have e1 : (tsufMax l).rdropWhile (fun b => decide (|b.2| < |x.2|)) = [] := by
          rw [List.rdropWhile_eq_nil_iff]
          intro y hy
          simp only [decide_eq_true_eq]
          exact lt_of_le_of_lt (hl y (mem_tsufMax hy)) (not_le.1 hx)
        have e2 : (a :: tsufMax l).rdropWhile (fun b => decide (|b.2| < |x.2|)) = [] := by
          rw [List.rdropWhile_eq_nil_iff]
          intro y hy
          simp only [decide_eq_true_eq]
          rcases List.mem_cons.1 hy with hy | hy
          · rw [hy]; exact not_le.1 hx
          · exact lt_of_le_of_lt (hl y (mem_tsufMax hy)) (not_le.1 hx)
        rw [e1, e2]
    · have h1 : ¬ ∀ y ∈ l ++ [x], |y.2| ≤ |a.2| :=
        fun h => hl (fun y hy => h y (List.mem_append_left _ hy))
      rw [if_neg h1, tsufMax, if_neg hl]

theorem tsufMax_head (l : List (ℕ × ℚ)) (hl : l ≠ []) :
    ∃ f rest, tsufMax l = f :: rest ∧ f ∈ l ∧ ∀ y ∈ l, |y.2| ≤ |f.2| := by
  induction l with
  | nil => exact absurd rfl hl
  | cons a l ih =>
    by_cases h : ∀ y ∈ l, |y.2| ≤ |a.2|
    · refine ⟨a, tsufMax l, by rw [tsufMax, if_pos h], by simp, ?_⟩
      intro y hy
      rcases List.mem_cons.1 hy with hy | hy
      · rw [hy]
      · exact h y hy
    · have hne : l ≠ [] := by
        rintro rfl
        exact h (by simp)
      obtain ⟨f, rest, e, hf, hmax⟩ := ih hne
      refine ⟨f, rest, by rw [tsufMax, if_neg h, e], List.mem_cons_of_mem _ hf, ?_⟩
      intro y hy
      rcases List.mem_cons.1 hy with hy | hy
      · push_neg at h
        obtain ⟨z, hz, hlt⟩ := h
        rw [hy]
        exact le_trans (le_of_lt hlt) (hmax z hz)
      · exact hmax y hy

theorem tpop_tsufMax (t : Tagged) (a : ℕ × ℚ) (l : List (ℕ × ℚ))
    (hb : t.buffer = a :: l) (hm : t.maxq = tsufMax (a :: l)) :
    tpop t = some ({ buffer := l, maxq := tsufMax l }, false) := by
  unfold tpop
  rw [hb]
  by_cases h : ∀ y ∈ l, |y.2| ≤ |a.2|
  · rw [hm, tsufMax, if_pos h]
    simp
  · have hne : l ≠ [] := by
      rintro rfl
      exact h (by simp)
    obtain ⟨f, rest, e, hf, hmax⟩ := tsufMax_head l hne
    have hfa : a.2 ≠ f.2 := by
      intro hv
      apply h
      intro y hy
      rw [hv]
      exact hmax y hy
    rw [hm, tsufMax, if_neg h, e]
    simp only [if_neg hfa]

theorem tpush_tsufMax (N : ℕ) (t : Tagged) (i : ℕ) (x : ℚ) (hm : t.maxq = tsufMax t.buffer) :
    ∃ t1, tpush N t i x = some (t1, false) ∧ t1.maxq = tsufMax t1.buffer := by
  have e : (tsufMax t.buffer).rdropWhile (fun b => decide (|b.2| < |x|)) ++ [(i, x)]
      = tsufMax (t.buffer ++ [(i, x)]) := (tsufMax_concat t.buffer (i, x)).symm
  unfold tpush
  simp only [hm, e]
  split
  · cases hb : t.buffer ++ [(i, x)] with
    | nil => simp at hb
    | cons a l => exact ⟨_, tpop_tsufMax _ a l rfl rfl, rfl⟩
  · exact ⟨_, rfl, rfl⟩

theorem tpushAll_tsufMax (N : ℕ) (xs : List ℚ) (t : Tagged) (i : ℕ)
    (hm : t.maxq = tsufMax t.buffer) :
    ∃ t1, tpushAll N t i xs = some (t1, false) ∧ t1.maxq = tsufMax t1.buffer := by
  induction xs generalizing t i with
  | nil => exact ⟨t, rfl, hm⟩
  | cons x xs ih =>
    obtain ⟨t1, h1, hm1⟩ := tpush_tsufMax N t i x hm
    obtain ⟨t2, h2, hm2⟩ := ih t1 (i + 1) hm1
    exact ⟨t2, by simp only [tpushAll, h1, h2, Bool.or_self], hm2⟩

theorem rdropWhile_map_snd (l : List (ℕ × ℚ)) (x : ℚ) :
    (l.map Prod.snd).rdropWhile (fun b => decide (|b| < |x|))
      = (l.rdropWhile (fun b => decide (|b.2| < |x|))).map Prod.snd := by
  simp only [List.rdropWhile, ← List.map_reverse, List.dropWhile_map]
  rfl

theorem tpop_erase (s : State) (t : Tagged)
    (hb : s.lookahead_buffer = t.buffer.map Prod.snd)
    (hm : s.lookahead_max = t.maxq.map Prod.snd) :
    (tpop t).map (fun r => (r.1.buffer.map Prod.snd, r.1.maxq.map Prod.snd))
      = (pop s).map (fun p => (p.lookahead_buffer, p.lookahead_max)) := by
  unfold tpop pop
  rw [hb, hm]
  cases t.buffer with
  | nil => rfl
  | cons a l =>
    cases t.maxq with
    | nil => rfl
    | cons f more =>
      simp only [List.map_cons]
      by_cases h : a.2 = f.2
      · simp [h]
      · simp [h]

theorem tpush_erase (s : State) (t : Tagged) (i : ℕ) (x : ℚ)
    (hb : s.lookahead_buffer = t.buffer.map Prod.snd)
    (hm : s.lookahead_max = t.maxq.map Prod.snd) :
    (tpush s.look_ahead_samples t i x).map
        (fun r => (r.1.buffer.map Prod.snd, r.1.maxq.map Prod.snd))
      = (push s x).map (fun p => (p.lookahead_buffer, p.lookahead_max)) := by
  unfold tpush push
  simp only [popBackSmaller, hb, hm, rdropWhile_map_snd, List.length_append, List.length_map,
    List.length_singleton]
  split
  · apply tpop_erase
    · simp
    · simp
  · simp

theorem tpushAll_erase (xs : List ℚ) (s : State) (t : Tagged) (i : ℕ)
    (hb : s.lookahead_buffer = t.buffer.map Prod.snd)
    (hm : s.lookahead_max = t.maxq.map Prod.snd) :
    (tpushAll s.look_ahead_samples t i xs).map
        (fun r => (r.1.buffer.map Prod.snd, r.1.maxq.map Prod.snd))
      = (pushAll s xs).map (fun p => (p.lookahead_buffer, p.lookahead_max)) := by
  induction xs generalizing s t i with
  | nil => simp [tpushAll, pushAll, hb, hm]
  | cons x xs ih =>
    have h1 := tpush_erase s t i x hb hm
    unfold tpushAll pushAll
    cases hp : push s x with
    | none =>
      rw [hp] at h1
      cases ht : tpush s.look_ahead_samples t i x with
      | none => rfl
      | some r => simp [ht] at h1
    | some p =>
      rw [hp] at h1
      cases ht : tpush s.look_ahead_samples t i x with
      | none => simp [ht] at h1
      | some r =>
        obtain ⟨t1, b⟩ := r
        rw [ht] at h1
        simp only [Option.map_some', Option.some.injEq, Prod.mk.injEq] at h1
        have hn : p.look_ahead_samples = s.look_ahead_samples :=
          (push_frame s p x hp).2.2.2.2.2.2.2.1
        have h2 := ih p t1 (i + 1) h1.1.symm h1.2.symm
        rw [hn] at h2
        simp only
        rw [← h2]
        cases tpushAll s.look_ahead_samples t1 (i + 1) xs with
        | none => rfl
        | some r2 => rfl

/-- The flag of `tpop` is raised when the front of `lookahead_max` has the value of the evicted
sample and another position. -/
theorem tpop_flags_other_occurrence :
    tpop { buffer := [(0, 5)], maxq := [(1, 5)] } = some ({ buffer := [], maxq := [] }, true) := by
  decide!

/-- C14 as stated fails: for no window length and no input is there a `pop` that removes from
`lookahead_max` an entry of another input position than the sample evicted from
`lookahead_buffer`. -/
theorem C14_counterexample :
    ¬ ∃ (N : ℕ) (xs : List ℚ) (t : Tagged), 1 ≤ N ∧
      tpushAll N { buffer := [], maxq := [] } 0 xs = some (t, true) := by
  rintro ⟨N, xs, t, -, h⟩
  obtain ⟨t1, h1, -⟩ := tpushAll_tsufMax N xs { buffer := [], maxq := [] } 0 rfl
  rw [h1] at h
  simp at h

/-- C14, amended. Value-equality eviction removes the right occurrence: for every window
length and every input (also with equal values inside the window), the `push` calls return and
no `pop` removes from `lookahead_max` an entry whose input position differs from the position
of the sample evicted from `lookahead_buffer`; the tagged deques carry the values of the
deques of the processor. -/
theorem C14_eviction_removes_same_occurrence (s0 : State) (xs : List ℚ)
    (hb : s0.lookahead_buffer = []) (hm : s0.lookahead_max = []) :
    ∃ t s, tpushAll s0.look_ahead_samples { buffer := [], maxq := [] } 0 xs = some (t, false) ∧
      pushAll s0 xs = some s ∧
      s.lookahead_buffer = t.buffer.map Prod.snd ∧ s.lookahead_max = t.maxq.map Prod.snd := by
  obtain ⟨t, ht, -⟩ :=
    tpushAll_tsufMax s0.look_ahead_samples xs { buffer := [], maxq := [] } 0 rfl
  have he := tpushAll_erase xs s0 { buffer := [], maxq := [] } 0 (by simp [hb]) (by simp [hm])
  rw [ht] at he
  cases hs : pushAll s0 xs with
  | none => simp [hs] at he
  | some s =>
    rw [hs] at he
    simp only [Option.map_some', Option.some.injEq, Prod.mk.injEq] at he
    exact ⟨t, s, ht, rfl, he.1.symm, he.2.symm⟩

/-- C14, an instance: a window of two samples over `2, 2, -2, 2, 1`, where equal values and
equal magnitudes share the window. -/
theorem C14_eviction_removes_same_occurrence_witness :
    ∃ t s, tpushAll (new refMath 1 10 100 2 1000).look_ahead_samples
        { buffer := [], maxq := [] } 0 [2, 2, -2, 2, 1] = some (t, false) ∧
      pushAll (new refMath 1 10 100 2 1000) [2, 2, -2, 2, 1] = some s ∧
      s.lookahead_buffer = t.buffer.map Prod.snd ∧ s.lookahead_max = t.maxq.map Prod.snd :=
  C14_eviction_removes_same_occurrence (new refMath 1 10 100 2 1000) [2, 2, -2, 2, 1] rfl rfl

/-- In exact arithmetic the gain update gives a value between the old gain and
`desired_gain`. -/
theorem gain_step_exact (s : State) (peak : ℚ)
    (ha : 0 ≤ s.attack_coeff ∧ s.attack_coeff ≤ 1)
    (hr : 0 ≤ s.release_coeff ∧ s.release_coeff ≤ 1) :
    (s.desired_level / (peak + 1 / 10000000000) < s.gain →
      (updateGain s peak).gain
        = s.gain - s.attack_coeff * (s.gain - s.desired_level / (peak + 1 / 10000000000))) ∧
    (¬ s.desired_level / (peak + 1 / 10000000000) < s.gain →
      (updateGain s peak).gain
        = s.gain + s.release_coeff * (s.desired_level / (peak + 1 / 10000000000) - s.gain)) ∧
    min s.gain (s.desired_level / (peak + 1 / 10000000000)) ≤ (updateGain s peak).gain ∧
    (updateGain s peak).gain
      ≤ Max.max s.gain (s.desired_level / (peak + 1 / 10000000000)) := by
  rw [updateGain_gain]
  generalize s.desired_level / (peak + 1 / 10000000000) = d
  refine ⟨fun h => if_pos h, fun h => if_neg h, ?_, ?_⟩
  · split
    · rename_i h
      rw [min_eq_right (le_of_lt h)]
      nlinarith [mul_nonneg (sub_nonneg.2 ha.2) (sub_nonneg.2 (le_of_lt h))]
    · rename_i h
      rw [min_eq_left (not_lt.1 h)]
      nlinarith [mul_nonneg hr.1 (sub_nonneg.2 (not_lt.1 h))]
  · split
    · rename_i h
      rw [max_eq_left (le_of_lt h)]
      nlinarith [mul_nonneg ha.1 (sub_nonneg.2 (le_of_lt h))]
    · rename_i h
      rw [max_eq_right (not_lt.1 h)]
      nlinarith [mul_nonneg (sub_nonneg.2 hr.2) (sub_nonneg.2 (not_lt.1 h))]

/-- C16. Noise estimator step, with `noise_adapt_speed = 0.001` as the constructor sets it:
`updateNoiseEstimate` sets the estimate `e` to `e * (1 - c) + |x| * c` with `c = 0.001` when
`|x| < e` and `c = 0.0001` when `|x| ≥ e`; one step closes the fraction `c` of the gap to
`|x|`, ten times more when the sample is below the estimate than when it is at or above. -/
theorem C16_noise_estimator_step (s : State) (x : ℚ) (hsp : s.noise_adapt_speed = 1 / 1000) :
    (|x| < s.noise_estimate →
      (updateNoiseEstimate s x).noise_estimate
          = s.noise_estimate * (1 - 1 / 1000) + |x| * (1 / 1000) ∧
        s.noise_estimate - (updateNoiseEstimate s x).noise_estimate
          = 1 / 1000 * (s.noise_estimate - |x|)) ∧
    (s.noise_estimate ≤ |x| →
      (updateNoiseEstimate s x).noise_estimate
          = s.noise_estimate * (1 - 1 / 10000) + |x| * (1 / 10000) ∧
        (updateNoiseEstimate s x).noise_estimate - s.noise_estimate
          = 1 / 10000 * (|x| - s.noise_estimate)) ∧
    (1 / 1000 : ℚ) = 10 * (1 / 10000) := by
  refine ⟨fun h => ?_, fun h => ?_, by norm_num⟩
  · have e : (updateNoiseEstimate s x).noise_estimate
        = s.noise_estimate * (1 - 1 / 1000) + |x| * (1 / 1000) := by
      simp only [updateNoiseEstimate, if_pos h, hsp]
    rw [e]
    exact ⟨rfl, by ring⟩
  · have e : (updateNoiseEstimate s x).noise_estimate
        = s.noise_estimate * (1 - 1 / 10000) + |x| * (1 / 10000) := by
      simp only [updateNoiseEstimate, if_neg (not_lt.2 h), hsp]
      ring
    rw [e]
    exact ⟨rfl, by ring⟩

/-- C16, an instance: the estimate `1 / 2` with the samples `1 / 4` (below) and `-3` (above). -/
theorem C16_noise_estimator_step_witness :
    ({ new refMath 1 10 100 2 1000 with noise_estimate := 1 / 2 } : State).noise_adapt_speed
        = 1 / 1000 ∧
    (updateNoiseEstimate { new refMath 1 10 100 2 1000 with noise_estimate := 1 / 2 }
        (1 / 4)).noise_estimate = 1 / 2 * (1 - 1 / 1000) + |(1 / 4 : ℚ)| * (1 / 1000) ∧
    (updateNoiseEstimate { new refMath 1 10 100 2 1000 with noise_estimate := 1 / 2 }
        (-3)).noise_estimate = 1 / 2 * (1 - 1 / 10000) + |(-3 : ℚ)| * (1 / 10000) :=
  ⟨rfl,
    ((C16_noise_estimator_step { new refMath 1 10 100 2 1000 with noise_estimate := 1 / 2 }
      (1 / 4) rfl).1 (by decide!)).1,
    ((C16_noise_estimator_step { new refMath 1 10 100 2 1000 with noise_estimate := 1 / 2 }
      (-3) rfl).2.1 (by decide!)).1⟩

theorem process_index (m : CMath) (s : State) (arr : List ℚ) (i : ℕ)
    (hinv : s.lookahead_max = sufMax s.lookahead_buffer) (hN : 1 ≤ s.look_ahead_samples)
    (hi : i < arr.length) :
    ∃ si ys s1 y sf ws,
      processList m s (arr.take i) = some (si, ys) ∧ ys.length = i ∧
      si.lookahead_max = sufMax si.lookahead_buffer ∧
      si.look_ahead_samples = s.look_ahead_samples ∧
      si.lookahead_buffer = (arr.take i).foldl
        (fun b x => window s.look_ahead_samples (b ++ [x])) s.lookahead_buffer ∧
      processSample m si arr[i] = some (s1, y) ∧
      processList m s arr = some (sf, ys ++ (y :: ws)) ∧
      (ys ++ (y :: ws)).length = arr.length := by
  obtain ⟨si, ys, h1, hl1, hb1, hm1, hn1⟩ := processList_total m (arr.take i) s hinv hN
  obtain ⟨s1, y, h2, -, hm2, hn2, -⟩ := processSample_total m si arr[i] hm1 (by omega)
  obtain ⟨sf, ws, h3, hl3, -, -, -⟩ :=
    processList_total m (arr.drop (i + 1)) s1 hm2 (by omega)
  have hsplit : arr = arr.take i ++ (arr[i] :: arr.drop (i + 1)) := by
    rw [← List.drop_eq_getElem_cons hi, List.take_append_drop]
  have hyl : ys.length = i := by
    rw [hl1, List.length_take]
    omega
  refine ⟨si, ys, s1, y, sf, ws, h1, hyl, hm1, hn1, hb1, h2, ?_, ?_⟩
  · conv_lhs => rw [hsplit]
    rw [processList_append, h1]
    simp only [processList, h2, h3]
  · simp only [List.length_append, List.length_cons, hyl, hl3, List.length_drop]
    omega

/-- C17. Exact output delay: on a processor with empty deques and a window of `N ≥ 1` samples,
`process` on `arr` returns and keeps the length; it writes `0` at every index `i` with
`i + 1 < N`; and at every index `i` with `N ≤ i + 1` the window is full after `push(arr[i])`,
the front of `lookahead_buffer` is the input sample `arr[i + 1 - N]`, and the value written is
computed from it as `current_sample * (r * 0.7 + 0.3) * gain * 0.01`. -/
theorem C17_exact_delay (m : CMath) (s0 : State) (arr : List ℚ)
    (hb : s0.lookahead_buffer = []) (hm : s0.lookahead_max = [])
    (hN : 1 ≤ s0.look_ahead_samples) :
    ∃ s out, process m s0 arr = some (s, out) ∧ out.length = arr.length ∧
      (∀ i, i + 1 < s0.look_ahead_samples → i < arr.length → out[i]? = some 0) ∧
      ∀ i, s0.look_ahead_samples ≤ i + 1 → i < arr.length →
        ∃ si ys x p cur peak, arr[i]? = some x ∧
          process m s0 (arr.take i) = some (si, ys) ∧ push si x = some p ∧
          (updateNoiseEstimate p x).lookahead_buffer.length
            = (updateNoiseEstimate p x).look_ahead_samples ∧
          (updateNoiseEstimate p x).lookahead_buffer.head? = some cur ∧
          arr[i + 1 - s0.look_ahead_samples]? = some cur ∧
          max (updateNoiseEstimate p x) = some peak ∧
          out[i]? = some (cur
            * ((calculateNoiseReduction m (updateGain (updateNoiseEstimate p x) peak) cur).1
                * (7 / 10) + 3 / 10)
            * (updateGain (updateNoiseEstimate p x) peak).gain * (1 / 100)) := by
  have h0 : s0.lookahead_max = sufMax s0.lookahead_buffer := by rw [hb, hm]; rfl
  obtain ⟨s, out, hrun, hlen, -, -, -⟩ := processList_total m arr s0 h0 hN
  -- the buffer after the push of `arr[i]`
  have hwin : ∀ i (hi : i < arr.length) (si : State),
      si.lookahead_buffer = (arr.take i).foldl
        (fun b x => window s0.look_ahead_samples (b ++ [x])) s0.lookahead_buffer →
      window s0.look_ahead_samples (si.lookahead_buffer ++ [arr[i]])
        = lastN (min (i + 1) s0.look_ahead_samples) (arr.take (i + 1)) := by
    intro i hi si hsi
    have e := window_lastN s0.look_ahead_samples (arr.take i) arr[i]
    have et : arr.take i ++ [arr[i]] = arr.take (i + 1) := by
      rw [List.take_succ, List.getElem?_eq_getElem hi]
      rfl
    have el : (arr.take i).length = i := by
      rw [List.length_take]
      omega
    rw [et, el] at e
    rw [hsi, hb, foldl_window, el, e, List.length_take]
    congr 2
    omega
  refine ⟨s, out, by rw [process_eq_processList, hrun], hlen, ?_, ?_⟩
  · intro i hi hlt
    obtain ⟨si, ys, s1, y, sf, ws, h1, hyl, hm1, hn1, hb1, h2, h3, -⟩ :=
      process_index m s0 arr i h0 hN hlt
    rw [hrun, Option.some.injEq, Prod.mk.injEq] at h3
    obtain ⟨t1, y1, g2, gb, -, -, gy⟩ := processSample_total m si arr[i] hm1 (by omega)
    rw [h2, Option.some.injEq, Prod.mk.injEq] at g2
    have hy0 : y = 0 := by
      rw [g2.2]
      apply gy
      rw [gb, hn1, hwin i hlt si hb1, length_lastN, List.length_take]
      omega
    rw [h3.2, List.getElem?_append_right (by omega), hyl, Nat.sub_self, hy0]
    simp
  · intro i hi hlt
    obtain ⟨si, ys, s1, y, sf, ws, h1, hyl, hm1, hn1, hb1, h2, h3, -⟩ :=
      process_index m s0 arr i h0 hN hlt
    rw [hrun, Option.some.injEq, Prod.mk.injEq] at h3
    obtain ⟨p, hp, hcase⟩ := (processSample_iff m si arr[i] s1 y).1 h2
    have hp2 := hp
    rw [push_sufMax si arr[i] hm1, Option.some.injEq] at hp2
    have hpb : (updateNoiseEstimate p arr[i]).lookahead_buffer
        = lastN (min (i + 1) s0.look_ahead_samples) (arr.take (i + 1)) := by
      rw [← hp2]
      simp only [updateNoiseEstimate_lookahead_buffer, hn1]
      exact hwin i hlt si hb1
    have hpn : (updateNoiseEstimate p arr[i]).look_ahead_samples = s0.look_ahead_samples := by
      rw [← hp2]
      simp only [updateNoiseEstimate_look_ahead_samples, hn1]
    have hfull : (updateNoiseEstimate p arr[i]).lookahead_buffer.length
        = (updateNoiseEstimate p arr[i]).look_ahead_samples := by
      rw [hpb, hpn, length_lastN, List.length_take]
      omega
    rcases hcase with ⟨hnot, _, _⟩ | ⟨_, cur, peak, hcur, hpeak, hs1, hy⟩
    · exact absurd hfull hnot
    · refine ⟨si, ys, arr[i], p, cur, peak, List.getElem?_eq_getElem hlt,
        by rw [process_eq_processList, h1], hp, hfull, hcur, ?_, hpeak, ?_⟩
      · rw [hpb] at hcur
        rw [← hcur, lastN, List.head?_drop, List.length_take,
          List.getElem?_take_of_lt (by omega)]
        congr 1
        omega
      · rw [h3.2, List.getElem?_append_right (by omega), hyl, Nat.sub_self, hy]
        simp only [List.getElem?_cons_zero, calculateNoiseReduction_gain, Option.some.injEq]
        ring

/-- C17, an instance: a window of two samples and the buffer `3, -4, 5`. -/
theorem C17_exact_delay_witness :
    1 ≤ (new refMath 1 10 100 2 1000).look_ahead_samples ∧
    ∃ s out, process refMath (new refMath 1 10 100 2 1000) [3, -4, 5] = some (s, out) ∧
      out.length = [(3 : ℚ), -4, 5].length ∧
      (∀ i, i + 1 < (new refMath 1 10 100 2 1000).look_ahead_samples →
        i < [(3 : ℚ), -4, 5].length → out[i]? = some 0) ∧
      ∀ i, (new refMath 1 10 100 2 1000).look_ahead_samples ≤ i + 1 →
        i < [(3 : ℚ), -4, 5].length →
        ∃ si ys x p cur peak, [(3 : ℚ), -4, 5][i]? = some x ∧
          process refMath (new refMath 1 10 100 2 1000) ([(3 : ℚ), -4, 5].take i)
            = some (si, ys) ∧
          push si x = some p ∧
          (updateNoiseEstimate p x).lookahead_buffer.length
            = (updateNoiseEstimate p x).look_ahead_samples ∧
          (updateNoiseEstimate p x).lookahead_buffer.head? = some cur ∧
          [(3 : ℚ), -4, 5][i + 1 - (new refMath 1 10 100 2 1000).look_ahead_samples]?
            = some cur ∧
          max (updateNoiseEstimate p x) = some peak ∧
          out[i]? = some (cur
            * ((calculateNoiseReduction refMath
                (updateGain (updateNoiseEstimate p x) peak) cur).1 * (7 / 10) + 3 / 10)
            * (updateGain (updateNoiseEstimate p x) peak).gain * (1 / 100)) :=
  ⟨by decide!,
    C17_exact_delay refMath (new refMath 1 10 100 2 1000) [3, -4, 5] rfl rfl (by decide!)⟩

/-- C18. Chunking invariance: from any state, `process` on the concatenation `a ++ b` gives
the state and the output samples that `process` on `a` followed by `process` on `b` gives
(and is undefined exactly when one of the two calls is). -/
theorem C18_chunking_invariance (m : CMath) (s : State) (a b : List ℚ) :
    process m s (a ++ b) =
      match process m s a with
      | none => none
      | some (s1, ya) =>
        match process m s1 b with
        | none => none
        | some (s2, yb) => some (s2, ya ++ yb) := by
  rw [process_eq_processList, process_eq_processList, processList_append]
  cases processList m s a with
  | none => rfl
  | some r =>
    obtain ⟨s1, ya⟩ := r
    simp only
    rw [process_eq_processList]

/-- In a steady-state step of `process` on numbers, from a state reached from a constructed
processor, `max()` is defined, `peak ≥ |current_sample|`, and in exact arithmetic
`|current_sample| * desired_gain ≤ desired_level` for `desired_level ≥ 0`. -/
theorem steady_peak_covers_current (m : CMath)
    (desiredLevel attackTimeMs releaseTimeMs lookAheadTimeMs sr : ℚ) (cs : List Call)
    (s : State) (x : ℚ) (p : State) (cur : ℚ)
    (hs : run m (new m desiredLevel attackTimeMs releaseTimeMs lookAheadTimeMs sr) cs = some s)
    (hp : push s x = some p)
    (hfull : (updateNoiseEstimate p x).lookahead_buffer.length
      = (updateNoiseEstimate p x).look_ahead_samples)
    (hcur : (updateNoiseEstimate p x).lookahead_buffer.head? = some cur) :
    1 ≤ (updateNoiseEstimate p x).look_ahead_samples ∧
    ∃ peak, max (updateNoiseEstimate p x) = some peak ∧ |cur| ≤ peak ∧
      (0 ≤ (updateNoiseEstimate p x).desired_level →
        |cur| * ((updateNoiseEstimate p x).desired_level / (peak + 1 / 10000000000))
          ≤ (updateNoiseEstimate p x).desired_level) := by
  have hinv : s.lookahead_max = sufMax s.lookahead_buffer := run_inv m _ cs s rfl hs
  have hp2 := hp
  rw [push_sufMax s x hinv, Option.some.injEq] at hp2
  have hpb : (updateNoiseEstimate p x).lookahead_buffer ≠ [] := by
    intro h
    rw [h] at hcur
    exact absurd hcur (by simp)
  have hpm : (updateNoiseEstimate p x).lookahead_max
      = sufMax (updateNoiseEstimate p x).lookahead_buffer := by
    rw [← hp2]
    simp
  obtain ⟨f, rest, e, -, hmax⟩ := sufMax_head _ hpb
  have hmem : cur ∈ (updateNoiseEstimate p x).lookahead_buffer := List.mem_of_mem_head? hcur
  have hle : |cur| ≤ |f| := hmax cur hmem
  refine ⟨by rw [← hfull]; exact List.length_pos.2 hpb, |f|, by simp only [max, hpm, e], hle, ?_⟩
  intro hL
  have hD : 0 < |f| + 1 / 10000000000 := by positivity
  have h1 : |cur| / (|f| + 1 / 10000000000) ≤ 1 := by
    rw [div_le_one hD]
    linarith
  calc |cur| * ((updateNoiseEstimate p x).desired_level / (|f| + 1 / 10000000000))
      = (updateNoiseEstimate p x).desired_level * (|cur| / (|f| + 1 / 10000000000)) := by ring
    _ ≤ (updateNoiseEstimate p x).desired_level * 1 := mul_le_mul_of_nonneg_left h1 hL
    _ = (updateNoiseEstimate p x).desired_level := mul_one _

theorem rdropWhile_map_some (l : List ℚ) (x : ℚ) :
    (l.map some).rdropWhile (fun b => nlt (nabs b) (nabs (some x)))
      = (l.rdropWhile (fun b => decide (|b| < |x|))).map some := by
  simp only [List.rdropWhile, ← List.map_reverse, List.dropWhile_map]
  rfl

theorem npop_toTracker (s : State) : npop (toTracker s) = (pop s).map toTracker := by
  unfold npop pop toTracker
  cases s.lookahead_buffer with
  | nil => rfl
  | cons a l =>
    cases s.lookahead_max with
    | nil => rfl
    | cons f more =>
      simp only [List.map_cons, neq]
      by_cases h : a = f
      · simp [h]
      · simp [h]

theorem npush_toTracker (s : State) (x : ℚ) :
    npush (toTracker s) (some x) = (push s x).map toTracker := by
  unfold npush push
  simp only [toTracker, rdropWhile_map_some, popBackSmaller, List.length_append,
    List.length_map, List.length_singleton]
  split
  · rw [← npop_toTracker]
    simp [toTracker]
  · simp [toTracker]

theorem npushAll_toTracker (xs : List ℚ) (s : State) :
    npushAll (toTracker s) (xs.map some) = (pushAll s xs).map toTracker := by
  induction xs generalizing s with
  | nil => rfl
  | cons x xs ih =>
    simp only [List.map_cons, npushAll, pushAll, npush_toTracker]
    cases push s x with
    | none => rfl
    | some p => exact ih p

theorem nmax_toTracker (s : State) : nmax (toTracker s) = (max s).map some := by
  unfold nmax max toTracker
  cases s.lookahead_max with
  | nil => rfl
  | cons f more => rfl

theorem toTracker_emptyState (N : ℕ) :
    toTracker (emptyState N)
      = { look_ahead_samples := N, lookahead_buffer := [], lookahead_max := [] } := rfl

/-- C1 as stated fails: with a window of two samples and the pushes NaN, 1, 1 the window
holds `1, 1`, whose maximum is `1`, and `max()` returns NaN: the NaN is neither popped from the
back of `lookahead_max` nor evicted from its front. -/
theorem C1_counterexample :
    npushAll { look_ahead_samples := 2, lookahead_buffer := [], lookahead_max := [] }
        [none, some 1, some 1]
      = some { look_ahead_samples := 2, lookahead_buffer := [some 1, some 1],
               lookahead_max := [none, some 1, some 1] } ∧
    nmax { look_ahead_samples := 2, lookahead_buffer := [some 1, some 1],
           lookahead_max := [none, some 1, some 1] } = some none := by
  decide!

/-- C1, amended. Sliding-window peak on numbers: for every window length `N ≥ 1` and every
non-empty sequence of finite samples (none is NaN), pushed on empty deques, the `push` calls
return and `max()` is a number, the maximum of `|x|` over the last `min(k, N)` pushed
samples. -/
theorem C1_sliding_window_peak (N : ℕ) (xs : List ℚ) (hN : 1 ≤ N) (hk : xs ≠ []) :
    ∃ t M,
      npushAll { look_ahead_samples := N, lookahead_buffer := [], lookahead_max := [] }
        (xs.map some) = some t ∧
      nmax t = some (some M) ∧
      (∃ y ∈ lastN (min xs.length N) xs, |y| = M) ∧
      ∀ y ∈ lastN (min xs.length N) xs, |y| ≤ M := by
  obtain ⟨s, M, hrun, hmax, hex, hall⟩ := pushAll_peak (emptyState N) xs rfl rfl hN hk
  refine ⟨toTracker s, M, ?_, ?_, hex, hall⟩
  · rw [← toTracker_emptyState, npushAll_toTracker, hrun]
    rfl
  · rw [nmax_toTracker, hmax]
    rfl

/-- C1, an instance: a window of three over `1, -3, 2, 2, 1, -1, 1`. -/
theorem C1_sliding_window_peak_witness :
    (1 ≤ 3 ∧ [(1 : ℚ), -3, 2, 2, 1, -1, 1] ≠ []) ∧
    ∃ t M,
      npushAll { look_ahead_samples := 3, lookahead_buffer := [], lookahead_max := [] }
        ([(1 : ℚ), -3, 2, 2, 1, -1, 1].map some) = some t ∧
      nmax t = some (some M) ∧
      (∃ y ∈ lastN (min [(1 : ℚ), -3, 2, 2, 1, -1, 1].length 3) [1, -3, 2, 2, 1, -1, 1],
        |y| = M) ∧
      ∀ y ∈ lastN (min [(1 : ℚ), -3, 2, 2, 1, -1, 1].length 3) [1, -3, 2, 2, 1, -1, 1],
        |y| ≤ M :=
  ⟨⟨by decide, by decide⟩,
    C1_sliding_window_peak 3 [1, -3, 2, 2, 1, -1, 1] (by decide) (by decide)⟩

/-- C13 as stated fails: with a window of two samples and the pushes NaN, 1, 1 the buffer is
`1, 1` and `lookahead_max` is `NaN, 1, 1`, which is not a subsequence of the buffer and whose
front NaN is not at least the entry behind it; every further push of `1` adds an entry. -/
theorem C13_counterexample :
    npushAll { look_ahead_samples := 2, lookahead_buffer := [], lookahead_max := [] }
        [none, some 1, some 1]
      = some { look_ahead_samples := 2, lookahead_buffer := [some 1, some 1],
               lookahead_max := [none, some 1, some 1] } ∧
    ¬ List.Sublist [(none : Option ℚ), some 1, some 1] [some 1, some 1] ∧
    nge (nabs none) (nabs (some 1)) = false ∧
    npushAll { look_ahead_samples := 2, lookahead_buffer := [], lookahead_max := [] }
        [none, some 1, some 1, some 1, some 1, some 1]
      = some { look_ahead_samples := 2, lookahead_buffer := [some 1, some 1],
               lookahead_max := [none, some 1, some 1, some 1, some 1, some 1] } :=
  ⟨by decide!, fun h => absurd h.length_le (by decide), by decide!, by decide!⟩

/-- C13, amended. Monotonic deque on numbers: after any sequence of `push` calls (with the
evictions they trigger) on empty deques, with finite samples (none is NaN) and for every
window length, the absolute values of `lookahead_max` do not increase from front to back, and
`lookahead_max` is a subsequence of `lookahead_buffer`. -/
theorem C13_monotonic_deque (N : ℕ) (xs : List ℚ) :
    ∃ t,
      npushAll { look_ahead_samples := N, lookahead_buffer := [], lookahead_max := [] }
        (xs.map some) = some t ∧
      t.lookahead_max.Pairwise (fun a b => nge (nabs a) (nabs b) = true) ∧
      t.lookahead_max.Sublist t.lookahead_buffer := by
  obtain ⟨s, hrun, hpw, hsub⟩ := pushAll_monotonic (emptyState N) xs rfl rfl
  refine ⟨toTracker s, ?_, ?_, ?_⟩
  · rw [← toTracker_emptyState, npushAll_toTracker, hrun]
    rfl
  · simp only [toTracker, List.pairwise_map]
    exact hpw.imp (fun h => by simpa [nge, nabs] using h)
  · exact hsub.map some

/-- C19 as stated fails: with a window of two samples, after the pushes NaN, 1 the push of
`1` is a steady-state step whose window holds `1, 1`; `current_sample` is `1`, `max()` returns
NaN, and `peak >= |current_sample|` is false. The bound on the product fails by rounding also
without NaN: for `desired_level = 1` and `peak = |current_sample| = 3` the `float`
`desired_gain` is the quotient rounded up, and `3 * desired_gain` is above `1`. -/
theorem C19_counterexample :
    npushAll { look_ahead_samples := 2, lookahead_buffer := [], lookahead_max := [] }
        [none, some 1]
      = some { look_ahead_samples := 2, lookahead_buffer := [none, some 1],
               lookahead_max := [none, some 1] } ∧
    nsteady { look_ahead_samples := 2, lookahead_buffer := [none, some 1],
              lookahead_max := [none, some 1] } (some 1)
      = some ({ look_ahead_samples := 2, lookahead_buffer := [some 1, some 1],
                lookahead_max := [none, some 1, some 1] }, some (some 1, none)) ∧
    nge none (nabs (some 1)) = false ∧
    f32 ((1 : ℚ) / f32 (3 + f32 (1 / 10000000000))) = 11184811 / 33554432 ∧
    (1 : ℚ) < |3| * (11184811 / 33554432) := by
  decide!

/-- C19, amended. The look-ahead peak covers the emitted sample on numbers: for every window
length `N ≥ 1` and every input of finite samples (none is NaN), each iteration returns, and in
every steady-state step `current_sample` and the peak `max()` are numbers with
`peak ≥ |current_sample|`, so that
`|current_sample| * (desired_level / (peak + 1e-10)) ≤ desired_level` for every
`desired_level ≥ 0`, with the quotient not rounded. -/
theorem C19_peak_covers_current (N : ℕ) (xs : List ℚ) (x : ℚ) (hN : 1 ≤ N) :
    ∃ t t1 r,
      npushAll { look_ahead_samples := N, lookahead_buffer := [], lookahead_max := [] }
        (xs.map some) = some t ∧
      nsteady t (some x) = some (t1, r) ∧
      (t1.lookahead_buffer.length ≠ N → r = none) ∧
      (t1.lookahead_buffer.length = N →
        ∃ c k, r = some (some c, some k) ∧ nge (some k) (nabs (some c)) = true ∧ |c| ≤ k ∧
          ∀ L : ℚ, 0 ≤ L → |c| * (L / (k + 1 / 10000000000)) ≤ L) := by
  have hrun := pushAll_sufMax xs (emptyState N) rfl
  generalize hs : ({ emptyState N with
      lookahead_buffer := xs.foldl
        (fun b x => window (emptyState N).look_ahead_samples (b ++ [x]))
        (emptyState N).lookahead_buffer
      lookahead_max := sufMax (xs.foldl
        (fun b x => window (emptyState N).look_ahead_samples (b ++ [x]))
        (emptyState N).lookahead_buffer) } : State) = s at hrun
  have hinv : s.lookahead_max = sufMax s.lookahead_buffer := by rw [← hs]
  have hn : s.look_ahead_samples = N := by rw [← hs]; rfl
  have hp := push_sufMax s x hinv
  generalize hW : window s.look_ahead_samples (s.lookahead_buffer ++ [x]) = W at hp
  have hnp : npush (toTracker s) (some x)
      = some { look_ahead_samples := N, lookahead_buffer := W.map some,
               lookahead_max := (sufMax W).map some } := by
    rw [npush_toTracker, hp]
    simp [toTracker, hn]
  have hpush : npushAll
      { look_ahead_samples := N, lookahead_buffer := [], lookahead_max := [] }
      (xs.map some) = some (toTracker s) := by
    rw [← toTracker_emptyState, npushAll_toTracker, hrun]
    rfl
  by_cases hfull : W.length = N
  · have hne : W ≠ [] := by
      intro h
      rw [h] at hfull
      simp only [List.length_nil] at hfull
      omega
    obtain ⟨f, rest, e, -, hmax⟩ := sufMax_head W hne
    obtain ⟨c, tl, hc⟩ := List.exists_cons_of_ne_nil hne
    have hle : |c| ≤ |f| := hmax c (by rw [hc]; simp)
    refine ⟨toTracker s, (⟨N, W.map some, (sufMax W).map some⟩ : Tracker),
      some (some c, some |f|), hpush, ?_, ?_, ?_⟩
    · have hhead : (W.map some).head? = some (some c) := by rw [hc]; rfl
      simp only [nsteady, hnp, List.length_map, hfull, if_true, hhead, nmax, e, List.map_cons,
        nabs, Option.map_some']
    · intro h
      exact absurd (by simpa using hfull) h
    · intro _
      refine ⟨c, |f|, rfl, by simpa [nge, nabs] using hle, hle, ?_⟩
      intro L hL
      have hD : 0 < |f| + 1 / 10000000000 := by positivity
      have h1 : |c| / (|f| + 1 / 10000000000) ≤ 1 := by
        rw [div_le_one hD]
        linarith
      calc |c| * (L / (|f| + 1 / 10000000000))
          = L * (|c| / (|f| + 1 / 10000000000)) := by ring
        _ ≤ L * 1 := mul_le_mul_of_nonneg_left h1 hL
        _ = L := mul_one _
  · refine ⟨toTracker s, (⟨N, W.map some, (sufMax W).map some⟩ : Tracker), none, hpush, ?_,
      fun _ => rfl, ?_⟩
    · simp only [nsteady, hnp, List.length_map, hfull, if_false]
    · intro h
      exact absurd (by simpa using h) hfull

/-- C19, an instance: a window of two samples, the pushes `3`, then the sample `-4`. -/
theorem C19_peak_covers_current_witness :
    1 ≤ 2 ∧
    ∃ t t1 r,
      npushAll { look_ahead_samples := 2, lookahead_buffer := [], lookahead_max := [] }
        ([(3 : ℚ)].map some) = some t ∧
      nsteady t (some (-4)) = some (t1, r) ∧
      (t1.lookahead_buffer.length ≠ 2 → r = none) ∧
      (t1.lookahead_buffer.length = 2 →
        ∃ c k, r = some (some c, some k) ∧ nge (some k) (nabs (some c)) = true ∧ |c| ≤ k ∧
          ∀ L : ℚ, 0 ≤ L → |c| * (L / (k + 1 / 10000000000)) ≤ L) :=
  ⟨by decide, C19_peak_covers_current 2 [3] (-4) (by decide)⟩

theorem nupdateNoiseEstimate_some (s : State) (x : ℚ) :
    nupdateNoiseEstimate s.noise_adapt_speed (some s.noise_estimate) (some x)
      = some (updateNoiseEstimate s x).noise_estimate := by
  simp only [nupdateNoiseEstimate, updateNoiseEstimate, nabs, nlt, Option.map_some',
    decide_eq_true_eq]
  split <;> rfl

theorem nupdateNoiseEstimateAll_some (xs : List ℚ) (s : State) :
    nupdateNoiseEstimateAll s.noise_adapt_speed (some s.noise_estimate) (xs.map some)
      = some (updateNoiseEstimateAll s xs).noise_estimate := by
  induction xs generalizing s with
  | nil => rfl
  | cons x xs ih =>
    have h := ih (updateNoiseEstimate s x)
    simp only [updateNoiseEstimate_noise_adapt_speed] at h
    simp only [nupdateNoiseEstimateAll, updateNoiseEstimateAll, List.map_cons, List.foldl_cons,
      nupdateNoiseEstimate_some] at h ⊢
    exact h

theorem pow2_eq (k : ℤ) : pow2 k = (2 : ℚ) ^ k := by
  unfold pow2
  split
  · rename_i h
    obtain ⟨n, rfl⟩ := Int.eq_ofNat_of_zero_le h
    simp
  · rename_i h
    have h1 : 0 ≤ -k := by omega
    obtain ⟨n, hn⟩ := Int.eq_ofNat_of_zero_le h1
    have hk : k = -(n : ℤ) := by omega
    rw [hn, hk]
    simp

theorem log2Fuel_spec (fuel n : ℕ) (h1 : 1 ≤ n) (hf : n ≤ fuel) :
    2 ^ log2Fuel fuel n ≤ n ∧ n < 2 ^ (log2Fuel fuel n + 1) := by
  induction fuel generalizing n with
  | zero => omega
  | succ f ih =>
    unfold log2Fuel
    split
    · rename_i h2
      have hd1 : 1 ≤ n / 2 := by omega
      have hdf : n / 2 ≤ f := by omega
      obtain ⟨ha, hb⟩ := ih (n / 2) hd1 hdf
      constructor
      · rw [pow_succ]
        omega
      · rw [pow_succ]
        omega
    · simp
      omega

theorem ilog2_spec (x : ℚ) (hx : x ≠ 0) :
    (2 : ℚ) ^ ilog2 x ≤ |x| ∧ |x| < (2 : ℚ) ^ (ilog2 x + 1) := by
  have hn : 1 ≤ x.num.natAbs := by
    have : x.num ≠ 0 := Rat.num_ne_zero.2 hx
    omega
  have hd : 1 ≤ x.den := x.den_pos
  unfold ilog2
  simp only [pow2_eq]
  obtain ⟨ha1, ha2⟩ := log2Fuel_spec _ _ hn le_rfl
  obtain ⟨hb1, hb2⟩ := log2Fuel_spec _ _ hd le_rfl
  have habs : |x| = (x.num.natAbs : ℚ) / (x.den : ℚ) := by
    conv_lhs => rw [← Rat.num_div_den x]
    rw [abs_div, Nat.abs_cast, Nat.cast_natAbs, Int.cast_abs]
  generalize log2Fuel x.num.natAbs x.num.natAbs = a at *
  generalize log2Fuel x.den x.den = b at *
  have hN1 : ((2 : ℚ)) ^ a ≤ (x.num.natAbs : ℚ) := by exact_mod_cast ha1
  have hN2 : (x.num.natAbs : ℚ) < (2 : ℚ) ^ (a + 1) := by exact_mod_cast ha2
  have hD1 : ((2 : ℚ)) ^ b ≤ (x.den : ℚ) := by exact_mod_cast hb1
  have hD2 : (x.den : ℚ) < (2 : ℚ) ^ (b + 1) := by exact_mod_cast hb2
  have hDpos : (0 : ℚ) < (x.den : ℚ) := by exact_mod_cast x.den_pos
  have h2a : (2 : ℚ) ^ ((a : ℤ) - b) = (2 : ℚ) ^ a / (2 : ℚ) ^ b := by
    rw [zpow_sub₀ (by norm_num), zpow_natCast, zpow_natCast]
  have hpa : (0 : ℚ) < (2 : ℚ) ^ a := by positivity
  have hpb : (0 : ℚ) < (2 : ℚ) ^ b := by positivity
  split
  · rename_i h
    refine ⟨h, ?_⟩
    rw [habs, zpow_add₀ (by norm_num), h2a, zpow_one, div_lt_iff₀ hDpos]
    rw [pow_succ] at hN2
    calc (x.num.natAbs : ℚ) < 2 ^ a * 2 := hN2
      _ = 2 ^ a / 2 ^ b * 2 * 2 ^ b := by field_simp
      _ ≤ 2 ^ a / 2 ^ b * 2 * (x.den : ℚ) := by
        apply mul_le_mul_of_nonneg_left hD1
        positivity
  · rename_i h
    rw [not_le] at h
    constructor
    · have e : (2 : ℚ) ^ ((a : ℤ) - b - 1) = (2 : ℚ) ^ a / (2 : ℚ) ^ b / 2 := by
        rw [zpow_sub₀ (by norm_num), h2a, zpow_one]
      rw [e, habs, le_div_iff₀ hDpos]
      rw [pow_succ] at hD2
      calc (2 : ℚ) ^ a / 2 ^ b / 2 * (x.den : ℚ)
          ≤ (2 : ℚ) ^ a / 2 ^ b / 2 * (2 ^ b * 2) := by
            apply mul_le_mul_of_nonneg_left hD2.le
            positivity
        _ = 2 ^ a := by field_simp
        _ ≤ (x.num.natAbs : ℚ) := hN1
    · have e : ((a : ℤ) - b - 1 + 1) = (a : ℤ) - b := by ring
      rw [e]
      exact h

theorem ilog2_zero : ilog2 0 = -1 := by decide!

theorem roundEven_intCast (k : ℤ) : roundEven (k : ℚ) = k := by
  unfold roundEven
  simp

theorem roundEven_floor_le (y : ℚ) : ⌊y⌋ ≤ roundEven y := by
  unfold roundEven
  split_ifs <;> omega

theorem roundEven_le_floor_add_one (y : ℚ) : roundEven y ≤ ⌊y⌋ + 1 := by
  unfold roundEven
  split_ifs <;> omega

theorem roundEven_mono (y z : ℚ) (h : y ≤ z) : roundEven y ≤ roundEven z := by
  rcases (Int.floor_mono h).lt_or_eq with hlt | heq
  · have h1 := roundEven_le_floor_add_one y
    have h2 := roundEven_floor_le z
    omega
  · unfold roundEven
    rw [heq]
    have hf : y - ⌊z⌋ ≤ z - ⌊z⌋ := by linarith
    split_ifs <;> first | omega | (exfalso; linarith)

theorem ulp_eq (p : ℕ) (emin : ℤ) (x : ℚ) :
    ulp p emin x = (2 : ℚ) ^ (fexp emin x - ((p : ℤ) - 1)) := by
  unfold ulp
  rw [pow2_eq]

theorem ulp_pos (p : ℕ) (emin : ℤ) (x : ℚ) : 0 < ulp p emin x := by
  rw [ulp_eq]
  positivity

theorem rnd_ge_of_mul_le (p : ℕ) (emin : ℤ) (x : ℚ) (j : ℤ)
    (h : (j : ℚ) * ulp p emin x ≤ x) : (j : ℚ) * ulp p emin x ≤ rnd p emin x := by
  unfold rnd
  have hu := ulp_pos p emin x
  have h1 : (j : ℚ) ≤ x / ulp p emin x := by rwa [le_div_iff₀ hu]
  have h2 := roundEven_mono _ _ h1
  rw [roundEven_intCast] at h2
  have h3 : (j : ℚ) ≤ (roundEven (x / ulp p emin x) : ℚ) := by exact_mod_cast h2
  exact mul_le_mul_of_nonneg_right h3 hu.le

theorem rnd_le_of_le_mul (p : ℕ) (emin : ℤ) (x : ℚ) (j : ℤ)
    (h : x ≤ (j : ℚ) * ulp p emin x) : rnd p emin x ≤ (j : ℚ) * ulp p emin x := by
  unfold rnd
  have hu := ulp_pos p emin x
  have h1 : x / ulp p emin x ≤ (j : ℚ) := by rwa [div_le_iff₀ hu]
  have h2 := roundEven_mono _ _ h1
  rw [roundEven_intCast] at h2
  have h3 : (roundEven (x / ulp p emin x) : ℚ) ≤ (j : ℚ) := by exact_mod_cast h2
  exact mul_le_mul_of_nonneg_right h3 hu.le

theorem rnd_of_eq_mul (p : ℕ) (emin : ℤ) (x : ℚ) (j : ℤ)
    (h : x = (j : ℚ) * ulp p emin x) : rnd p emin x = x := by
  apply le_antisymm
  · conv_rhs => rw [h]
    exact rnd_le_of_le_mul p emin x j h.le
  · conv_lhs => rw [h]
    exact rnd_ge_of_mul_le p emin x j h.ge

theorem emin_le_fexp (emin : ℤ) (x : ℚ) : emin ≤ fexp emin x := le_max_right _ _

theorem abs_lt_fexp (emin : ℤ) (x : ℚ) : |x| < (2 : ℚ) ^ (fexp emin x + 1) := by
  by_cases hx : x = 0
  · rw [hx, abs_zero]
    positivity
  · refine lt_of_lt_of_le (ilog2_spec x hx).2 ?_
    apply zpow_le_zpow_right₀ (by norm_num)
    have : ilog2 x ≤ fexp emin x := le_max_left _ _
    omega

theorem fexp_le_abs (emin : ℤ) (x : ℚ) (hx : x ≠ 0) (h : emin ≤ ilog2 x) :
    (2 : ℚ) ^ fexp emin x ≤ |x| := by
  have : fexp emin x = ilog2 x := max_eq_left h
  rw [this]
  exact (ilog2_spec x hx).1

theorem two_pow_mul_ulp (p : ℕ) (emin : ℤ) (x : ℚ) :
    (((2 : ℤ) ^ p : ℤ) : ℚ) * ulp p emin x = (2 : ℚ) ^ (fexp emin x + 1) := by
  rw [ulp_eq]
  push_cast
  rw [← zpow_natCast, ← zpow_add₀ (by norm_num)]
  congr 1
  ring

theorem two_pow_pred_mul_ulp (p : ℕ) (hp : 1 ≤ p) (emin : ℤ) (x : ℚ) :
    (((2 : ℤ) ^ (p - 1) : ℤ) : ℚ) * ulp p emin x = (2 : ℚ) ^ fexp emin x := by
  rw [ulp_eq]
  push_cast
  rw [← zpow_natCast, ← zpow_add₀ (by norm_num)]
  congr 1
  rw [Nat.cast_sub hp]
  simp

theorem rnd_le_pow (p : ℕ) (emin : ℤ) (x : ℚ) :
    rnd p emin x ≤ (2 : ℚ) ^ (fexp emin x + 1) := by
  rw [← two_pow_mul_ulp p]
  apply rnd_le_of_le_mul
  rw [two_pow_mul_ulp]
  exact (le_abs_self x).trans (abs_lt_fexp emin x).le

theorem neg_pow_le_rnd (p : ℕ) (emin : ℤ) (x : ℚ) :
    -(2 : ℚ) ^ (fexp emin x + 1) ≤ rnd p emin x := by
  have h := rnd_ge_of_mul_le p emin x (-(2 : ℤ) ^ p) (by
    push_cast
    rw [neg_mul]
    have := two_pow_mul_ulp p emin x
    push_cast at this
    rw [this]
    exact (neg_le.1 (neg_le_abs x)).trans' (neg_le_neg (abs_lt_fexp emin x).le))
  push_cast at h
  rw [neg_mul] at h
  have := two_pow_mul_ulp p emin x
  push_cast at this
  rwa [this] at h

theorem pow_le_rnd (p : ℕ) (hp : 1 ≤ p) (emin : ℤ) (x : ℚ)
    (h : (2 : ℚ) ^ fexp emin x ≤ x) : (2 : ℚ) ^ fexp emin x ≤ rnd p emin x := by
  rw [← two_pow_pred_mul_ulp p hp]
  apply rnd_ge_of_mul_le
  rwa [two_pow_pred_mul_ulp p hp]

theorem rnd_le_neg_pow (p : ℕ) (hp : 1 ≤ p) (emin : ℤ) (x : ℚ)
    (h : x ≤ -(2 : ℚ) ^ fexp emin x) : rnd p emin x ≤ -(2 : ℚ) ^ fexp emin x := by
  have e := two_pow_pred_mul_ulp p hp emin x
  have h1 := rnd_le_of_le_mul p emin x (-(2 : ℤ) ^ (p - 1)) (by
    push_cast
    push_cast at e
    rwa [neg_mul, e])
  push_cast at h1 e
  rwa [neg_mul, e] at h1

theorem rnd_zero (p : ℕ) (emin : ℤ) : rnd p emin 0 = 0 := by
  unfold rnd
  rw [zero_div]
  have : roundEven 0 = 0 := by
    have := roundEven_intCast 0
    simpa using this
  rw [this]
  simp

theorem rnd_nonneg (p : ℕ) (emin : ℤ) (x : ℚ) (h : 0 ≤ x) : 0 ≤ rnd p emin x := by
  have := rnd_ge_of_mul_le p emin x 0 (by simpa using h)
  simpa using this

theorem rnd_nonpos (p : ℕ) (emin : ℤ) (x : ℚ) (h : x ≤ 0) : rnd p emin x ≤ 0 := by
  have := rnd_le_of_le_mul p emin x 0 (by simpa using h)
  simpa using this

theorem ilog2_le_ilog2 (x y : ℚ) (hx : x ≠ 0) (hy : y ≠ 0) (h : |x| ≤ |y|) :
    ilog2 x ≤ ilog2 y := by
  have h1 := (ilog2_spec x hx).1
  have h2 := (ilog2_spec y hy).2
  have h3 : (2 : ℚ) ^ ilog2 x < (2 : ℚ) ^ (ilog2 y + 1) := lt_of_le_of_lt (h1.trans h) h2
  have := (zpow_lt_zpow_iff_right₀ (by norm_num : (1 : ℚ) < 2)).1 h3
  omega

theorem fexp_le_fexp (emin : ℤ) (x y : ℚ) (hx : x ≠ 0) (hy : y ≠ 0) (h : |x| ≤ |y|) :
    fexp emin x ≤ fexp emin y :=
  max_le_max (ilog2_le_ilog2 x y hx hy h) le_rfl

theorem emin_le_ilog2_of_lt (emin : ℤ) (x y : ℚ) (h : fexp emin x < fexp emin y) :
    emin ≤ ilog2 y := by
  by_contra hc
  have h1 : fexp emin y = emin := max_eq_right (by omega)
  have h2 := emin_le_fexp emin x
  omega

theorem rnd_mono_same (p : ℕ) (emin : ℤ) (x y : ℚ) (he : fexp emin x = fexp emin y)
    (h : x ≤ y) : rnd p emin x ≤ rnd p emin y := by
  unfold rnd ulp
  rw [he]
  have hu : (0 : ℚ) < pow2 (fexp emin y - ((p : ℤ) - 1)) := by
    rw [pow2_eq]
    positivity
  apply mul_le_mul_of_nonneg_right _ hu.le
  exact_mod_cast roundEven_mono _ _ (div_le_div_of_nonneg_right h hu.le)

theorem rnd_mono (p : ℕ) (hp : 1 ≤ p) (emin : ℤ) (x y : ℚ) (h : x ≤ y) :
    rnd p emin x ≤ rnd p emin y := by
  rcases le_or_lt x 0 with hx | hx
  · rcases le_or_lt 0 y with hy | hy
    · exact (rnd_nonpos p emin x hx).trans (rnd_nonneg p emin y hy)
    · -- both negative
      have hx0 : x ≠ 0 := by
        rintro rfl
        linarith
      have habs : |y| ≤ |x| := by
        rw [abs_of_neg hy, abs_of_neg (lt_of_le_of_lt h hy)]
        linarith
      rcases (fexp_le_fexp emin y x hy.ne hx0 habs).lt_or_eq with hlt | heq
      · have hn := emin_le_ilog2_of_lt emin y x hlt
        have h1 := fexp_le_abs emin x hx0 hn
        rw [abs_of_neg (lt_of_le_of_lt h hy)] at h1
        have h2 := rnd_le_neg_pow p hp emin x (by linarith)
        have h3 := neg_pow_le_rnd p emin y
        have h4 : (2 : ℚ) ^ (fexp emin y + 1) ≤ (2 : ℚ) ^ fexp emin x :=
          zpow_le_zpow_right₀ (by norm_num) (by omega)
        linarith
      · exact rnd_mono_same p emin x y heq.symm h
  · -- both positive
    have hy : 0 < y := lt_of_lt_of_le hx h
    have habs : |x| ≤ |y| := by
      rw [abs_of_pos hx, abs_of_pos hy]
      exact h
    rcases (fexp_le_fexp emin x y hx.ne' hy.ne' habs).lt_or_eq with hlt | heq
    · have hn := emin_le_ilog2_of_lt emin x y hlt
      have h1 := fexp_le_abs emin y hy.ne' hn
      rw [abs_of_pos hy] at h1
      have h2 := pow_le_rnd p hp emin y h1
      have h3 := rnd_le_pow p emin x
      have h4 : (2 : ℚ) ^ (fexp emin x + 1) ≤ (2 : ℚ) ^ fexp emin y :=
        zpow_le_zpow_right₀ (by norm_num) (by omega)
      linarith
    · exact rnd_mono_same p emin x y heq h

theorem fexp_le_of_abs_lt (emin : ℤ) (v : ℚ) (e : ℤ) (he : emin ≤ e)
    (h : |v| < (2 : ℚ) ^ (e + 1)) (hv : v ≠ 0) : fexp emin v ≤ e := by
  apply max_le _ he
  have h1 := (ilog2_spec v hv).1
  have h3 : (2 : ℚ) ^ ilog2 v < (2 : ℚ) ^ (e + 1) := lt_of_le_of_lt h1 h
  have := (zpow_lt_zpow_iff_right₀ (by norm_num : (1 : ℚ) < 2)).1 h3
  omega

theorem rnd_idem (p : ℕ) (hp : 1 ≤ p) (emin : ℤ) (x : ℚ) :
    rnd p emin (rnd p emin x) = rnd p emin x := by
  by_cases hv : rnd p emin x = 0
  · rw [hv, rnd_zero]
  · -- the value is `k * ulp x` with `|k| ≤ 2 ^ p`
    have hub := rnd_le_pow p emin x
    have hlb := neg_pow_le_rnd p emin x
    have habs : |rnd p emin x| ≤ (2 : ℚ) ^ (fexp emin x + 1) := abs_le.2 ⟨hlb, hub⟩
    rcases habs.lt_or_eq with hlt | heq
    · -- the exponent of the value is at most that of `x`
      have hE := fexp_le_of_abs_lt emin _ _ (emin_le_fexp emin x) hlt hv
      obtain ⟨d, hd⟩ := Int.eq_ofNat_of_zero_le (sub_nonneg.2 hE)
      apply rnd_of_eq_mul p emin _ (roundEven (x / ulp p emin x) * 2 ^ d)
      conv_lhs => unfold rnd
      push_cast
      rw [mul_assoc]
      congr 1
      rw [ulp_eq, ulp_eq, ← zpow_natCast, ← zpow_add₀ (by norm_num)]
      congr 1
      omega
    · -- the value is `± 2 ^ (fexp x + 1)`
      have hE : fexp emin (rnd p emin x) = fexp emin x + 1 := by
        have h1 : ilog2 (rnd p emin x) = fexp emin x + 1 := by
          have s1 := (ilog2_spec _ hv).1
          have s2 := (ilog2_spec _ hv).2
          rw [heq] at s1 s2
          have a1 := (zpow_le_zpow_iff_right₀ (by norm_num : (1 : ℚ) < 2)).1 s1
          have a2 := (zpow_lt_zpow_iff_right₀ (by norm_num : (1 : ℚ) < 2)).1 s2
          omega
        unfold fexp at *
        rw [h1]
        apply max_eq_left
        have := le_max_right (ilog2 x) emin
        omega
      have hu : ulp p emin (rnd p emin x) = (2 : ℚ) ^ (fexp emin x + 1 - ((p : ℤ) - 1)) := by
        rw [ulp_eq, hE]
      have hpp : (((2 : ℤ) ^ (p - 1) : ℤ) : ℚ) * (2 : ℚ) ^ (fexp emin x + 1 - ((p : ℤ) - 1))
          = (2 : ℚ) ^ (fexp emin x + 1) := by
        push_cast
        rw [← zpow_natCast, ← zpow_add₀ (by norm_num)]
        congr 1
        rw [Nat.cast_sub hp]
        simp
      rcases abs_eq (by positivity : (0 : ℚ) ≤ (2 : ℚ) ^ (fexp emin x + 1)) |>.1 heq
        with h1 | h1
      · apply rnd_of_eq_mul p emin _ ((2 : ℤ) ^ (p - 1))
        rw [hu, hpp, h1]
      · apply rnd_of_eq_mul p emin _ (-(2 : ℤ) ^ (p - 1))
        rw [hu, Int.cast_neg, neg_mul, hpp, h1]

theorem rounding_f32 : Rounding f32 :=
  { mono := fun x y h => rnd_mono 24 (by norm_num) (-126) x y h
    idem := fun x => rnd_idem 24 (by norm_num) (-126) x
    zero := rnd_zero 24 (-126)
    one := by decide! }

theorem rounding_f64 : Rounding f64 :=
  { mono := fun x y h => rnd_mono 53 (by norm_num) (-1022) x y h
    idem := fun x => rnd_idem 53 (by norm_num) (-1022) x
    zero := rnd_zero 53 (-1022)
    one := by decide! }

theorem processLoopF_append (fl fd : ℚ → ℚ) (m : CMath) (xs : List ℚ) (pre : List ℚ) (s : State) :
    processLoopF fl fd m xs.length pre.length s (pre ++ xs)
      = (processListF fl fd m s xs).map (fun r => (r.1, pre ++ r.2)) := by
  induction xs generalizing pre s with
  | nil => simp [processLoopF, processListF]
  | cons x xs ih =>
    simp only [List.length_cons, processLoopF, processListF]
    rw [List.getElem?_append_right (le_refl _)]
    simp only [Nat.sub_self, List.getElem?_cons_zero]
    cases h : processSampleF fl fd m s x with
    | none => simp
    | some r =>
      obtain ⟨s1, y⟩ := r
      simp only
      have e : (pre ++ x :: xs).set pre.length y = (pre ++ [y]) ++ xs := by
        rw [List.set_append_right _ _ (le_refl _)]
        simp
      have e2 : pre.length + 1 = (pre ++ [y]).length := by simp
      rw [e, e2, ih]
      cases processListF fl fd m s1 xs with
      | none => simp
      | some r2 => simp

theorem processF_eq_processListF (fl fd : ℚ → ℚ) (m : CMath) (s : State) (arr : List ℚ) :
    processF fl fd m s arr = processListF fl fd m s arr := by
  have h := processLoopF_append fl fd m arr [] s
  simp only [List.length_nil, List.nil_append] at h
  unfold processF
  rw [h]
  cases processListF fl fd m s arr with
  | none => rfl
  | some r => rfl

theorem processSampleF_iff (fl fd : ℚ → ℚ) (m : CMath) (s : State) (x : ℚ) (s1 : State) (y : ℚ) :
    processSampleF fl fd m s x = some (s1, y) ↔
      ∃ p, push s x = some p ∧
        (((updateNoiseEstimateF fl p x).lookahead_buffer.length
              ≠ (updateNoiseEstimateF fl p x).look_ahead_samples
            ∧ s1 = updateNoiseEstimateF fl p x ∧ y = 0) ∨
          ((updateNoiseEstimateF fl p x).lookahead_buffer.length
              = (updateNoiseEstimateF fl p x).look_ahead_samples ∧
            ∃ cur peak, (updateNoiseEstimateF fl p x).lookahead_buffer.head? = some cur ∧
              max (updateNoiseEstimateF fl p x) = some peak ∧
              s1 = (calculateNoiseReductionF fl m
                      (updateGainF fl (updateNoiseEstimateF fl p x) peak) cur).2 ∧
              y = fl (fd (fl (cur * fl (fl ((calculateNoiseReductionF fl m
                      (updateGainF fl (updateNoiseEstimateF fl p x) peak) cur).1 * fl (7 / 10))
                      + fl (3 / 10)))
                    * fd ((calculateNoiseReductionF fl m
                      (updateGainF fl (updateNoiseEstimateF fl p x) peak) cur).2.gain
                      * fd (1 / 100)))))) := by
  unfold processSampleF
  cases hp : push s x with
  | none => simp
  | some p =>
    simp only [Option.some.injEq, exists_eq_left']
    split
    · rename_i hfull
      cases hc : (updateNoiseEstimateF fl p x).lookahead_buffer.head? with
      | none => simp [hfull]
      | some cur =>
        cases hk : max (updateNoiseEstimateF fl p x) with
        | none => simp [hfull]
        | some peak =>
          simp only [Option.some.injEq, Prod.mk.injEq, hfull, ne_eq, not_true_eq_false,
            false_and, true_and, false_or, exists_eq_left']
          constructor
          · rintro ⟨rfl, rfl⟩
            exact ⟨cur, peak, rfl, rfl, rfl, rfl⟩
          · rintro ⟨c, k, rfl, rfl, rfl, rfl⟩
            exact ⟨rfl, rfl⟩
    · rename_i hfull
      simp only [Option.some.injEq, Prod.mk.injEq, ne_eq, hfull, not_false_eq_true, true_and,
        false_and, or_false]
      constructor
      · rintro ⟨rfl, rfl⟩
        exact ⟨rfl, rfl⟩
      · rintro ⟨rfl, rfl⟩
        exact ⟨rfl, rfl⟩


@[simp] theorem updateNoiseEstimateF_desired_level (fl : ℚ → ℚ) (s : State) (x : ℚ) :
    (updateNoiseEstimateF fl s x).desired_level = s.desired_level := by
  simp only [updateNoiseEstimateF]; split <;> rfl

@[simp] theorem updateNoiseEstimateF_gain (fl : ℚ → ℚ) (s : State) (x : ℚ) :
    (updateNoiseEstimateF fl s x).gain = s.gain := by
  simp only [updateNoiseEstimateF]; split <;> rfl

@[simp] theorem updateNoiseEstimateF_sample_rate (fl : ℚ → ℚ) (s : State) (x : ℚ) :
    (updateNoiseEstimateF fl s x).sample_rate = s.sample_rate := by
  simp only [updateNoiseEstimateF]; split <;> rfl

@[simp] theorem updateNoiseEstimateF_noise_adapt_speed (fl : ℚ → ℚ) (s : State) (x : ℚ) :
    (updateNoiseEstimateF fl s x).noise_adapt_speed = s.noise_adapt_speed := by
  simp only [updateNoiseEstimateF]; split <;> rfl

@[simp] theorem updateNoiseEstimateF_noise_reduction_smoothing (fl : ℚ → ℚ) (s : State) (x : ℚ) :
    (updateNoiseEstimateF fl s x).noise_reduction_smoothing = s.noise_reduction_smoothing := by
  simp only [updateNoiseEstimateF]; split <;> rfl

@[simp] theorem updateNoiseEstimateF_last_noise_reduction (fl : ℚ → ℚ) (s : State) (x : ℚ) :
    (updateNoiseEstimateF fl s x).last_noise_reduction = s.last_noise_reduction := by
  simp only [updateNoiseEstimateF]; split <;> rfl

@[simp] theorem updateNoiseEstimateF_look_ahead_samples (fl : ℚ → ℚ) (s : State) (x : ℚ) :
    (updateNoiseEstimateF fl s x).look_ahead_samples = s.look_ahead_samples := by
  simp only [updateNoiseEstimateF]; split <;> rfl

@[simp] theorem updateNoiseEstimateF_attack_coeff (fl : ℚ → ℚ) (s : State) (x : ℚ) :
    (updateNoiseEstimateF fl s x).attack_coeff = s.attack_coeff := by
  simp only [updateNoiseEstimateF]; split <;> rfl

@[simp] theorem updateNoiseEstimateF_release_coeff (fl : ℚ → ℚ) (s : State) (x : ℚ) :
    (updateNoiseEstimateF fl s x).release_coeff = s.release_coeff := by
  simp only [updateNoiseEstimateF]; split <;> rfl

@[simp] theorem updateNoiseEstimateF_lookahead_buffer (fl : ℚ → ℚ) (s : State) (x : ℚ) :
    (updateNoiseEstimateF fl s x).lookahead_buffer = s.lookahead_buffer := by
  simp only [updateNoiseEstimateF]; split <;> rfl

@[simp] theorem updateNoiseEstimateF_lookahead_max (fl : ℚ → ℚ) (s : State) (x : ℚ) :
    (updateNoiseEstimateF fl s x).lookahead_max = s.lookahead_max := by
  simp only [updateNoiseEstimateF]; split <;> rfl

@[simp] theorem updateGainF_desired_level (fl : ℚ → ℚ) (s : State) (k : ℚ) :
    (updateGainF fl s k).desired_level = s.desired_level := by
  simp only [updateGainF]; split <;> rfl

@[simp] theorem updateGainF_sample_rate (fl : ℚ → ℚ) (s : State) (k : ℚ) :
    (updateGainF fl s k).sample_rate = s.sample_rate := by
  simp only [updateGainF]; split <;> rfl

@[simp] theorem updateGainF_noise_estimate (fl : ℚ → ℚ) (s : State) (k : ℚ) :
    (updateGainF fl s k).noise_estimate = s.noise_estimate := by
  simp only [updateGainF]; split <;> rfl

@[simp] theorem updateGainF_noise_adapt_speed (fl : ℚ → ℚ) (s : State) (k : ℚ) :
    (updateGainF fl s k).noise_adapt_speed = s.noise_adapt_speed := by
  simp only [updateGainF]; split <;> rfl

@[simp] theorem updateGainF_noise_reduction_smoothing (fl : ℚ → ℚ) (s : State) (k : ℚ) :
    (updateGainF fl s k).noise_reduction_smoothing = s.noise_reduction_smoothing := by
  simp only [updateGainF]; split <;> rfl

@[simp] theorem updateGainF_last_noise_reduction (fl : ℚ → ℚ) (s : State) (k : ℚ) :
    (updateGainF fl s k).last_noise_reduction = s.last_noise_reduction := by
  simp only [updateGainF]; split <;> rfl

@[simp] theorem updateGainF_look_ahead_samples (fl : ℚ → ℚ) (s : State) (k : ℚ) :
    (updateGainF fl s k).look_ahead_samples = s.look_ahead_samples := by
  simp only [updateGainF]; split <;> rfl

@[simp] theorem updateGainF_attack_coeff (fl : ℚ → ℚ) (s : State) (k : ℚ) :
    (updateGainF fl s k).attack_coeff = s.attack_coeff := by
  simp only [updateGainF]; split <;> rfl

@[simp] theorem updateGainF_release_coeff (fl : ℚ → ℚ) (s : State) (k : ℚ) :
    (updateGainF fl s k).release_coeff = s.release_coeff := by
  simp only [updateGainF]; split <;> rfl

@[simp] theorem updateGainF_lookahead_buffer (fl : ℚ → ℚ) (s : State) (k : ℚ) :
    (updateGainF fl s k).lookahead_buffer = s.lookahead_buffer := by
  simp only [updateGainF]; split <;> rfl

@[simp] theorem updateGainF_lookahead_max (fl : ℚ → ℚ) (s : State) (k : ℚ) :
    (updateGainF fl s k).lookahead_max = s.lookahead_max := by
  simp only [updateGainF]; split <;> rfl

@[simp] theorem calculateNoiseReductionF_desired_level (fl : ℚ → ℚ) (m : CMath) (s : State) (c : ℚ) :
    ((calculateNoiseReductionF fl m s c).2).desired_level = s.desired_level := by
  rfl

@[simp] theorem calculateNoiseReductionF_gain (fl : ℚ → ℚ) (m : CMath) (s : State) (c : ℚ) :
    ((calculateNoiseReductionF fl m s c).2).gain = s.gain := by
  rfl

@[simp] theorem calculateNoiseReductionF_sample_rate (fl : ℚ → ℚ) (m : CMath) (s : State) (c : ℚ) :
    ((calculateNoiseReductionF fl m s c).2).sample_rate = s.sample_rate := by
  rfl

@[simp] theorem calculateNoiseReductionF_noise_estimate (fl : ℚ → ℚ) (m : CMath) (s : State) (c : ℚ) :
    ((calculateNoiseReductionF fl m s c).2).noise_estimate = s.noise_estimate := by
  rfl

@[simp] theorem calculateNoiseReductionF_noise_adapt_speed (fl : ℚ → ℚ) (m : CMath) (s : State) (c : ℚ) :
    ((calculateNoiseReductionF fl m s c).2).noise_adapt_speed = s.noise_adapt_speed := by
  rfl

@[simp] theorem calculateNoiseReductionF_noise_reduction_smoothing (fl : ℚ → ℚ) (m : CMath) (s : State) (c : ℚ) :
    ((calculateNoiseReductionF fl m s c).2).noise_reduction_smoothing = s.noise_reduction_smoothing := by
  rfl

@[simp] theorem calculateNoiseReductionF_look_ahead_samples (fl : ℚ → ℚ) (m : CMath) (s : State) (c : ℚ) :
    ((calculateNoiseReductionF fl m s c).2).look_ahead_samples = s.look_ahead_samples := by
  rfl

@[simp] theorem calculateNoiseReductionF_attack_coeff (fl : ℚ → ℚ) (m : CMath) (s : State) (c : ℚ) :
    ((calculateNoiseReductionF fl m s c).2).attack_coeff = s.attack_coeff := by
  rfl

@[simp] theorem calculateNoiseReductionF_release_coeff (fl : ℚ → ℚ) (m : CMath) (s : State) (c : ℚ) :
    ((calculateNoiseReductionF fl m s c).2).release_coeff = s.release_coeff := by
  rfl

@[simp] theorem calculateNoiseReductionF_lookahead_buffer (fl : ℚ → ℚ) (m : CMath) (s : State) (c : ℚ) :
    ((calculateNoiseReductionF fl m s c).2).lookahead_buffer = s.lookahead_buffer := by
  rfl

@[simp] theorem calculateNoiseReductionF_lookahead_max (fl : ℚ → ℚ) (m : CMath) (s : State) (c : ℚ) :
    ((calculateNoiseReductionF fl m s c).2).lookahead_max = s.lookahead_max := by
  rfl

@[simp] theorem calculateNoiseReductionF_snd_last (fl : ℚ → ℚ) (m : CMath) (s : State) (c : ℚ) :
    (calculateNoiseReductionF fl m s c).2.last_noise_reduction = (calculateNoiseReductionF fl m s c).1 := by
  rfl

theorem processSampleF_config (fl fd : ℚ → ℚ) (m : CMath) (s s1 : State) (x y : ℚ)
    (h : processSampleF fl fd m s x = some (s1, y)) :
    s1.desired_level = s.desired_level ∧ s1.sample_rate = s.sample_rate ∧
      s1.noise_adapt_speed = s.noise_adapt_speed ∧
      s1.noise_reduction_smoothing = s.noise_reduction_smoothing ∧
      s1.look_ahead_samples = s.look_ahead_samples ∧ s1.attack_coeff = s.attack_coeff ∧
      s1.release_coeff = s.release_coeff := by
  obtain ⟨p, hp, hcase⟩ := (processSampleF_iff fl fd m s x s1 y).1 h
  obtain ⟨h1, h2, h3, h4, h5, h6, h7, h8, h9, h10⟩ := push_frame s p x hp
  rcases hcase with ⟨_, rfl, _⟩ | ⟨_, cur, peak, _, _, rfl, _⟩
  · simp [*]
  · simp [*]

theorem processListF_induction (fl fd : ℚ → ℚ) (m : CMath) (P : State → Prop)
    (hstep : ∀ s x s1 y, P s → processSampleF fl fd m s x = some (s1, y) → P s1)
    (xs : List ℚ) (s s1 : State) (ys : List ℚ) (hs : P s)
    (h : processListF fl fd m s xs = some (s1, ys)) : P s1 := by
  induction xs generalizing s s1 ys with
  | nil =>
    simp only [processListF, Option.some.injEq, Prod.mk.injEq] at h
    rw [← h.1]
    exact hs
  | cons x xs ih =>
    unfold processListF at h
    cases hx : processSampleF fl fd m s x with
    | none => simp [hx] at h
    | some r =>
      obtain ⟨s2, y⟩ := r
      rw [hx] at h
      simp only at h
      cases hr : processListF fl fd m s2 xs with
      | none => simp [hr] at h
      | some r2 =>
        obtain ⟨s3, zs⟩ := r2
        rw [hr] at h
        simp only [Option.some.injEq, Prod.mk.injEq] at h
        rw [← h.1]
        exact ih s2 s3 zs (hstep s x s2 y hs hx) hr

theorem runF_induction (fl fd : ℚ → ℚ) (m : CMath) (P : State → Prop)
    (hstep : ∀ s x s1 y, P s → processSampleF fl fd m s x = some (s1, y) → P s1)
    (hreset : ∀ s, P s → P (reset s))
    (cs : List Call) (s s1 : State) (hs : P s) (h : runF fl fd m s cs = some s1) : P s1 := by
  induction cs generalizing s with
  | nil =>
    simp only [runF, Option.some.injEq] at h
    rw [← h]
    exact hs
  | cons c cs ih =>
    cases c with
    | process arr =>
      unfold runF at h
      cases hp : processF fl fd m s arr with
      | none => simp [hp] at h
      | some r =>
        obtain ⟨s2, out⟩ := r
        rw [hp] at h
        simp only at h
        rw [processF_eq_processListF] at hp
        exact ih s2 (processListF_induction fl fd m P hstep arr s s2 out hs hp) h
    | reset =>
      unfold runF at h
      exact ih (reset s) (hreset s hs) h

theorem processSampleF_total (fl fd : ℚ → ℚ) (m : CMath) (s : State) (x : ℚ)
    (hinv : s.lookahead_max = sufMax s.lookahead_buffer) (hN : 1 ≤ s.look_ahead_samples) :
    ∃ s1 y, processSampleF fl fd m s x = some (s1, y) ∧
      s1.lookahead_buffer = window s.look_ahead_samples (s.lookahead_buffer ++ [x]) ∧
      s1.lookahead_max = sufMax s1.lookahead_buffer ∧
      s1.look_ahead_samples = s.look_ahead_samples ∧
      (s1.lookahead_buffer.length ≠ s.look_ahead_samples → y = 0) := by
  have hp := push_sufMax s x hinv
  by_cases hfull : (window s.look_ahead_samples (s.lookahead_buffer ++ [x])).length
      = s.look_ahead_samples
  · have hne : window s.look_ahead_samples (s.lookahead_buffer ++ [x]) ≠ [] := by
      intro h
      rw [h] at hfull
      simp only [List.length_nil] at hfull
      omega
    obtain ⟨f, rest, e, -, -⟩ := sufMax_head _ hne
    obtain ⟨c, t, hc⟩ := List.exists_cons_of_ne_nil hne
    refine ⟨_, _, (processSampleF_iff fl fd m s x _ _).2 ⟨_, hp, Or.inr ⟨?_, c, |f|, ?_, ?_, rfl, rfl⟩⟩,
      ?_, ?_, ?_, ?_⟩
    · simpa using hfull
    · simp [hc]
    · simp [max, e]
    · simp
    · simp
    · simp
    · intro h
      exact absurd hfull (by simpa using h)
  · refine ⟨_, 0, (processSampleF_iff fl fd m s x _ _).2 ⟨_, hp, Or.inl ⟨?_, rfl, rfl⟩⟩, ?_, ?_, ?_, ?_⟩
    · simpa using hfull
    · simp
    · simp
    · simp
    · intro _
      rfl

theorem processListF_append (fl fd : ℚ → ℚ) (m : CMath) (xs zs : List ℚ) (s : State) :
    processListF fl fd m s (xs ++ zs) =
      match processListF fl fd m s xs with
      | none => none
      | some (s1, ys) =>
        match processListF fl fd m s1 zs with
        | none => none
        | some (s2, ws) => some (s2, ys ++ ws) := by
  induction xs generalizing s with
  | nil =>
    simp only [List.nil_append, processListF]
    cases processListF fl fd m s zs with
    | none => rfl
    | some r => rfl
  | cons x xs ih =>
    rw [List.cons_append]
    simp only [processListF]
    cases hx : processSampleF fl fd m s x with
    | none => rfl
    | some r =>
      obtain ⟨s1, y⟩ := r
      simp only
      rw [ih]
      cases h1 : processListF fl fd m s1 xs with
      | none => rfl
      | some r1 =>
        obtain ⟨s2, ys⟩ := r1
        simp only
        cases h2 : processListF fl fd m s2 zs with
        | none => rfl
        | some r2 => rfl

theorem processListF_total (fl fd : ℚ → ℚ) (m : CMath) (xs : List ℚ) (s : State)
    (hinv : s.lookahead_max = sufMax s.lookahead_buffer) (hN : 1 ≤ s.look_ahead_samples) :
    ∃ s1 ys, processListF fl fd m s xs = some (s1, ys) ∧ ys.length = xs.length ∧
      s1.lookahead_buffer
        = xs.foldl (fun b x => window s.look_ahead_samples (b ++ [x])) s.lookahead_buffer ∧
      s1.lookahead_max = sufMax s1.lookahead_buffer ∧
      s1.look_ahead_samples = s.look_ahead_samples := by
  induction xs generalizing s with
  | nil => exact ⟨s, [], rfl, rfl, rfl, hinv, rfl⟩
  | cons x xs ih =>
    obtain ⟨s1, y, h1, hb1, hm1, hn1, -⟩ := processSampleF_total fl fd m s x hinv hN
    obtain ⟨s2, ys, h2, hl2, hb2, hm2, hn2⟩ := ih s1 hm1 (by rw [hn1]; exact hN)
    refine ⟨s2, y :: ys, ?_, by simp [hl2], ?_, hm2, by rw [hn2, hn1]⟩
    · simp only [processListF, h1, h2]
    · rw [hb2, hb1, hn1]
      rfl

theorem processSampleF_inv (fl fd : ℚ → ℚ) (m : CMath) (s : State) (x : ℚ) (s1 : State) (y : ℚ)
    (hinv : s.lookahead_max = sufMax s.lookahead_buffer)
    (h : processSampleF fl fd m s x = some (s1, y)) :
    s1.lookahead_buffer = window s.look_ahead_samples (s.lookahead_buffer ++ [x]) ∧
      s1.lookahead_max = sufMax s1.lookahead_buffer := by
  obtain ⟨p, hp, hcase⟩ := (processSampleF_iff fl fd m s x s1 y).1 h
  rw [push_sufMax s x hinv, Option.some.injEq] at hp
  subst hp
  rcases hcase with ⟨_, rfl, _⟩ | ⟨_, cur, peak, _, _, rfl, _⟩ <;> simp

theorem runF_total (fl fd : ℚ → ℚ) (m : CMath) (cs : List Call) (s : State)
    (hinv : s.lookahead_max = sufMax s.lookahead_buffer) (hN : 1 ≤ s.look_ahead_samples) :
    ∃ s1, runF fl fd m s cs = some s1 := by
  induction cs generalizing s with
  | nil => exact ⟨s, rfl⟩
  | cons c cs ih =>
    cases c with
    | process arr =>
      obtain ⟨s1, ys, h1, -, -, hm1, hn1⟩ := processListF_total fl fd m arr s hinv hN
      obtain ⟨s2, h2⟩ := ih s1 hm1 (by rw [hn1]; exact hN)
      refine ⟨s2, ?_⟩
      simp only [runF, processF_eq_processListF, h1, h2]
    | reset =>
      obtain ⟨s2, h2⟩ := ih (reset s) rfl (by simpa using hN)
      exact ⟨s2, by simp only [runF, h2]⟩

theorem runF_inv (fl fd : ℚ → ℚ) (m : CMath) (s0 : State) (cs : List Call) (s : State)
    (h0 : s0.lookahead_max = sufMax s0.lookahead_buffer) (h : runF fl fd m s0 cs = some s) :
    s.lookahead_max = sufMax s.lookahead_buffer :=
  runF_induction fl fd m (fun t => t.lookahead_max = sufMax t.lookahead_buffer)
    (fun t x t1 y ht hstep => (processSampleF_inv fl fd m t x t1 y ht hstep).2)
    (fun _ _ => rfl) cs s0 s h0 h

theorem processListF_length (fl fd : ℚ → ℚ) (m : CMath) (xs : List ℚ) (s s1 : State) (ys : List ℚ)
    (h : processListF fl fd m s xs = some (s1, ys)) : ys.length = xs.length := by
  induction xs generalizing s ys with
  | nil =>
    simp only [processListF, Option.some.injEq, Prod.mk.injEq] at h
    rw [← h.2]
  | cons x xs ih =>
    unfold processListF at h
    cases hx : processSampleF fl fd m s x with
    | none => simp [hx] at h
    | some r =>
      obtain ⟨s2, y⟩ := r
      rw [hx] at h
      simp only at h
      cases hr : processListF fl fd m s2 xs with
      | none => simp [hr] at h
      | some r2 =>
        obtain ⟨s3, zs⟩ := r2
        rw [hr] at h
        simp only [Option.some.injEq, Prod.mk.injEq] at h
        rw [← h.2, List.length_cons, List.length_cons, ih s2 zs (h.1 ▸ hr)]

theorem Rounding.nonneg {fl : ℚ → ℚ} (h : Rounding fl) {x : ℚ} (hx : 0 ≤ x) : 0 ≤ fl x := by
  have := h.mono 0 x hx
  rwa [h.zero] at this

theorem Rounding.le_of_le {fl : ℚ → ℚ} (h : Rounding fl) {x g : ℚ} (hx : x ≤ g)
    (hg : fl g = g) : fl x ≤ g := by
  have := h.mono x g hx
  rwa [hg] at this

theorem Rounding.ge_of_ge {fl : ℚ → ℚ} (h : Rounding fl) {x g : ℚ} (hx : g ≤ x)
    (hg : fl g = g) : g ≤ fl x := by
  have := h.mono g x hx
  rwa [hg] at this

theorem updateGainF_gain (fl : ℚ → ℚ) (s : State) (k : ℚ) :
    (updateGainF fl s k).gain
      = if fl (s.desired_level / fl (k + fl (1 / 10000000000))) < s.gain then
          fl (s.gain - fl (s.attack_coeff
            * fl (s.gain - fl (s.desired_level / fl (k + fl (1 / 10000000000))))))
        else
          fl (s.gain + fl (s.release_coeff
            * fl (fl (s.desired_level / fl (k + fl (1 / 10000000000))) - s.gain))) := by
  simp only [updateGainF]
  split <;> rfl

theorem updateGainF_gain_congr (fl : ℚ → ℚ) (s u : State) (k : ℚ) (h1 : u.gain = s.gain)
    (h2 : u.desired_level = s.desired_level) (h3 : u.attack_coeff = s.attack_coeff)
    (h4 : u.release_coeff = s.release_coeff) :
    (updateGainF fl u k).gain = (updateGainF fl s k).gain := by
  rw [updateGainF_gain, updateGainF_gain, h1, h2, h3, h4]

theorem gainStepF_attack (fl : ℚ → ℚ) (hfl : Rounding fl) (g d a : ℚ)
    (hg : fl g = g) (hd : fl d = d) (ha : 0 ≤ a ∧ a ≤ 1) (hlt : d < g) :
    fl (g - fl (a * fl (g - d))) ≤ g ∧
      (0 ≤ d → 0 ≤ fl (g - fl (a * fl (g - d)))) ∧
      (fl (g - d) = g - d → d ≤ fl (g - fl (a * fl (g - d)))) := by
  have ht1 : 0 ≤ fl (g - d) := hfl.nonneg (by linarith)
  have ht2 : 0 ≤ fl (a * fl (g - d)) := hfl.nonneg (mul_nonneg ha.1 ht1)
  have ht3 : fl (a * fl (g - d)) ≤ fl (g - d) :=
    hfl.le_of_le (by nlinarith) (hfl.idem _)
  refine ⟨hfl.le_of_le (by linarith) hg, ?_, ?_⟩
  · intro hd0
    have : fl (g - d) ≤ g := hfl.le_of_le (by linarith) hg
    exact hfl.nonneg (by linarith)
  · intro he
    exact hfl.ge_of_ge (by linarith) hd

theorem gainStepF_release (fl : ℚ → ℚ) (hfl : Rounding fl) (g d r : ℚ)
    (hg : fl g = g) (hd : fl d = d) (hr : 0 ≤ r ∧ r ≤ 1) (hge : ¬ d < g) :
    g ≤ fl (g + fl (r * fl (d - g))) ∧
      (fl (d - g) = d - g → fl (g + fl (r * fl (d - g))) ≤ d) := by
  have ht1 : 0 ≤ fl (d - g) := hfl.nonneg (by linarith [not_lt.1 hge])
  have ht2 : 0 ≤ fl (r * fl (d - g)) := hfl.nonneg (mul_nonneg hr.1 ht1)
  have ht3 : fl (r * fl (d - g)) ≤ fl (d - g) :=
    hfl.le_of_le (by nlinarith) (hfl.idem _)
  refine ⟨hfl.ge_of_ge (by linarith) hg, ?_⟩
  intro he
  exact hfl.le_of_le (by linarith) hd

theorem desiredGainF_nonneg (fl : ℚ → ℚ) (hfl : Rounding fl) (L peak : ℚ) (hL : 0 ≤ L)
    (hp : 0 ≤ peak) : 0 ≤ fl (L / fl (peak + fl (1 / 10000000000))) :=
  hfl.nonneg (div_nonneg hL (hfl.nonneg (add_nonneg hp (hfl.nonneg (by norm_num)))))

theorem updateGainF_inv (fl : ℚ → ℚ) (hfl : Rounding fl) (s : State) (peak : ℚ)
    (hs : GainInv fl s) (hp : 0 ≤ peak) :
    0 ≤ (updateGainF fl s peak).gain ∧
      fl (updateGainF fl s peak).gain = (updateGainF fl s peak).gain := by
  obtain ⟨hL, ha, hr, hg0, hg⟩ := hs
  have hD := desiredGainF_nonneg fl hfl s.desired_level peak hL hp
  rw [updateGainF_gain]
  generalize hd : fl (s.desired_level / fl (peak + fl (1 / 10000000000))) = d at hD
  have hdd : fl d = d := by rw [← hd, hfl.idem]
  split
  · rename_i hlt
    exact ⟨(gainStepF_attack fl hfl s.gain d s.attack_coeff hg hdd ha hlt).2.1 hD,
      hfl.idem _⟩
  · rename_i hge
    exact ⟨hg0.trans (gainStepF_release fl hfl s.gain d s.release_coeff hg hdd hr hge).1,
      hfl.idem _⟩

theorem processSampleF_gain (fl fd : ℚ → ℚ) (m : CMath) (s : State) (x : ℚ) (s1 : State)
    (y : ℚ) (h : processSampleF fl fd m s x = some (s1, y)) :
    s1.gain = s.gain ∨ ∃ peak, 0 ≤ peak ∧ s1.gain = (updateGainF fl s peak).gain := by
  obtain ⟨p, hp, hcase⟩ := (processSampleF_iff fl fd m s x s1 y).1 h
  obtain ⟨f1, f2, -, -, -, -, -, -, f9, f10⟩ := push_frame s p x hp
  rcases hcase with ⟨_, rfl, _⟩ | ⟨_, cur, peak, _, hpeak, rfl, _⟩
  · left
    simp [f2]
  · right
    refine ⟨peak, max_nonneg _ _ hpeak, ?_⟩
    simp only [calculateNoiseReductionF_gain]
    exact updateGainF_gain_congr fl s _ peak (by simp [f2]) (by simp [f1]) (by simp [f9])
      (by simp [f10])

theorem processSampleF_gainInv (fl fd : ℚ → ℚ) (hfl : Rounding fl) (m : CMath) (s : State)
    (x : ℚ) (s1 : State) (y : ℚ) (hs : GainInv fl s)
    (h : processSampleF fl fd m s x = some (s1, y)) : GainInv fl s1 := by
  obtain ⟨c1, -, -, -, -, c6, c7⟩ := processSampleF_config fl fd m s s1 x y h
  have hs1 := hs
  obtain ⟨hL, ha, hr, hg0, hg⟩ := hs
  refine ⟨by rw [c1]; exact hL, by rw [c6]; exact ha, by rw [c7]; exact hr, ?_⟩
  rcases processSampleF_gain fl fd m s x s1 y h with e | ⟨peak, hp, e⟩
  · rw [e]
    exact ⟨hg0, hg⟩
  · rw [e]
    exact updateGainF_inv fl hfl s peak hs1 hp

theorem reset_gainInv (fl : ℚ → ℚ) (hfl : Rounding fl) (s : State) (hs : GainInv fl s) :
    GainInv fl (reset s) := by
  obtain ⟨hL, ha, hr, -, -⟩ := hs
  exact ⟨hL, ha, hr, by simp [reset], by simp [reset, hfl.one]⟩

theorem coeffF_mem (fl fd : ℚ → ℚ) (hfl : Rounding fl) (hfd : Rounding fd) (m : CMath)
    (hexp : ∀ x : ℚ, x ≤ 0 → 0 ≤ m.exp x ∧ m.exp x ≤ 1) (t sr : ℚ) (ht : 0 < t)
    (hsr : 0 < sr) : 0 ≤ coeffF fl fd m t sr ∧ coeffF fl fd m t sr ≤ 1 := by
  unfold coeffF
  split
  · norm_num
  · have hd : 0 ≤ fl (fl (t * fl (1 / 1000)) * sr) :=
      hfl.nonneg (mul_nonneg (hfl.nonneg (mul_nonneg ht.le (hfl.nonneg (by norm_num))))
        hsr.le)
    have harg : fl (-1 / fl (fl (t * fl (1 / 1000)) * sr)) ≤ 0 :=
      hfl.le_of_le (div_nonpos_of_nonpos_of_nonneg (by norm_num) hd) hfl.zero
    obtain ⟨e0, e1⟩ := hexp _ harg
    constructor
    · exact hfl.nonneg (hfd.nonneg (by linarith))
    · exact hfl.le_of_le (hfd.le_of_le (by linarith) hfd.one) hfl.one

theorem newF_eq_some (fl fd : ℚ → ℚ) (m : CMath) (L a r t sr : ℚ) (s0 : State)
    (h : newF fl fd m L a r t sr = some s0) :
    castSizeT (lookAheadValue fl t sr) = some s0.look_ahead_samples ∧
      s0.desired_level = L ∧ s0.gain = 1 ∧ s0.attack_coeff = coeffF fl fd m a sr ∧
      s0.release_coeff = coeffF fl fd m r sr ∧ s0.lookahead_buffer = [] ∧
      s0.lookahead_max = [] := by
  unfold newF at h
  split at h
  · exact absurd h (by simp)
  · rename_i n hn
    simp only [Option.some.injEq] at h
    subst h
    exact ⟨hn, rfl, rfl, rfl, rfl, rfl, rfl⟩

theorem newF_gainInv (fl fd : ℚ → ℚ) (hfl : Rounding fl) (hfd : Rounding fd) (m : CMath)
    (hexp : ∀ x : ℚ, x ≤ 0 → 0 ≤ m.exp x ∧ m.exp x ≤ 1) (L a r t sr : ℚ) (hL : 0 < L)
    (ha : 0 < a) (hr : 0 < r) (hsr : 0 < sr) (s0 : State)
    (h : newF fl fd m L a r t sr = some s0) : GainInv fl s0 := by
  obtain ⟨-, e1, e2, e3, e4, -, -⟩ := newF_eq_some fl fd m L a r t sr s0 h
  refine ⟨by rw [e1]; exact hL.le, ?_, ?_, by rw [e2]; norm_num, by rw [e2]; exact hfl.one⟩
  · rw [e3]
    exact coeffF_mem fl fd hfl hfd m hexp a sr ha hsr
  · rw [e4]
    exact coeffF_mem fl fd hfl hfd m hexp r sr hr hsr

theorem newF_look_ahead_samples (fl fd : ℚ → ℚ) (m : CMath) (L a r t sr : ℚ) :
    (newF fl fd m L a r t sr).map State.look_ahead_samples
      = castSizeT (lookAheadValue fl t sr) := by
  unfold newF
  split
  · rename_i h
    rw [h]
    rfl
  · rename_i n h
    rw [h]
    rfl

theorem sharpMath_exp_bounds (x : ℚ) (hx : x ≤ 0) :
    0 ≤ sharpMath.exp x ∧ sharpMath.exp x ≤ 1 := by
  simp only [sharpMath]
  have h1 : (1 : ℚ) ≤ (1 - x / 32) ^ 32 := one_le_pow₀ (by linarith)
  constructor
  · positivity
  · rw [div_le_one (by linarith)]
    exact h1

theorem refMath_exp_bounds_le (x : ℚ) (hx : x ≤ 0) :
    0 ≤ refMath.exp x ∧ refMath.exp x ≤ 1 := by
  simp only [refMath]
  have h1 : 0 < 1 - x := by linarith
  constructor
  · positivity
  · rw [div_le_one h1]
    linarith

theorem castSizeT_spec (x : ℚ) (h0 : 0 ≤ x) (h1 : x < 2 ^ 64) :
    ∃ n : ℕ, castSizeT x = some n ∧ (n : ℚ) ≤ x ∧ x < n + 1 := by
  refine ⟨Int.toNat ⌊x⌋, ?_, ?_, ?_⟩
  · unfold castSizeT
    rw [if_pos ⟨by linarith, h1⟩]
  · have hf : 0 ≤ ⌊x⌋ := Int.floor_nonneg.2 h0
    have e : ((Int.toNat ⌊x⌋ : ℕ) : ℚ) = ((⌊x⌋ : ℤ) : ℚ) := by
      have := Int.toNat_of_nonneg hf
      exact_mod_cast this
    rw [e]
    exact Int.floor_le x
  · have hf : 0 ≤ ⌊x⌋ := Int.floor_nonneg.2 h0
    have e : ((Int.toNat ⌊x⌋ : ℕ) : ℚ) = ((⌊x⌋ : ℤ) : ℚ) := by
      have := Int.toNat_of_nonneg hf
      exact_mod_cast this
    rw [e]
    exact Int.lt_floor_add_one x

/-- C3 as stated fails: for `lookAheadTimeMs = 1.75` and `sampleRate = 1000`, both `float`
values, the constructor computes `1.75` without rounding error and the conversion to `size_t`
gives `look_ahead_samples = 1`, while `round(1.75 * 1000 / 1000) = 2`. -/
theorem C3_counterexample :
    (0 : ℚ) < 7 / 4 ∧ (0 : ℚ) < 1000 ∧ f32 (7 / 4) = 7 / 4 ∧ f32 1000 = 1000 ∧
    lookAheadValue f32 (7 / 4) 1000 = 7 / 4 ∧
    (newF f32 f64 refMath 1 10 100 (7 / 4) 1000).map State.look_ahead_samples = some 1 ∧
    specLookAheadSamples (7 / 4) 1000 = 2 := by
  decide!

/-- C3, amended. Window length derivation: for positive `float` arguments `lookAheadTimeMs` and
`sampleRate` the constructor computes `v = fl(fl(lookAheadTimeMs * sampleRate) / 1000)` in
`float` arithmetic, and for `v < 2 ^ 64` it sets `look_ahead_samples` to `v` truncated toward
zero, the integer `n` with `n ≤ v < n + 1`; for `v ≥ 2 ^ 64` the conversion is undefined. For
`5.0` and `48000.0` the result is `240`. The truncation is applied to the rounded `float`
value, not to the exact quotient: for `50.839f` and `44100.0` the result is `2242`, while the
exact quotient of the two `float` arguments is below `2242`. -/
theorem C3_window_length_truncates (fl fd : ℚ → ℚ) (hfl : Rounding fl) (m : CMath)
    (desiredLevel attackTimeMs releaseTimeMs lookAheadTimeMs sr : ℚ)
    (ht : 0 < lookAheadTimeMs) (hsr : 0 < sr) :
    (lookAheadValue fl lookAheadTimeMs sr < 2 ^ 64 →
      ∃ s, newF fl fd m desiredLevel attackTimeMs releaseTimeMs lookAheadTimeMs sr = some s ∧
        (s.look_ahead_samples : ℚ) ≤ lookAheadValue fl lookAheadTimeMs sr ∧
        lookAheadValue fl lookAheadTimeMs sr < s.look_ahead_samples + 1) ∧
    (2 ^ 64 ≤ lookAheadValue fl lookAheadTimeMs sr →
      newF fl fd m desiredLevel attackTimeMs releaseTimeMs lookAheadTimeMs sr = none) ∧
    (newF f32 f64 m desiredLevel attackTimeMs releaseTimeMs 5 48000).map
        State.look_ahead_samples = some 240 ∧
    (newF f32 f64 m desiredLevel attackTimeMs releaseTimeMs (f32 (50839 / 1000)) 44100).map
        State.look_ahead_samples = some 2242 ∧
    f32 (50839 / 1000) * 44100 / 1000 < 2242 := by
  have hv : 0 ≤ lookAheadValue fl lookAheadTimeMs sr :=
    hfl.nonneg (div_nonneg (hfl.nonneg (mul_nonneg ht.le hsr.le)) (by norm_num))
  refine ⟨?_, ?_, ?_, ?_, by decide!⟩
  · intro hrange
    obtain ⟨n, hn, h1, h2⟩ := castSizeT_spec _ hv hrange
    unfold newF
    rw [hn]
    exact ⟨_, rfl, h1, h2⟩
  · intro hbig
    unfold newF
    have : castSizeT (lookAheadValue fl lookAheadTimeMs sr) = none := by
      unfold castSizeT
      rw [if_neg]
      intro h
      exact absurd h.2 (not_lt.2 hbig)
    rw [this]
  · rw [newF_look_ahead_samples]
    decide!
  · rw [newF_look_ahead_samples]
    decide!

/-- C3, an instance in binary32 arithmetic: `lookAheadTimeMs = 5` and `sampleRate = 48000` on
the stand-in `refMath`. -/
theorem C3_window_length_truncates_witness :
    Rounding f32 ∧ (0 : ℚ) < 5 ∧ (0 : ℚ) < 48000 ∧ lookAheadValue f32 5 48000 < 2 ^ 64 ∧
    ∃ s, newF f32 f64 refMath 1 10 100 5 48000 = some s ∧
      (s.look_ahead_samples : ℚ) ≤ lookAheadValue f32 5 48000 ∧
      lookAheadValue f32 5 48000 < s.look_ahead_samples + 1 :=
  ⟨rounding_f32, by norm_num, by norm_num, by decide!,
    (C3_window_length_truncates f32 f64 rounding_f32 refMath 1 10 100 5 48000 (by norm_num)
      (by norm_num)).1 (by decide!)⟩

/-- C15 as stated fails in the `float` arithmetic of the code: with `attack_coeff = 1.0`
(inside `[0, 1]`), `gain = 1`, `desired_level = 1` and `peak = 1e8` the desired gain is about
`1e-8`, the difference `gain - desired_gain` rounds to `1`, and the update sets `gain` to `0`,
below the interval between `desired_gain` and the old gain. -/
theorem C15_counterexample :
    f32 ((1 : ℚ) / f32 (100000000 + f32 (1 / 10000000000)))
        = 11258999 / 1125899906842624 ∧
    f32 (1 - 11258999 / 1125899906842624) = 1 ∧
    (updateGainF f32 ⟨1, 1, 1000, 0, 1 / 1000, 9 / 10, 1, 1, 1, 1 / 100, [], []⟩
        100000000).gain = 0 ∧
    ¬ (min (1 : ℚ) (11258999 / 1125899906842624) ≤ 0) := by
  decide!

/-- C15, amended. Gain step in `float` arithmetic (no overflow): with
`desired_gain = fl(desired_level / fl(peak + 1e-10f))`, a `gain` that is a `float` and
coefficients in `[0, 1]`, one steady-state step sets `gain` to
`fl(gain - fl(attack_coeff * fl(gain - desired_gain)))` when `desired_gain < gain` and to
`fl(gain + fl(release_coeff * fl(desired_gain - gain)))` otherwise. The new gain does not move
away from `desired_gain`: it is at most the old gain in the first case and at least the old
gain in the second. In the first case it is non-negative when `desired_gain` is. It lies in the
closed interval between the old gain and `desired_gain` when the difference of the two is
computed without rounding error; otherwise it can pass `desired_gain`. -/
theorem C15_gain_step (fl : ℚ → ℚ) (hfl : Rounding fl) (s : State) (peak : ℚ)
    (hg : fl s.gain = s.gain)
    (ha : 0 ≤ s.attack_coeff ∧ s.attack_coeff ≤ 1)
    (hr : 0 ≤ s.release_coeff ∧ s.release_coeff ≤ 1) :
    (fl (s.desired_level / fl (peak + fl (1 / 10000000000))) < s.gain →
      (updateGainF fl s peak).gain
          = fl (s.gain - fl (s.attack_coeff
              * fl (s.gain - fl (s.desired_level / fl (peak + fl (1 / 10000000000)))))) ∧
        (updateGainF fl s peak).gain ≤ s.gain ∧
        (0 ≤ fl (s.desired_level / fl (peak + fl (1 / 10000000000))) →
          0 ≤ (updateGainF fl s peak).gain) ∧
        (fl (s.gain - fl (s.desired_level / fl (peak + fl (1 / 10000000000))))
            = s.gain - fl (s.desired_level / fl (peak + fl (1 / 10000000000))) →
          fl (s.desired_level / fl (peak + fl (1 / 10000000000)))
            ≤ (updateGainF fl s peak).gain)) ∧
    (¬ fl (s.desired_level / fl (peak + fl (1 / 10000000000))) < s.gain →
      (updateGainF fl s peak).gain
          = fl (s.gain + fl (s.release_coeff
              * fl (fl (s.desired_level / fl (peak + fl (1 / 10000000000))) - s.gain))) ∧
        s.gain ≤ (updateGainF fl s peak).gain ∧
        (fl (fl (s.desired_level / fl (peak + fl (1 / 10000000000))) - s.gain)
            = fl (s.desired_level / fl (peak + fl (1 / 10000000000))) - s.gain →
          (updateGainF fl s peak).gain
            ≤ fl (s.desired_level / fl (peak + fl (1 / 10000000000))))) := by
  rw [updateGainF_gain]
  generalize hd : fl (s.desired_level / fl (peak + fl (1 / 10000000000))) = d
  have hdd : fl d = d := by rw [← hd, hfl.idem]
  constructor
  · intro hlt
    rw [if_pos hlt]
    exact ⟨rfl, gainStepF_attack fl hfl s.gain d s.attack_coeff hg hdd ha hlt⟩
  · intro hge
    rw [if_neg hge]
    exact ⟨rfl, gainStepF_release fl hfl s.gain d s.release_coeff hg hdd hr hge⟩

/-- C15, an instance in binary32 arithmetic: `gain = 1`, `desired_level = 1`,
`attack_coeff = 1 / 2` and `peak = 3`; the desired gain is below the gain and the new gain is
`11184811 / 16777216`, about `0.6667`. -/
theorem C15_gain_step_witness :
    Rounding f32 ∧ f32 1 = 1 ∧ ((0 : ℚ) ≤ 1 / 2 ∧ (1 / 2 : ℚ) ≤ 1) ∧
    ((0 : ℚ) ≤ 1 / 4 ∧ (1 / 4 : ℚ) ≤ 1) ∧
    f32 (1 / f32 (3 + f32 (1 / 10000000000))) < 1 ∧
    (updateGainF f32 ⟨1, 1, 1000, 0, 1 / 1000, 9 / 10, 1, 1, 1 / 2, 1 / 4, [], []⟩ 3).gain
      = 11184811 / 16777216 ∧
    (updateGainF f32 ⟨1, 1, 1000, 0, 1 / 1000, 9 / 10, 1, 1, 1 / 2, 1 / 4, [], []⟩ 3).gain
      ≤ 1 :=
  ⟨rounding_f32, by decide!, by norm_num, by norm_num, by decide!, by decide!,
    ((C15_gain_step f32 rounding_f32
      ⟨1, 1, 1000, 0, 1 / 1000, 9 / 10, 1, 1, 1 / 2, 1 / 4, [], []⟩ 3 (by decide!)
      (by norm_num) (by norm_num)).1 (by decide!)).2.1⟩

/-- C8 as stated fails in the `float` arithmetic of the code: `AGC(1, 0.01f, 100, 1, 1000)`
has positive arguments and `look_ahead_samples = 1`, its `attack_coeff` is exactly `1.0`
because `1 - exp(-100)` rounds to `1`, and after the one sample `1e8` the gain is `0`, not
strictly positive. -/
theorem C8_counterexample :
    (0 : ℚ) < f32 (1 / 100) ∧
    newF f32 f64 sharpMath 1 (f32 (1 / 100)) 100 1 1000
      = some ⟨1, 1, 1000, 0, 8589935 / 8589934592, 7549747 / 8388608, 1, 1, 1,
          10682249 / 1073741824, [], []⟩ ∧
    ((newF f32 f64 sharpMath 1 (f32 (1 / 100)) 100 1 1000).bind
        (fun s => processF f32 f64 sharpMath s [100000000])).map (fun r => r.1.gain)
      = some 0 := by
  decide!

/-- C8, amended. Gain invariant in `float` arithmetic (no overflow, no NaN sample): for every
processor constructed with positive `desiredLevel`, `attackTimeMs`, `releaseTimeMs` and
`sampleRate` and `N ≥ 1`, `attack_coeff` and `release_coeff` lie in the closed interval
`[0, 1]`, `gain` is `1.0` after construction and after `reset`, and after every sample
processed by `process`, for every input sequence, `gain` is not negative; it can be `0`. -/
theorem C8_gain_nonneg (fl fd : ℚ → ℚ) (hfl : Rounding fl) (hfd : Rounding fd) (m : CMath)
    (hexp : ∀ x : ℚ, x ≤ 0 → 0 ≤ m.exp x ∧ m.exp x ≤ 1)
    (desiredLevel attackTimeMs releaseTimeMs lookAheadTimeMs sr : ℚ)
    (hL : 0 < desiredLevel) (hat : 0 < attackTimeMs) (hrt : 0 < releaseTimeMs) (hsr : 0 < sr)
    (s0 : State)
    (h0 : newF fl fd m desiredLevel attackTimeMs releaseTimeMs lookAheadTimeMs sr = some s0)
    (hN : 1 ≤ s0.look_ahead_samples) :
    s0.gain = 1 ∧ (0 ≤ s0.attack_coeff ∧ s0.attack_coeff ≤ 1) ∧
      (0 ≤ s0.release_coeff ∧ s0.release_coeff ≤ 1) ∧
      ∀ cs : List Call, ∃ s, runF fl fd m s0 cs = some s ∧ 0 ≤ s.gain ∧ (reset s).gain = 1 ∧
        ∀ x : ℚ, ∃ s1 y, processSampleF fl fd m s x = some (s1, y) ∧ 0 ≤ s1.gain := by
  have hP0 := newF_gainInv fl fd hfl hfd m hexp desiredLevel attackTimeMs releaseTimeMs
    lookAheadTimeMs sr hL hat hrt hsr s0 h0
  obtain ⟨-, -, e2, -, -, e5, e6⟩ := newF_eq_some fl fd m _ _ _ _ _ s0 h0
  have hinv0 : s0.lookahead_max = sufMax s0.lookahead_buffer := by
    rw [e5, e6]
    rfl
  refine ⟨e2, hP0.2.1, hP0.2.2.1, fun cs => ?_⟩
  obtain ⟨s, hs⟩ := runF_total fl fd m cs s0 hinv0 hN
  have hP : GainInv fl s ∧ s.look_ahead_samples = s0.look_ahead_samples :=
    runF_induction fl fd m
      (fun t => GainInv fl t ∧ t.look_ahead_samples = s0.look_ahead_samples)
      (fun t x t1 y ht hstep => ⟨processSampleF_gainInv fl fd hfl m t x t1 y ht.1 hstep, by
        rw [(processSampleF_config fl fd m t t1 x y hstep).2.2.2.2.1, ht.2]⟩)
      (fun t ht => ⟨reset_gainInv fl hfl t ht.1, ht.2⟩) cs s0 s ⟨hP0, rfl⟩ hs
  have hinv := runF_inv fl fd m s0 cs s hinv0 hs
  refine ⟨s, hs, hP.1.2.2.2.1, rfl, fun x => ?_⟩
  obtain ⟨s1, y, h1, -⟩ := processSampleF_total fl fd m s x hinv (by rw [hP.2]; exact hN)
  exact ⟨s1, y, h1, (processSampleF_gainInv fl fd hfl m s x s1 y hP.1 h1).2.2.2.1⟩

/-- C8, an instance in binary32 arithmetic on the stand-in `sharpMath`: the processor
`AGC(1, 0.01f, 100, 1, 1000)` after `process` on the one sample `1e8`. -/
theorem C8_gain_nonneg_witness :
    Rounding f32 ∧ Rounding f64 ∧
    (∀ x : ℚ, x ≤ 0 → 0 ≤ sharpMath.exp x ∧ sharpMath.exp x ≤ 1) ∧
    (0 : ℚ) < 1 ∧ (0 : ℚ) < f32 (1 / 100) ∧ (0 : ℚ) < 100 ∧ (0 : ℚ) < 1000 ∧
    newF f32 f64 sharpMath 1 (f32 (1 / 100)) 100 1 1000
      = some ⟨1, 1, 1000, 0, 8589935 / 8589934592, 7549747 / 8388608, 1, 1, 1,
          10682249 / 1073741824, [], []⟩ ∧
    ∃ s, runF f32 f64 sharpMath
        ⟨1, 1, 1000, 0, 8589935 / 8589934592, 7549747 / 8388608, 1, 1, 1,
          10682249 / 1073741824, [], []⟩ [Call.process [100000000]] = some s ∧
      0 ≤ s.gain ∧ (reset s).gain = 1 ∧
      ∀ x : ℚ, ∃ s1 y, processSampleF f32 f64 sharpMath s x = some (s1, y) ∧ 0 ≤ s1.gain :=
  ⟨rounding_f32, rounding_f64, sharpMath_exp_bounds, by norm_num, by decide!, by norm_num,
    by norm_num, by decide!,
    (C8_gain_nonneg f32 f64 rounding_f32 rounding_f64 sharpMath sharpMath_exp_bounds
      1 (f32 (1 / 100)) 100 1 1000 (by norm_num) (by decide!) (by norm_num) (by norm_num)
      ⟨1, 1, 1000, 0, 8589935 / 8589934592, 7549747 / 8388608, 1, 1, 1,
        10682249 / 1073741824, [], []⟩ (by decide!) (by decide!)).2.2.2
      [Call.process [100000000]]⟩

theorem dcF_step (fl fd : ℚ → ℚ) (m : CMath) (L a r : ℚ) (N : ℕ) (A : ℚ) (s : State) (x : ℚ)
    (hJ : DCInv L a r N A s) (hx : |x| = A) :
    ∃ s1 y, processSampleF fl fd m s x = some (s1, y) ∧ DCInv L a r N A s1 ∧
      s1.lookahead_buffer.length = min (s.lookahead_buffer.length + 1) N ∧
      (s.lookahead_buffer.length + 1 < N → s1.gain = s.gain) ∧
      (N ≤ s.lookahead_buffer.length + 1 → s1.gain = (updateGainF fl s A).gain) := by
  obtain ⟨hinv, hn, hN, hlen, hall, hL, hac, hrc⟩ := hJ
  obtain ⟨s1, y, hstep, hb1, hm1, hn1, -⟩ := processSampleF_total fl fd m s x hinv (by omega)
  obtain ⟨c1, -, -, -, c5, c6, c7⟩ := processSampleF_config fl fd m s s1 x y hstep
  have hW : ∀ z ∈ s1.lookahead_buffer, |z| = A := by
    intro z hz
    rw [hb1] at hz
    rcases List.mem_append.1 (mem_window hz) with h | h
    · exact hall z h
    · rw [List.mem_singleton.1 h]
      exact hx
  have hlen1 : s1.lookahead_buffer.length = min (s.lookahead_buffer.length + 1) N := by
    have hle : (s.lookahead_buffer ++ [x]).length ≤ N + 1 := by
      simp only [List.length_append, List.length_singleton]
      omega
    rw [hb1, hn, length_window _ _ hle]
    simp
  have hmain : (s1.lookahead_buffer.length ≠ N → s1.gain = s.gain) ∧
      (s1.lookahead_buffer.length = N → s1.gain = (updateGainF fl s A).gain) := by
    obtain ⟨p, hp, hcase⟩ := (processSampleF_iff fl fd m s x s1 y).1 hstep
    obtain ⟨f1, f2, -, -, -, -, -, f8, f9, f10⟩ := push_frame s p x hp
    have hp2 := hp
    rw [push_sufMax s x hinv, Option.some.injEq] at hp2
    rcases hcase with ⟨hnot, rfl, _⟩ | ⟨hfull, cur, peak, _, hpeak, rfl, _⟩
    · refine ⟨fun _ => by simp [f2], fun hfull => ?_⟩
      exact absurd (by simpa [f8, hn] using hfull) hnot
    · refine ⟨fun hnot => absurd (by simpa [f8, hn] using hfull) hnot, fun _ => ?_⟩
      have hne : (updateNoiseEstimateF fl p x).lookahead_buffer ≠ [] := by
        intro h
        rw [h] at hfull
        simp only [List.length_nil, updateNoiseEstimateF_look_ahead_samples, f8, hn] at hfull
        omega
      have hpm : (updateNoiseEstimateF fl p x).lookahead_max
          = sufMax (updateNoiseEstimateF fl p x).lookahead_buffer := by
        rw [← hp2]
        simp
      obtain ⟨f, rest, e, hf, -⟩ := sufMax_head _ hne
      have hpk : peak = A := by
        simp only [max, hpm, e, Option.some.injEq] at hpeak
        rw [← hpeak]
        exact hW f (by simpa using hf)
      simp only [calculateNoiseReductionF_gain]
      rw [hpk]
      exact updateGainF_gain_congr fl s _ A (by simp [f2]) (by simp [f1]) (by simp [f9])
        (by simp [f10])
  refine ⟨s1, y, hstep, ⟨hm1, by rw [c5, hn], hN, by rw [hlen1]; omega, hW, by rw [c1, hL],
    by rw [c6, hac], by rw [c7, hrc]⟩, hlen1, ?_, ?_⟩
  · intro hlt
    exact hmain.1 (by rw [hlen1]; omega)
  · intro hge
    exact hmain.2 (by rw [hlen1]; omega)

theorem dcF_list (fl fd : ℚ → ℚ) (m : CMath) (L a r : ℚ) (N : ℕ) (A : ℚ) (xs : List ℚ)
    (s : State) (hJ : DCInv L a r N A s) (hxs : ∀ x ∈ xs, |x| = A) :
    ∃ s1 ys, processListF fl fd m s xs = some (s1, ys) ∧ DCInv L a r N A s1 ∧
      s1.lookahead_buffer.length = min (s.lookahead_buffer.length + xs.length) N ∧
      (s.lookahead_buffer.length + xs.length < N → s1.gain = s.gain) := by
  induction xs generalizing s with
  | nil =>
    refine ⟨s, [], rfl, hJ, ?_, fun _ => rfl⟩
    obtain ⟨-, -, -, hlen, -⟩ := hJ
    simp only [List.length_nil, Nat.add_zero]
    omega
  | cons x xs ih =>
    obtain ⟨s1, y, h1, hJ1, hl1, hg1, -⟩ :=
      dcF_step fl fd m L a r N A s x hJ (hxs x (by simp))
    obtain ⟨s2, ys, h2, hJ2, hl2, hg2⟩ :=
      ih s1 hJ1 (fun z hz => hxs z (List.mem_cons_of_mem _ hz))
    refine ⟨s2, y :: ys, by simp only [processListF, h1, h2], hJ2, ?_, ?_⟩
    · rw [hl2, hl1, List.length_cons]
      omega
    · intro hlt
      rw [List.length_cons] at hlt
      rw [hg2 (by rw [hl1]; omega), hg1 (by omega)]

theorem newF_dcInv (fl fd : ℚ → ℚ) (m : CMath) (L a r t sr : ℚ) (s0 : State)
    (h : newF fl fd m L a r t sr = some s0) (hN : 1 ≤ s0.look_ahead_samples) (A : ℚ) :
    DCInv L s0.attack_coeff s0.release_coeff s0.look_ahead_samples A s0 := by
  obtain ⟨-, e1, -, -, -, e5, e6⟩ := newF_eq_some fl fd m L a r t sr s0 h
  refine ⟨by rw [e5, e6]; rfl, rfl, hN, by rw [e5]; simp, by rw [e5]; simp, e1, rfl, rfl⟩

theorem updateGainF_stall (s : State) (h1 : s.gain = 1) (h2 : s.desired_level = 1)
    (h3 : s.attack_coeff = 5629499 / 562949953421312) : (updateGainF f32 s 2).gain = 1 := by
  rw [updateGainF_gain, h1, h2, h3]
  have hD : f32 ((1 : ℚ) / f32 (2 + f32 (1 / 10000000000))) = 1 / 2 := by decide!
  rw [hD, if_pos (by norm_num)]
  decide!

theorem stall_list (fd : ℚ → ℚ) (m : CMath) (r : ℚ) (xs : List ℚ) (s : State)
    (hJ : DCInv 1 (5629499 / 562949953421312) r 1 2 s) (hg : s.gain = 1)
    (hxs : ∀ x ∈ xs, |x| = 2) :
    ∃ s1 ys, processListF f32 fd m s xs = some (s1, ys) ∧ s1.gain = 1 := by
  induction xs generalizing s with
  | nil => exact ⟨s, [], rfl, hg⟩
  | cons x xs ih =>
    obtain ⟨s1, y, h1, hJ1, -, -, hg1⟩ :=
      dcF_step f32 fd m 1 (5629499 / 562949953421312) r 1 2 s x hJ (hxs x (by simp))
    have hs1 : s1.gain = 1 := by
      rw [hg1 (by omega)]
      exact updateGainF_stall s hg hJ.2.2.2.2.2.1 hJ.2.2.2.2.2.2.1
    obtain ⟨s2, ys, h2, hg2⟩ := ih s1 hJ1 hs1 (fun z hz => hxs z (List.mem_cons_of_mem _ hz))
    exact ⟨s2, y :: ys, by simp only [processListF, h1, h2], hg2⟩

/-- C6 as stated fails in the `float` arithmetic of the code: `AGC(1, 1e8, 100, 1, 1000)` has
positive arguments and `look_ahead_samples = 1`. On a DC signal of amplitude `2` the desired
gain is `0.5`, and every step computes `1 - attack_coeff * 0.5` with `attack_coeff` about
`1e-8`, which rounds to `1`: the gain is `1` after every number of samples and never comes
within `1 / 4` of `1 / (2 + 1e-10)`. -/
theorem C6_counterexample :
    ∃ s0, newF f32 f64 refMath 1 100000000 100 1 1000 = some s0 ∧
      s0.look_ahead_samples = 1 ∧ s0.attack_coeff = 5629499 / 562949953421312 ∧
      (∀ xs : List ℚ, (∀ x ∈ xs, |x| = 2) →
        ∃ s out, processF f32 f64 refMath s0 xs = some (s, out) ∧ s.gain = 1) ∧
      ¬ ∃ n0 : ℕ, ∀ xs : List ℚ, (∀ x ∈ xs, |x| = 2) → n0 ≤ xs.length →
        ∃ s out, processF f32 f64 refMath s0 xs = some (s, out) ∧
          |s.gain - 1 / (2 + 1 / 10000000000)| < 1 / 4 := by
  have h0 : newF f32 f64 refMath 1 100000000 100 1 1000
      = some ⟨1, 1, 1000, 0, 8589935 / 8589934592, 7549747 / 8388608, 1, 1,
          5629499 / 562949953421312, 10631107 / 1073741824, [], []⟩ := by
    decide!
  have hJ := newF_dcInv f32 f64 refMath 1 100000000 100 1 1000 _ h0 (by decide!) 2
  have hall : ∀ xs : List ℚ, (∀ x ∈ xs, |x| = 2) →
      ∃ s out, processF f32 f64 refMath
        ⟨1, 1, 1000, 0, 8589935 / 8589934592, 7549747 / 8388608, 1, 1,
          5629499 / 562949953421312, 10631107 / 1073741824, [], []⟩ xs = some (s, out) ∧
        s.gain = 1 := by
    intro xs hxs
    obtain ⟨s1, ys, h1, hg1⟩ := stall_list f64 refMath _ xs _ hJ rfl hxs
    exact ⟨s1, ys, by rw [processF_eq_processListF, h1], hg1⟩
  refine ⟨_, h0, rfl, rfl, hall, ?_⟩
  rintro ⟨n0, hn0⟩
  have hrep : ∀ x ∈ List.replicate n0 (2 : ℚ), |x| = 2 := by
    intro x hx
    rw [List.eq_of_mem_replicate hx]
    norm_num
  obtain ⟨s, out, hs, hlt⟩ := hn0 (List.replicate n0 2) hrep (by simp)
  obtain ⟨s1, out1, hs1, hg1⟩ := hall (List.replicate n0 2) hrep
  rw [hs1, Option.some.injEq, Prod.mk.injEq] at hs
  rw [← hs.1, hg1] at hlt
  norm_num [abs_lt] at hlt

/-- C6, amended. Gain on a constant-amplitude signal in `float` arithmetic (no overflow): for a
processor constructed with positive arguments and `N ≥ 1`, fed a DC signal whose every sample
has absolute value `A`, `process` returns, and at every sample: the gain is not negative; while
the window fills (fewer than `N` samples so far) the gain is `1`; every later step updates the
gain against the same target `D = fl(L / fl(A + 1e-10f))` by the rounded attack or release
formula, and the gain does not move away from `D` (it does not rise when `D < gain` and does
not fall otherwise) and stays at `D` once it is `D`. The gain need not come within every
tolerance of `L / (A + 1e-10)`: the update can stop moving before. -/
theorem C6_gain_tracks_target (fl fd : ℚ → ℚ) (hfl : Rounding fl) (hfd : Rounding fd) (m : CMath)
    (hexp : ∀ x : ℚ, x ≤ 0 → 0 ≤ m.exp x ∧ m.exp x ≤ 1)
    (desiredLevel attackTimeMs releaseTimeMs lookAheadTimeMs sr : ℚ)
    (hL : 0 < desiredLevel) (hat : 0 < attackTimeMs) (hrt : 0 < releaseTimeMs) (hsr : 0 < sr)
    (s0 : State)
    (h0 : newF fl fd m desiredLevel attackTimeMs releaseTimeMs lookAheadTimeMs sr = some s0)
    (hN : 1 ≤ s0.look_ahead_samples)
    (A : ℚ) (xs : List ℚ) (hxs : ∀ x ∈ xs, |x| = A) (x : ℚ) (hx : |x| = A) :
    ∃ s ys s1 y, processF fl fd m s0 xs = some (s, ys) ∧
      processSampleF fl fd m s x = some (s1, y) ∧ 0 ≤ s.gain ∧ 0 ≤ s1.gain ∧
      (xs.length + 1 < s0.look_ahead_samples → s.gain = 1 ∧ s1.gain = 1) ∧
      (s0.look_ahead_samples ≤ xs.length + 1 →
        s1.gain = (updateGainF fl s A).gain ∧
        (updateGainF fl s A).gain
          = (if fl (desiredLevel / fl (A + fl (1 / 10000000000))) < s.gain then
              fl (s.gain - fl (s0.attack_coeff
                * fl (s.gain - fl (desiredLevel / fl (A + fl (1 / 10000000000))))))
            else
              fl (s.gain + fl (s0.release_coeff
                * fl (fl (desiredLevel / fl (A + fl (1 / 10000000000))) - s.gain)))) ∧
        (fl (desiredLevel / fl (A + fl (1 / 10000000000))) < s.gain → s1.gain ≤ s.gain) ∧
        (¬ fl (desiredLevel / fl (A + fl (1 / 10000000000))) < s.gain → s.gain ≤ s1.gain) ∧
        (s.gain = fl (desiredLevel / fl (A + fl (1 / 10000000000))) → s1.gain = s.gain)) := by
  have hP0 := newF_gainInv fl fd hfl hfd m hexp desiredLevel attackTimeMs releaseTimeMs
    lookAheadTimeMs sr hL hat hrt hsr s0 h0
  obtain ⟨-, -, e2, -, -, e5, -⟩ := newF_eq_some fl fd m _ _ _ _ _ s0 h0
  have hJ0 := newF_dcInv fl fd m _ _ _ _ _ s0 h0 hN A
  obtain ⟨s, ys, hs, hJ, hl, hg⟩ := dcF_list fl fd m _ _ _ _ A xs s0 hJ0 hxs
  have hP : GainInv fl s :=
    processListF_induction fl fd m (GainInv fl)
      (fun t z t1 y ht hstep => processSampleF_gainInv fl fd hfl m t z t1 y ht hstep)
      xs s0 s ys hP0 hs
  obtain ⟨s1, y, h1, -, -, hg1, hu1⟩ := dcF_step fl fd m _ _ _ _ A s x hJ hx
  have hP1 := processSampleF_gainInv fl fd hfl m s x s1 y hP h1
  have hlen : s.lookahead_buffer.length = min xs.length s0.look_ahead_samples := by
    rw [hl, e5]
    simp
  refine ⟨s, ys, s1, y, by rw [processF_eq_processListF, hs], h1, hP.2.2.2.1, hP1.2.2.2.1,
    ?_, ?_⟩
  · intro hlt
    have e : s.gain = 1 := by
      rw [hg (by rw [e5]; simp only [List.length_nil]; omega), e2]
    exact ⟨e, by rw [hg1 (by rw [hlen]; omega), e]⟩
  · intro hge
    have hs1 := hu1 (by rw [hlen]; omega)
    obtain ⟨-, -, -, -, -, dL, da, dr⟩ := hJ
    obtain ⟨-, ha, hr, -, hgg⟩ := hP
    have hform := updateGainF_gain fl s A
    rw [dL, da, dr] at hform
    rw [da] at ha
    rw [dr] at hr
    refine ⟨hs1, hform, ?_, ?_, ?_⟩
    · intro hlt
      rw [hs1, hform, if_pos hlt]
      exact (gainStepF_attack fl hfl s.gain _ _ hgg (hfl.idem _) ha hlt).1
    · intro hnlt
      rw [hs1, hform, if_neg hnlt]
      exact (gainStepF_release fl hfl s.gain _ _ hgg (hfl.idem _) hr hnlt).1
    · intro heq
      rw [hs1, hform, ← heq, if_neg (lt_irrefl _)]
      simp [hfl.zero, hgg]

/-- C6, an instance in binary32 arithmetic on the stand-in `refMath`: the processor
`AGC(1, 10, 100, 2, 1000)` with a window of two samples, after the sample `2` and at the
sample `-2`. -/
theorem C6_gain_tracks_target_witness :
    Rounding f32 ∧ Rounding f64 ∧
    (∀ x : ℚ, x ≤ 0 → 0 ≤ refMath.exp x ∧ refMath.exp x ≤ 1) ∧
    (0 : ℚ) < 1 ∧ (0 : ℚ) < 10 ∧ (0 : ℚ) < 100 ∧ (0 : ℚ) < 1000 ∧
    newF f32 f64 refMath 1 10 100 2 1000
      = some ⟨1, 1, 1000, 0, 8589935 / 8589934592, 7549747 / 8388608, 1, 2,
          12201611 / 134217728, 10631107 / 1073741824, [], []⟩ ∧
    (∀ x ∈ [(2 : ℚ)], |x| = 2) ∧ |(-2 : ℚ)| = 2 ∧
    ∃ s ys s1 y,
      processF f32 f64 refMath
        ⟨1, 1, 1000, 0, 8589935 / 8589934592, 7549747 / 8388608, 1, 2,
          12201611 / 134217728, 10631107 / 1073741824, [], []⟩ [2] = some (s, ys) ∧
      processSampleF f32 f64 refMath s (-2) = some (s1, y) ∧ 0 ≤ s.gain ∧ 0 ≤ s1.gain ∧
      ([(2 : ℚ)].length + 1 < 2 → s.gain = 1 ∧ s1.gain = 1) ∧
      (2 ≤ [(2 : ℚ)].length + 1 →
        s1.gain = (updateGainF f32 s 2).gain ∧
        (updateGainF f32 s 2).gain
          = (if f32 (1 / f32 (2 + f32 (1 / 10000000000))) < s.gain then
              f32 (s.gain - f32 (12201611 / 134217728
                * f32 (s.gain - f32 (1 / f32 (2 + f32 (1 / 10000000000))))))
            else
              f32 (s.gain + f32 (10631107 / 1073741824
                * f32 (f32 (1 / f32 (2 + f32 (1 / 10000000000))) - s.gain)))) ∧
        (f32 (1 / f32 (2 + f32 (1 / 10000000000))) < s.gain → s1.gain ≤ s.gain) ∧
        (¬ f32 (1 / f32 (2 + f32 (1 / 10000000000))) < s.gain → s.gain ≤ s1.gain) ∧
        (s.gain = f32 (1 / f32 (2 + f32 (1 / 10000000000))) → s1.gain = s.gain)) :=
  ⟨rounding_f32, rounding_f64, refMath_exp_bounds_le, by norm_num, by norm_num, by norm_num,
    by norm_num, by decide!, by simp, by norm_num,
    C6_gain_tracks_target f32 f64 rounding_f32 rounding_f64 refMath refMath_exp_bounds_le
      1 10 100 2 1000 (by norm_num) (by norm_num) (by norm_num) (by norm_num)
      ⟨1, 1, 1000, 0, 8589935 / 8589934592, 7549747 / 8388608, 1, 2,
        12201611 / 134217728, 10631107 / 1073741824, [], []⟩ (by decide!) (by decide!)
      2 [2] (by simp) (-2) (by norm_num)⟩

theorem updateNoiseEstimateF_nonneg (fl : ℚ → ℚ) (hfl : Rounding fl) (s : State) (x : ℚ)
    (hs : NoiseInv s) : NoiseInv (updateNoiseEstimateF fl s x) := by
  obtain ⟨h0, h1, h2⟩ := hs
  have ht : 0 ≤ fl (1 / 10) ∧ fl (1 / 10) ≤ 1 :=
    ⟨hfl.nonneg (by norm_num), hfl.le_of_le (by norm_num) hfl.one⟩
  have hw1 : 0 ≤ fl (1 - s.noise_adapt_speed) := hfl.nonneg (by linarith)
  have hc : fl (s.noise_adapt_speed * fl (1 / 10)) ≤ 1 :=
    hfl.le_of_le (by nlinarith [ht.1, ht.2]) hfl.one
  have hw2 : 0 ≤ fl (1 - fl (s.noise_adapt_speed * fl (1 / 10))) := hfl.nonneg (by linarith)
  unfold updateNoiseEstimateF
  simp only
  split
  · refine ⟨?_, h1, h2⟩
    exact hfl.nonneg (add_nonneg (hfl.nonneg (mul_nonneg h0 hw1))
      (hfl.nonneg (mul_nonneg (abs_nonneg _) h1)))
  · refine ⟨?_, h1, h2⟩
    exact hfl.nonneg (add_nonneg (hfl.nonneg (mul_nonneg h0 hw2))
      (hfl.nonneg (mul_nonneg (hfl.nonneg (mul_nonneg (abs_nonneg _) h1)) ht.1)))

theorem processSampleF_noiseInv (fl fd : ℚ → ℚ) (hfl : Rounding fl) (m : CMath) (s : State)
    (x : ℚ) (s1 : State) (y : ℚ) (hs : NoiseInv s)
    (h : processSampleF fl fd m s x = some (s1, y)) : NoiseInv s1 := by
  obtain ⟨p, hp, hcase⟩ := (processSampleF_iff fl fd m s x s1 y).1 h
  obtain ⟨-, -, -, f4, f5, -, -, -, -, -⟩ := push_frame s p x hp
  have hpi : NoiseInv p := by
    unfold NoiseInv
    rw [f4, f5]
    exact hs
  have hu := updateNoiseEstimateF_nonneg fl hfl p x hpi
  rcases hcase with ⟨_, rfl, _⟩ | ⟨_, cur, peak, _, _, rfl, _⟩
  · exact hu
  · unfold NoiseInv at hu ⊢
    simpa using hu

theorem newF_noiseInv (fl fd : ℚ → ℚ) (hfl : Rounding fl) (m : CMath) (a b c d e : ℚ)
    (t0 : State) (h : newF fl fd m a b c d e = some t0) : NoiseInv t0 := by
  unfold newF at h
  split at h
  · exact absurd h (by simp)
  · simp only [Option.some.injEq] at h
    subst h
    exact ⟨le_refl _, hfl.nonneg (by norm_num), hfl.le_of_le (by norm_num) hfl.one⟩

/-- C11 as stated fails: from `noise_estimate = 0`, a NaN sample fails the test
`abs_sample < noise_estimate`, takes the else branch and leaves `noise_estimate` NaN, which is
not `>= 0`; the estimate stays NaN over the samples `1, 1` that follow. -/
theorem C11_counterexample :
    nupdateNoiseEstimateAll (1 / 1000) (some 0) [none] = none ∧
      nge (nupdateNoiseEstimateAll (1 / 1000) (some 0) [none]) (some 0) = false ∧
      nupdateNoiseEstimateAll (1 / 1000) (some 0) [none, some 1, some 1] = none := by
  decide!

/-- C11, amended. Noise estimate invariant on numbers: `noise_estimate` is `0` after
construction and after `reset`; from a state with `noise_estimate = 0` and for every sequence
`xs` of finite samples (none is NaN), the estimate after the `updateNoiseEstimate` calls on
`xs` is a number, non-negative and, computed without rounding error, at most the largest `|x|`
of `xs`, and it is the `noise_estimate` that `process` on `xs` leaves. With every `float`
operation rounded the estimate that `process` leaves is non-negative as well. -/
theorem C11_noise_estimate_bounds (m : CMath) (s0 : State) (xs : List ℚ)
    (h0 : s0.noise_estimate = 0) (hsp : s0.noise_adapt_speed = 1 / 1000) :
    ((∀ a b c d e : ℚ, (new m a b c d e).noise_estimate = 0) ∧
      ∀ t : State, (reset t).noise_estimate = 0) ∧
    (∃ e, nupdateNoiseEstimateAll (1 / 1000) (some 0) (xs.map some) = some e ∧
      e = (updateNoiseEstimateAll s0 xs).noise_estimate ∧ 0 ≤ e ∧ e ≤ maxAbs xs) ∧
    (∀ s out, process m s0 xs = some (s, out) →
      s.noise_estimate = (updateNoiseEstimateAll s0 xs).noise_estimate ∧
      0 ≤ s.noise_estimate ∧ s.noise_estimate ≤ maxAbs xs) ∧
    ∀ fl fd : ℚ → ℚ, Rounding fl → ∀ a b c d e t out,
      (newF fl fd m a b c d e).bind (fun t0 => processF fl fd m t0 xs) = some (t, out) →
      0 ≤ t.noise_estimate := by
  obtain ⟨hz, hb, hproc⟩ := noise_estimate_bounds m s0 xs h0 hsp
  refine ⟨hz, ⟨_, ?_, rfl, hb.1, hb.2⟩, hproc, ?_⟩
  · rw [← nupdateNoiseEstimateAll_some, hsp, h0]
  · intro fl fd hfl a b c d e t out h
    obtain ⟨t0, hn, hp⟩ := Option.bind_eq_some.1 h
    rw [processF_eq_processListF] at hp
    exact (processListF_induction fl fd m NoiseInv
      (fun u x u1 y hu hstep => processSampleF_noiseInv fl fd hfl m u x u1 y hu hstep)
      xs t0 t out (newF_noiseInv fl fd hfl m a b c d e t0 hn) hp).1

/-- C11, an instance: a window of two samples and the buffer `3, -4, 1`. -/
theorem C11_noise_estimate_bounds_witness :
    ((new refMath 1 10 100 2 1000).noise_estimate = 0 ∧
      (new refMath 1 10 100 2 1000).noise_adapt_speed = 1 / 1000) ∧
    (((∀ a b c d e : ℚ, (new refMath a b c d e).noise_estimate = 0) ∧
      ∀ t : State, (reset t).noise_estimate = 0) ∧
    (∃ e, nupdateNoiseEstimateAll (1 / 1000) (some 0) ([(3 : ℚ), -4, 1].map some) = some e ∧
      e = (updateNoiseEstimateAll (new refMath 1 10 100 2 1000) [3, -4, 1]).noise_estimate ∧
      0 ≤ e ∧ e ≤ maxAbs [3, -4, 1]) ∧
    (∀ s out, process refMath (new refMath 1 10 100 2 1000) [3, -4, 1] = some (s, out) →
      s.noise_estimate
        = (updateNoiseEstimateAll (new refMath 1 10 100 2 1000) [3, -4, 1]).noise_estimate ∧
      0 ≤ s.noise_estimate ∧ s.noise_estimate ≤ maxAbs [3, -4, 1]) ∧
    ∀ fl fd : ℚ → ℚ, Rounding fl → ∀ a b c d e t out,
      (newF fl fd refMath a b c d e).bind (fun t0 => processF fl fd refMath t0 [3, -4, 1])
        = some (t, out) →
      0 ≤ t.noise_estimate) :=
  ⟨⟨rfl, rfl⟩, C11_noise_estimate_bounds refMath (new refMath 1 10 100 2 1000) [3, -4, 1] rfl rfl⟩


end AGC
